import Mathlib

/-!
Verification of the data-structure library (hashtable.c, dlinkedlist.c, RAG.c)
via a shallow embedding in Lean.

Modelling conventions, shared by all components:
* C pointers that may be NULL are modelled as `Option`; a `void*` payload that
  the caller may legitimately pass as NULL is `Option V`.
* `malloc`-allocated, in-place mutated objects (RAG nodes, keyed-list nodes)
  live in an arena `List node`; a pointer to such an object is its index
  (allocation appends, `free` leaves the arena slot in place, dead).
* `size_t` counters are `Nat`.  The load-factor test
  `n_values >= size * MAX_LOAD_FACTOR` with `MAX_LOAD_FACTOR = 1.0` multiplies
  and compares in `double`; for the sizes a process can hold (`< 2^53`) the
  conversion is exact, so it is embedded as the exact test `size * 1 ≤ n_values`.
* caller-supplied callables: `compare` receives stored keys, which can be NULL
  after a removal, so it has type `Option K → Option K → Int`; likewise `hash`.
  The optional `free_*` callables are modelled as `Bool` flags (supplied or
  not) together with explicit traces of the arguments they are invoked on.
-/

set_option linter.unusedSectionVars false

namespace DSLib


/-! ### Hashtable embedding (src/hashtable.c, src/stack.h part hashtable.h) -/

/-- `#define INITIAL_TABLE_SIZE 49` -/
def INITIAL_TABLE_SIZE : Nat := 49

/-- `#define GROWTH_FACTOR 2` -/
def GROWTH_FACTOR : Nat := 2

/-- `#define MAX_LOAD_FACTOR 1.0`, exact as the natural number 1 (see header). -/
def MAX_LOAD_FACTOR_NUM : Nat := 1

/-- `struct ht_node { void* key; void* value; ht_node_t* next; }`.
The `next` pointer is the tail of the containing chain list; a cleared slot
(`key = value = next = NULL`) is `⟨none, none⟩` sitting last in its chain. -/
structure ht_node_t (K V : Type) where
  key : Option K
  value : Option V
deriving DecidableEq

/-- `struct hashtable { size_t size; size_t n_values; compare_t compare;
hash_t hash; ht_node_t** table; }`; `table` is a list of bucket chains. -/
structure hashtable_t (K V : Type) where
  size : Nat
  n_values : Nat
  compare : Option K → Option K → Int
  hash : Option K → Nat
  table : List (List (ht_node_t K V))

/-- `ht_create`: table of `size` empty buckets, `n_values = 0`. -/
def ht_create (size : Nat) (compare : Option K → Option K → Int)
    (hash : Option K → Nat) : hashtable_t K V :=
  { size := size, n_values := 0, compare := compare, hash := hash,
    table := List.replicate size [] }

/-- `ht_get_index`: `hash(key) % size` (probe keys are non-NULL, asserted). -/
def ht_get_index (ht : hashtable_t K V) (key : K) : Nat :=
  ht.hash (some key) % ht.size

/-- The bucket-traversal loop of `ht_get_node`: first chain node whose stored
key compares equal to the probe. -/
def ht_chain_find (compare : Option K → Option K → Int) (key : K) :
    List (ht_node_t K V) → Option (ht_node_t K V)
  | [] => none
  | n :: rest =>
      if compare n.key (some key) = 0 then some n
      else ht_chain_find compare key rest

/-- `ht_get_node`: walk the bucket `hash(key) % size` and return the first
entry whose key compares equal, NULL if none does. -/
def ht_get_node (ht : hashtable_t K V) (key : K) : Option (ht_node_t K V) :=
  ht_chain_find ht.compare key (ht.table.getD (ht_get_index ht key) [])

/-- `ht_search`: value of the found node, NULL when the key is not found. -/
def ht_search (ht : hashtable_t K V) (key : K) : Option V :=
  match ht_get_node ht key with
  | some node => node.value
  | none => none

/-- `ht_get_key`: stored key of the found node, NULL when not found. -/
def ht_get_key (ht : hashtable_t K V) (key : K) : Option K :=
  match ht_get_node ht key with
  | some node => node.key
  | none => none

/-- `ht_contains`. -/
def ht_contains (ht : hashtable_t K V) (key : K) : Bool :=
  (ht_get_node ht key).isSome

/-- `_needs_resize`: `n_values >= size * MAX_LOAD_FACTOR`. -/
def _needs_resize (ht : hashtable_t K V) : Bool :=
  ht.size * MAX_LOAD_FACTOR_NUM ≤ ht.n_values

/-- `_ht_copy_insert`: relink one existing node (its `next` is overwritten) at
the head of its rehashed bucket in the new table. -/
def _ht_copy_insert (new_size : Nat) (hash : Option K → Nat)
    (new_table : List (List (ht_node_t K V))) (node : ht_node_t K V) :
    List (List (ht_node_t K V)) :=
  let index := hash node.key % new_size
  new_table.set index (node :: new_table.getD index [])

/-- `_copy_ht`: for every bucket in order, for every chain node front to back,
transfer the node into the new table. -/
def _copy_ht (new_table : List (List (ht_node_t K V))) (src : hashtable_t K V)
    (new_size : Nat) : List (List (ht_node_t K V)) :=
  src.table.foldl
    (fun acc chain =>
      chain.foldl (fun acc2 node => _ht_copy_insert new_size src.hash acc2 node) acc)
    new_table

/-- `_resize_ht`: double the bucket array and rehash every node in place. -/
def _resize_ht (ht : hashtable_t K V) : hashtable_t K V :=
  let new_size := ht.size * GROWTH_FACTOR
  let new_table := _copy_ht (List.replicate new_size []) ht new_size
  { ht with size := new_size, table := new_table }

/-- The in-place `node->value = value` of `ht_insert`, acting on the bucket
chain: update the first node whose key compares equal. -/
def ht_chain_set_value (compare : Option K → Option K → Int) (key : K)
    (value : Option V) : List (ht_node_t K V) → List (ht_node_t K V)
  | [] => []
  | n :: rest =>
      if compare n.key (some key) = 0 then { n with value := value } :: rest
      else n :: ht_chain_set_value compare key value rest

/-- `ht_insert`: overwrite the value if the key is already present, otherwise
prepend a fresh node to its bucket, bump `n_values` and grow if needed. -/
def ht_insert (ht : hashtable_t K V) (key : K) (value : Option V) :
    hashtable_t K V :=
  let index := ht_get_index ht key
  match ht_get_node ht key with
  | some _ =>
      { ht with
        table := ht.table.set index
          (ht_chain_set_value ht.compare key value (ht.table.getD index [])) }
  | none =>
      let ht1 : hashtable_t K V :=
        { ht with
          table := ht.table.set index
            (⟨some key, value⟩ :: ht.table.getD index []),
          n_values := ht.n_values + 1 }
      if _needs_resize ht1 then _resize_ht ht1 else ht1

/-- `ht_unique_insert`: insert only when absent; also returns whether an
insertion happened. -/
def ht_unique_insert (ht : hashtable_t K V) (key : K) (value : Option V) :
    hashtable_t K V × Bool :=
  if ht_contains ht key then (ht, false) else (ht_insert ht key value, true)

/-- The chain surgery of `ht_remove` on the bucket of the removed key: at the
first node whose key compares equal, if the node has a chain successor the
successor's key/value/next are copied into the slot and the successor node is
freed (the slot takes the successor's place); if it has no successor the
slot's fields are cleared in place and the cleared node stays in the chain. -/
def ht_chain_remove (compare : Option K → Option K → Int) (key : K) :
    List (ht_node_t K V) → List (ht_node_t K V)
  | [] => []
  | n :: rest =>
      if compare n.key (some key) = 0 then
        match rest with
        | succ :: rest2 => succ :: rest2
        | [] => [⟨none, none⟩]
      else n :: ht_chain_remove compare key rest

/-- `ht_remove` (state part; the `free_key`/`free_value` callables do not
change the table state): if the key is found, splice its bucket chain as
described in `ht_chain_remove` and decrement `n_values`; the table is never
shrunk.  An absent key leaves the table untouched. -/
def ht_remove (ht : hashtable_t K V) (key : K) : hashtable_t K V :=
  let index := ht_get_index ht key
  match ht_get_node ht key with
  | some _ =>
      { ht with
        table := ht.table.set index
          (ht_chain_remove ht.compare key (ht.table.getD index [])),
        n_values := ht.n_values - 1 }
  | none => ht

/-- The arguments `ht_clean` passes to `free_key`, in traversal order (bucket
by bucket, chain front to back); stale cleared slots contribute their NULL
key.  (`ht_clean(ht, free_key, NULL)` invokes `free_value` never and
`free_key` on every chain node's key, without a NULL check.) -/
def ht_clean_key_events (ht : hashtable_t K V) : List (Option K) :=
  ht.table.foldl (fun acc chain => acc ++ chain.map (fun n => n.key)) []

/-- Stored keys handed to `compare` (as its first argument) while the
`ht_get_node` loop walks one chain: every node up to and including the first
match. -/
def ht_chain_probes (compare : Option K → Option K → Int) (key : K) :
    List (ht_node_t K V) → List (Option K)
  | [] => []
  | n :: rest =>
      if compare n.key (some key) = 0 then [n.key]
      else n.key :: ht_chain_probes compare key rest

/-- Stored keys handed to `compare` (as its first argument) during one
`ht_get_node` lookup. -/
def ht_lookup_probes (ht : hashtable_t K V) (key : K) : List (Option K) :=
  ht_chain_probes ht.compare key (ht.table.getD (ht_get_index ht key) [])

/-! ### Well-formedness invariant and content abstraction -/

variable {K V : Type} [DecidableEq K] [DecidableEq V]

/-- What the library relies on from a caller-supplied `compare`: zero iff the
two (non-NULL) keys are equal, and a NULL stored key equal to no probe key. -/
def cmpOk (compare : Option K → Option K → Int) : Prop :=
  (∀ a b : K, compare (some a) (some b) = 0 ↔ a = b) ∧
  (∀ b : K, compare none (some b) ≠ 0)

/-- Structural invariant of a hashtable: every live node sits in the bucket
of its hash, a key occurs in at most one live node, and `n_values` counts the
live (non-cleared) nodes. -/
structure WF (ht : hashtable_t K V) : Prop where
  cmp_ok : cmpOk ht.compare
  size_pos : 0 < ht.size
  len_eq : ht.table.length = ht.size
  placed : ∀ i, ∀ n ∈ ht.table.getD i [], ∀ k : K, n.key = some k →
    ht.hash (some k) % ht.size = i
  uniq : ∀ k : K, ht.table.flatten.countP (fun n => decide (n.key = some k)) ≤ 1
  count_eq : ht.n_values = ht.table.flatten.countP (fun n => n.key.isSome)

/-- The abstract content of a table: some live node stores `(k, w)`. -/
def HasPair (ht : hashtable_t K V) (k : K) (w : Option V) : Prop :=
  ∃ n ∈ ht.table.flatten, n.key = some k ∧ n.value = w

/-- A live node carries key `k`. -/
def HasKey (ht : hashtable_t K V) (k : K) : Prop :=
  ∃ n ∈ ht.table.flatten, n.key = some k

/-- Placement property of a bucket array under a given size and hash. -/
def placedP (s : Nat) (hash : Option K → Nat)
    (t : List (List (ht_node_t K V))) : Prop :=
  ∀ i, ∀ n ∈ t.getD i [], ∀ k : K, n.key = some k → hash (some k) % s = i

/-! ### Sequences of hashtable calls and their map-level meaning -/

/-- One observable hashtable call of the public mutating interface. -/
inductive ht_op (K V : Type) where
  | ins (key : K) (value : Option V)
  | rem (key : K)
deriving DecidableEq

def ht_apply (ht : hashtable_t K V) : ht_op K V → hashtable_t K V
  | .ins k v => ht_insert ht k v
  | .rem k => ht_remove ht k

def ht_run (S : Nat) (compare : Option K → Option K → Int)
    (hash : Option K → Nat) (ops : List (ht_op K V)) : hashtable_t K V :=
  ops.foldl ht_apply (ht_create S compare hash)

/-- Modelled from the spec sentence for C6 (the reference semantics the table
is compared against): the most recent insert of a key wins, removal deletes
it; `none` means the key is absent, `some w` that it is stored with value `w`. -/
def spec_step (m : K → Option (Option V)) : ht_op K V → (K → Option (Option V))
  | .ins j v => fun k => if j = k then some v else m k
  | .rem j => fun k => if j = k then none else m k

def spec_run (m : K → Option (Option V)) (ops : List (ht_op K V)) :
    K → Option (Option V) :=
  ops.foldl spec_step m

/-- Reference lookup after a call sequence, starting from the empty map. -/
def spec_lookup (ops : List (ht_op K V)) (k : K) : Option (Option V) :=
  spec_run (fun _ => none) ops k

/-! ### Growth behaviour of insert (load-factor invariant) -/

/-- Invariant driving the growth analysis: the table is non-trivial and the
load factor is strictly below 1 after every public call returns. -/
def ht_load_inv (ht : hashtable_t K V) : Prop :=
  1 ≤ ht.size ∧ ht.n_values < ht.size

/-- Proof-local name for the intermediate table `ht_insert` builds on the
fresh-key path before the resize check (`n_values` bumped, node prepended). -/
def ht_insert1 (ht : hashtable_t K V) (key : K) (value : Option V) :
    hashtable_t K V :=
  { ht with
    table := ht.table.set (ht_get_index ht key)
      (⟨some key, value⟩ :: ht.table.getD (ht_get_index ht key) []),
    n_values := ht.n_values + 1 }

def ht_run_inserts (S : Nat) (compare : Option K → Option K → Int)
    (hash : Option K → Nat) (pairs : List (K × Option V)) : hashtable_t K V :=
  pairs.foldl (fun h kv => ht_insert h kv.1 kv.2) (ht_create S compare hash)

/-- Concrete comparator used by the executable witnesses: zero iff equal;
NULL equals nothing but NULL. -/
def eqCmp {K : Type} [DecidableEq K] (a b : Option K) : Int :=
  if a = b then 0 else 1

/-! ### Resource Allocation Graph embedding (src/RAG.c; header RAG.h)

RAG nodes are malloc-allocated and mutated through shared pointers, so they
live in an arena (`heap : List (RAG_node_t I D)`); a `RAG_node_t*` is an
arena index, `NULL` is `none`.  The two order lists are C doubly-linked
lists that the RAG only ever creates, tail-inserts into and traverses head
to tail, so they are embedded as Lean lists in insertion order
(`DLL_insert_tail` = append). -/

inductive type_t where
  | PROCESS_T
  | RESOURCE_T
deriving DecidableEq

inductive status_t where
  | ADDED_NODE
  | UPDATED_NEXT
  | UPDATED_DATA
  | UPDATED_NEXT_DATA
  | NO_UPDATE
deriving DecidableEq

/-- `struct ckey { type_t type; void* id; }` (the id is non-NULL in use). -/
structure ckey_t (I : Type) where
  type : type_t
  id : I
deriving DecidableEq

/-- `struct RAG_node { ckey_t* key; void* data; RAG_node_t* _prev;
RAG_node_t* next; }`; `_prev`/`next` hold arena addresses. -/
structure RAG_node_t (I D : Type) where
  key : ckey_t I
  data : Option D
  _prev : Option Nat
  next : Option Nat
deriving DecidableEq

instance {I D : Type} [Inhabited I] : Inhabited (RAG_node_t I D) :=
  ⟨⟨⟨type_t.PROCESS_T, default⟩, none, none, none⟩⟩

/-- `struct RAG` together with the node arena. -/
structure RAG_t (I D : Type) where
  ht : hashtable_t (ckey_t I) Nat
  heap : List (RAG_node_t I D)
  proc_key_list : List (ckey_t I)
  res_key_list : List (ckey_t I)
  n_processes : Nat
  n_resources : Nat

variable {I D : Type} [DecidableEq I] [DecidableEq D] [Inhabited I]

/-- `RAG_create`: node table of `INITIAL_TABLE_SIZE` buckets, both order
lists empty, both counters zero. -/
def RAG_create (cmp : Option (ckey_t I) → Option (ckey_t I) → Int)
    (hash : Option (ckey_t I) → Nat) : RAG_t I D :=
  { ht := ht_create INITIAL_TABLE_SIZE cmp hash, heap := [],
    proc_key_list := [], res_key_list := [], n_processes := 0, n_resources := 0 }

/-- `RAG_increment`. -/
def RAG_increment (rag : RAG_t I D) (type : type_t) : RAG_t I D :=
  if type = type_t.PROCESS_T then
    { rag with n_processes := rag.n_processes + 1 }
  else
    { rag with n_resources := rag.n_resources + 1 }

/-- `RAG_decrement`: floors at zero (each branch is guarded by `> 0`). -/
def RAG_decrement (rag : RAG_t I D) (type : type_t) : RAG_t I D :=
  if type = type_t.PROCESS_T ∧ 0 < rag.n_processes then
    { rag with n_processes := rag.n_processes - 1 }
  else if type = type_t.RESOURCE_T ∧ 0 < rag.n_resources then
    { rag with n_resources := rag.n_resources - 1 }
  else rag

/-- `_RAG_create_node`: fresh node, `_prev = NULL`. -/
def _RAG_create_node (key : ckey_t I) (data : Option D) (next : Option Nat) :
    RAG_node_t I D :=
  { key := key, data := data, _prev := none, next := next }

/-- `_RAG_DLL_insert`: append the key to the order list of its type. -/
def _RAG_DLL_insert (rag : RAG_t I D) (key : ckey_t I) : RAG_t I D :=
  if key.type = type_t.PROCESS_T then
    { rag with proc_key_list := rag.proc_key_list ++ [key] }
  else
    { rag with res_key_list := rag.res_key_list ++ [key] }

/-- `RAG_insert` (soft): create the node when the key is absent; otherwise
fill only the currently-NULL fields among those supplied.  The update path
dereferences `ht_node->value` (an arena address; under the RAG invariant it
is a valid address, the model reads address 0 as a fallback). -/
def RAG_insert (rag : RAG_t I D) (key : ckey_t I) (data : Option D)
    (next : Option Nat) : RAG_t I D × status_t :=
  match ht_get_node rag.ht key with
  | none =>
      let node := _RAG_create_node key data next
      let addr := rag.heap.length
      let rag1 : RAG_t I D :=
        { rag with
          heap := rag.heap ++ [node],
          ht := (ht_unique_insert rag.ht key (some addr)).1 }
      let rag2 := _RAG_DLL_insert rag1 key
      (RAG_increment rag2 node.key.type, status_t.ADDED_NODE)
  | some ht_node =>
      let addr := ht_node.value.getD 0
      let node := rag.heap.getD addr default
      if next.isSome && node.next.isNone && (data.isSome && node.data.isNone) then
        ({ rag with
            heap := rag.heap.set addr { node with next := next, data := data } },
          status_t.UPDATED_NEXT_DATA)
      else if next.isSome && node.next.isNone then
        ({ rag with heap := rag.heap.set addr { node with next := next } },
          status_t.UPDATED_NEXT)
      else if data.isSome && node.data.isNone then
        ({ rag with heap := rag.heap.set addr { node with data := data } },
          status_t.UPDATED_DATA)
      else (rag, status_t.NO_UPDATE)

/-- `RAG_hard_insert`: identical creation path; on an existing node the
supplied fields are overwritten unconditionally. -/
def RAG_hard_insert (rag : RAG_t I D) (key : ckey_t I) (data : Option D)
    (next : Option Nat) : RAG_t I D × status_t :=
  match ht_get_node rag.ht key with
  | none =>
      let node := _RAG_create_node key data next
      let addr := rag.heap.length
      let rag1 : RAG_t I D :=
        { rag with
          heap := rag.heap ++ [node],
          ht := (ht_unique_insert rag.ht key (some addr)).1 }
      let rag2 := _RAG_DLL_insert rag1 key
      (RAG_increment rag2 node.key.type, status_t.ADDED_NODE)
  | some ht_node =>
      let addr := ht_node.value.getD 0
      let node := rag.heap.getD addr default
      if next.isSome && data.isSome then
        ({ rag with
            heap := rag.heap.set addr { node with next := next, data := data } },
          status_t.UPDATED_NEXT_DATA)
      else if next.isSome then
        ({ rag with heap := rag.heap.set addr { node with next := next } },
          status_t.UPDATED_NEXT)
      else if data.isSome then
        ({ rag with heap := rag.heap.set addr { node with data := data } },
          status_t.UPDATED_DATA)
      else (rag, status_t.NO_UPDATE)

/-- The loop body of `RAG_convert_to_undirected`: look the key's node up
(`ht_search`, dereferenced) and, if its `next` edge is set, write this node's
address into the target's `_prev` slot. -/
def _RAG_convert_step (rag : RAG_t I D) (key : ckey_t I) : RAG_t I D :=
  let addr := (ht_search rag.ht key).getD 0
  let node := rag.heap.getD addr default
  match node.next with
  | some naddr =>
      { rag with
        heap := rag.heap.set naddr
          { rag.heap.getD naddr default with _prev := some addr } }
  | none => rag

/-- `RAG_convert_to_undirected`: one pass over the process order list, then
one pass over the resource order list. -/
def RAG_convert_to_undirected (rag : RAG_t I D) : RAG_t I D :=
  rag.res_key_list.foldl _RAG_convert_step
    (rag.proc_key_list.foldl _RAG_convert_step rag)

/-! ### C3: counters, order lists and the node table -/

/-- One public graph-building RAG call (insert or hard insert). -/
inductive RAG_op (I D : Type) where
  | soft (key : ckey_t I) (data : Option D) (next : Option Nat)
  | hard (key : ckey_t I) (data : Option D) (next : Option Nat)

def RAG_apply (rag : RAG_t I D) : RAG_op I D → RAG_t I D
  | .soft k d n => (RAG_insert rag k d n).1
  | .hard k d n => (RAG_hard_insert rag k d n).1

def RAG_run (cmp : Option (ckey_t I) → Option (ckey_t I) → Int)
    (hash : Option (ckey_t I) → Nat) (ops : List (RAG_op I D)) : RAG_t I D :=
  ops.foldl RAG_apply (RAG_create cmp hash)

/-- The counter/order-list invariant the claim is about. -/
structure RAGCounts (rag : RAG_t I D) : Prop where
  wf : WF rag.ht
  proc_count : rag.n_processes = rag.proc_key_list.length
  res_count : rag.n_resources = rag.res_key_list.length
  proc_nodup : rag.proc_key_list.Nodup
  res_nodup : rag.res_key_list.Nodup
  proc_mem : ∀ k : ckey_t I, k ∈ rag.proc_key_list ↔
    (HasKey rag.ht k ∧ k.type = type_t.PROCESS_T)
  res_mem : ∀ k : ckey_t I, k ∈ rag.res_key_list ↔
    (HasKey rag.ht k ∧ k.type = type_t.RESOURCE_T)

/-! ### Keyed doubly linked list (src/unnamed/part_001 = dlinkedlist.c,
src/dlinkedlist.h)

The list nodes are `malloc`ed and mutated in place, so they live in an arena
`List (DLL_node_t D)`; `head`/`tail`/`prev`/`next` hold arena addresses
(`Option Nat`, NULL = `none`).  `free(node)` leaves the slot in place, dead.
The keyed variant (`DLL_HT`) indexes list nodes by key in a hashtable whose
stored values are node addresses. -/

structure DLL_node_t (D : Type) where
  data : Option D
  prev : Option Nat
  next : Option Nat
deriving DecidableEq

instance {D : Type} : Inhabited (DLL_node_t D) := ⟨⟨none, none, none⟩⟩

structure DLL_t (D : Type) where
  heap : List (DLL_node_t D)
  head : Option Nat
  tail : Option Nat
deriving DecidableEq

/-- `DLL_create`: empty list. -/
def DLL_create {D : Type} : DLL_t D := ⟨[], none, none⟩

/-- `DLL_insert_tail`: fresh node carrying `data` with `prev = old tail` and
`next = NULL`; the old tail's `next` is patched when there is one, the head is
set when the list was empty, and `tail` points at the new node. -/
def DLL_insert_tail (dll : DLL_t D) (data : Option D) : DLL_t D :=
  let addr := dll.heap.length
  let node : DLL_node_t D := ⟨data, dll.tail, none⟩
  let heap1 := dll.heap ++ [node]
  { heap :=
      match dll.tail with
      | some t => heap1.set t { heap1.getD t default with next := some addr }
      | none => heap1,
    head :=
      match dll.head with
      | none => some addr
      | some h => some h,
    tail := some addr }

/-- `DLL_pop`: unhook the head node and return its data; the freed node's
arena slot stays dead. -/
def DLL_pop (dll : DLL_t D) : Option D × DLL_t D :=
  match dll.head with
  | none => (none, dll)
  | some a =>
      let node := dll.heap.getD a default
      let heap1 :=
        match node.next with
        | some h => dll.heap.set h { dll.heap.getD h default with prev := none }
        | none => dll.heap
      (node.data,
        { heap := heap1, head := node.next,
          tail := if dll.tail = some a then none else dll.tail })

/-- The `while (dll->head)` loop of `DLL_clean`, fuel-bounded; the result is
the list of data values handed to `free_data`, in pop order (empty when the
callable is not supplied). -/
def DLL_clean_fuel (free_data : Bool) : Nat → DLL_t D → List (Option D)
  | 0, _ => []
  | fuel + 1, dll =>
      match dll.head with
      | none => []
      | some _ =>
          (if free_data then [(DLL_pop dll).1] else []) ++
            DLL_clean_fuel free_data fuel (DLL_pop dll).2

/-- `DLL_clean`: drain the list head first; fuel `heap.length + 1` covers any
acyclic list (each pop consumes one live node). -/
def DLL_clean (dll : DLL_t D) (free_data : Bool) : List (Option D) :=
  DLL_clean_fuel free_data (dll.heap.length + 1) dll

/-- One invocation of a caller-supplied free callable, with its argument. -/
inductive FreeEv (K D : Type) where
  | key : Option K → FreeEv K D
  | val : Option D → FreeEv K D
deriving DecidableEq

/-- `struct DLL_HT { DLL_t* list; hashtable_t* ht; }`; the index maps keys to
arena addresses of list nodes. -/
structure DLL_HT_t (K D : Type) where
  list : DLL_t D
  ht : hashtable_t K Nat

/-- `DLL_HT_create`: empty list, index of `INITIAL_TABLE_SIZE` buckets. -/
def DLL_HT_create (cmp : Option K → Option K → Int) (hash : Option K → Nat) :
    DLL_HT_t K D :=
  { list := DLL_create, ht := ht_create INITIAL_TABLE_SIZE cmp hash }

/-- `DLL_HT_insert`: no-op when the key is already indexed; otherwise tail
insertion followed by `ht_unique_insert` of the new tail node. -/
def DLL_HT_insert (s : DLL_HT_t K D) (key : K) (data : Option D) :
    DLL_HT_t K D :=
  if ht_contains s.ht key then s
  else
    let list1 := DLL_insert_tail s.list data
    let node := list1.tail.getD 0
    { list := list1, ht := (ht_unique_insert s.ht key (some node)).1 }

/-- The two pointer patches of `DLL_HT_remove` on the arena: the predecessor's
`next` (when there is one) and the successor's `prev` (when there is one) are
redirected around the removed slot `a`, in that order. -/
def DLL_unlink_heap (heap : List (DLL_node_t D)) (a : Nat) :
    List (DLL_node_t D) :=
  let node := heap.getD a default
  let heap1 :=
    match node.prev with
    | some p => heap.set p { heap.getD p default with next := node.next }
    | none => heap
  match node.next with
  | some q => heap1.set q { heap1.getD q default with prev := node.prev }
  | none => heap1

/-- `DLL_HT_remove`: `node = ht_search(ht, key)` is dereferenced (so the key
is assumed present); the node is unlinked (head/tail patched exactly when it
had no prev/next); `ht_remove(ht, key, NULL, NULL)` deletes the index entry
WITHOUT invoking any free callable; finally `free_data(node->data)` when the
callable is supplied, and the node itself is freed. -/
def DLL_HT_remove (s : DLL_HT_t K D) (key : K) (free_data : Bool) :
    DLL_HT_t K D × List (FreeEv K D) :=
  let addr := (ht_search s.ht key).getD 0
  let node := s.list.heap.getD addr default
  ({ list :=
      { heap := DLL_unlink_heap s.list.heap addr,
        head :=
          match node.prev with
          | some _ => s.list.head
          | none => node.next,
        tail :=
          match node.next with
          | some _ => s.list.tail
          | none => node.prev },
     ht := ht_remove s.ht key },
   if free_data then [FreeEv.val node.data] else [])

/-- `DLL_HT_clean`: `DLL_clean(list, free_data)` hands the drained nodes'
data to `free_data`; `ht_clean(ht, free_key, NULL)` then hands every index
chain slot's stored key (cleared slots included) to `free_key` and passes
nothing to any value free. -/
def DLL_HT_clean (s : DLL_HT_t K D) (free_key free_data : Bool) :
    List (FreeEv K D) :=
  (DLL_clean s.list free_data).map FreeEv.val ++
    (if free_key then (ht_clean_key_events s.ht).map FreeEv.key else [])

/-- One keyed-list call: insert, or remove with `free_data` supplied. -/
inductive dl_op (K D : Type) where
  | ins : K → Option D → dl_op K D
  | rem : K → dl_op K D
deriving DecidableEq

def DLL_HT_apply (s : DLL_HT_t K D) :
    dl_op K D → DLL_HT_t K D × List (FreeEv K D)
  | dl_op.ins k d => (DLL_HT_insert s k d, [])
  | dl_op.rem k => DLL_HT_remove s k true

def DLL_HT_run_from (s : DLL_HT_t K D) (ops : List (dl_op K D)) :
    DLL_HT_t K D × List (FreeEv K D) :=
  ops.foldl (fun acc op =>
    ((DLL_HT_apply acc.1 op).1, acc.2 ++ (DLL_HT_apply acc.1 op).2)) (s, [])

def DLL_HT_run (cmp : Option K → Option K → Int) (hash : Option K → Nat)
    (ops : List (dl_op K D)) : DLL_HT_t K D × List (FreeEv K D) :=
  DLL_HT_run_from (DLL_HT_create cmp hash) ops

/-- Free events of a whole keyed-list lifetime: the run's removals (each with
`free_data` supplied) followed by `DLL_HT_clean` with both callables. -/
def DLL_HT_trace (cmp : Option K → Option K → Int) (hash : Option K → Nat)
    (ops : List (dl_op K D)) : List (FreeEv K D) :=
  (DLL_HT_run cmp hash ops).2 ++
    DLL_HT_clean (DLL_HT_run cmp hash ops).1 true true

/-- Specification view of the keyed list: its `(key, value)` contents in list
order. -/
def dl_items : List (K × Option D) → dl_op K D → List (K × Option D)
  | items, dl_op.ins k d =>
      if k ∈ items.map Prod.fst then items else items ++ [(k, d)]
  | items, dl_op.rem k => items.filter (fun p => decide (¬ p.1 = k))

/-- Specification lookup: value of the first pair carrying the key. -/
def dl_lookup (items : List (K × Option D)) (k : K) : Option D :=
  match items.find? (fun p => decide (p.1 = k)) with
  | some p => p.2
  | none => none

/-- Guard: every removal targets a currently present key. -/
def dl_ok : List (K × Option D) → List (dl_op K D) → Bool
  | _, [] => true
  | items, dl_op.ins k d :: rest => dl_ok (dl_items items (dl_op.ins k d)) rest
  | items, dl_op.rem k :: rest =>
      decide (k ∈ items.map Prod.fst) &&
        dl_ok (dl_items items (dl_op.rem k)) rest

/-- Values stored by the effective (non-duplicate) inserts, in order. -/
def dl_inserted : List (K × Option D) → List (dl_op K D) → List (Option D)
  | _, [] => []
  | items, dl_op.ins k d :: rest =>
      (if k ∈ items.map Prod.fst then [] else [d]) ++
        dl_inserted (dl_items items (dl_op.ins k d)) rest
  | items, dl_op.rem k :: rest => dl_inserted (dl_items items (dl_op.rem k)) rest

/-- Values handed to `free_data` by the removals, in order. -/
def dl_removed : List (K × Option D) → List (dl_op K D) → List (Option D)
  | _, [] => []
  | items, dl_op.ins k d :: rest => dl_removed (dl_items items (dl_op.ins k d)) rest
  | items, dl_op.rem k :: rest =>
      dl_lookup items k :: dl_removed (dl_items items (dl_op.rem k)) rest

/-- First element of an address list, with a fallback. -/
def headOr : List Nat → Option Nat → Option Nat
  | [], nx => nx
  | b :: _, _ => some b

/-- Last element of an address list, with a fallback. -/
def lastOr (l : List Nat) (pa : Option Nat) : Option Nat :=
  match l.getLast? with
  | some x => some x
  | none => pa

/-- `chainSeg heap pa addrs nx`: the arena slots listed in `addrs` form a
doubly linked segment whose first node's `prev` is `pa` and whose last node's
`next` is `nx`, with consecutive nodes linked both ways. -/
def chainSeg (heap : List (DLL_node_t D)) :
    Option Nat → List Nat → Option Nat → Prop
  | _, [], _ => True
  | pa, a :: rest, nx =>
      a < heap.length ∧ (heap.getD a default).prev = pa ∧
      (heap.getD a default).next = headOr rest nx ∧
      chainSeg heap (some a) rest nx

/-- `live` is the complete head-to-tail chain of `dll`. -/
def DLL_rep (dll : DLL_t D) (live : List Nat) : Prop :=
  dll.head = live.head? ∧ dll.tail = live.getLast? ∧
  chainSeg dll.heap none live none ∧ live.Nodup

/-- The coupling invariant of a keyed list: some address list `live` realises
the doubly linked list, and item for item the arena slot holds the stored
value while the index maps the key to that slot; the index is well-formed,
holds exactly the listed keys, and the keys are pairwise distinct. -/
def DHinv (s : DLL_HT_t K D) (items : List (K × Option D)) : Prop :=
  ∃ live : List Nat,
    DLL_rep s.list live ∧
    List.Forall₂ (fun (a : Nat) (p : K × Option D) =>
      a < s.list.heap.length ∧
      (s.list.heap.getD a default).data = p.2 ∧
      HasPair s.ht p.1 (some a)) live items ∧
    WF s.ht ∧
    (items.map Prod.fst).Nodup ∧
    (∀ j : K, HasKey s.ht j ↔ j ∈ items.map Prod.fst)

/-! ### Theorems: chain and arena lemmas, invariants, and the claims -/

/-! ### Generic list lemmas about positional updates -/

theorem exists_set_split {α : Type _} :
    ∀ (l : List α) (i : Nat), i < l.length →
      ∃ l1 x l2, l = l1 ++ x :: l2 ∧ l1.length = i ∧ l[i]? = some x ∧
        ∀ y, l.set i y = l1 ++ y :: l2
  | x :: rest, 0, _ => ⟨[], x, rest, rfl, rfl, by simp, fun _ => rfl⟩
  | x :: rest, i + 1, h => by
      obtain ⟨l1, z, l2, hdec, hlen, hget, hset⟩ :=
        exists_set_split rest i (Nat.lt_of_succ_lt_succ (by simpa using h))
      refine ⟨x :: l1, z, l2, by simp [hdec], by simp [hlen], by simpa using hget, ?_⟩
      intro y
      simp [hset y]

theorem mem_flatten_of_getD {α : Type _} {t : List (List α)} {i : Nat} {x : α}
    (hx : x ∈ t.getD i []) : x ∈ t.flatten := by
  rw [List.getD_eq_getElem?_getD] at hx
  cases hti : t[i]? with
  | none => rw [hti] at hx; simp at hx
  | some c =>
      rw [hti] at hx
      exact List.mem_flatten.mpr ⟨c, List.getElem?_mem hti, hx⟩

theorem two_le_countP {α : Type _} {l : List α} {p : α → Bool} {a b : α}
    (ha : a ∈ l) (hb : b ∈ l) (hab : a ≠ b) (hpa : p a = true) (hpb : p b = true) :
    2 ≤ l.countP p := by
  induction l with
  | nil => cases ha
  | cons x rest ih =>
      rw [List.countP_cons]
      rcases List.mem_cons.mp ha with rfl | ha'
      · have hb' : b ∈ rest := by
          rcases List.mem_cons.mp hb with rfl | h
          · exact absurd rfl hab
          · exact h
        have hpos : 0 < rest.countP p := List.countP_pos_iff.mpr ⟨b, hb', hpb⟩
        rw [if_pos hpa]
        omega
      · rcases List.mem_cons.mp hb with rfl | hb'
        · have hpos : 0 < rest.countP p := List.countP_pos_iff.mpr ⟨a, ha', hpa⟩
          rw [if_pos hpb]
          omega
        · have := ih ha' hb'
          omega

/-! ### Bucket-chain lemmas -/

theorem ht_chain_find_eq_none {compare : Option K → Option K → Int} {key : K}
    {c : List (ht_node_t K V)} :
    ht_chain_find compare key c = none ↔ ∀ n ∈ c, compare n.key (some key) ≠ 0 := by
  induction c with
  | nil => simp [ht_chain_find]
  | cons n rest ih =>
      by_cases h : compare n.key (some key) = 0 <;> simp [ht_chain_find, h, ih]

theorem ht_chain_find_split {compare : Option K → Option K → Int} {key : K}
    {c : List (ht_node_t K V)} {n : ht_node_t K V}
    (h : ht_chain_find compare key c = some n) :
    compare n.key (some key) = 0 ∧
      ∃ c1 c2, c = c1 ++ n :: c2 ∧ ∀ m ∈ c1, compare m.key (some key) ≠ 0 := by
  induction c with
  | nil => simp [ht_chain_find] at h
  | cons x rest ih =>
      by_cases hx : compare x.key (some key) = 0
      · simp [ht_chain_find, hx] at h
        subst h
        exact ⟨hx, [], rest, rfl, by simp⟩
      · simp [ht_chain_find, hx] at h
        obtain ⟨hm, c1, c2, hdec, hpre⟩ := ih h
        refine ⟨hm, x :: c1, c2, by simp [hdec], ?_⟩
        intro m hm'
        rcases List.mem_cons.mp hm' with rfl | hmem
        · exact hx
        · exact hpre m hmem

theorem ht_chain_set_value_split {compare : Option K → Option K → Int} {key : K}
    {v : Option V} {n : ht_node_t K V} :
    ∀ {c1 c2 : List (ht_node_t K V)},
      (∀ m ∈ c1, compare m.key (some key) ≠ 0) → compare n.key (some key) = 0 →
      ht_chain_set_value compare key v (c1 ++ n :: c2) =
        c1 ++ { n with value := v } :: c2 := by
  intro c1
  induction c1 with
  | nil =>
      intro c2 _ hn
      simp [ht_chain_set_value, hn]
  | cons x rest ih =>
      intro c2 hpre hn
      have hx : compare x.key (some key) ≠ 0 := hpre x (List.mem_cons_self x rest)
      simp only [List.cons_append, ht_chain_set_value, if_neg hx, List.append_eq]
      rw [ih (fun m hm => hpre m (List.mem_cons_of_mem x hm)) hn]

theorem ht_chain_remove_split_mid {compare : Option K → Option K → Int} {key : K}
    {n succ : ht_node_t K V} :
    ∀ {c1 c2 : List (ht_node_t K V)},
      (∀ m ∈ c1, compare m.key (some key) ≠ 0) → compare n.key (some key) = 0 →
      ht_chain_remove compare key (c1 ++ n :: succ :: c2) = c1 ++ succ :: c2 := by
  intro c1
  induction c1 with
  | nil =>
      intro c2 _ hn
      simp [ht_chain_remove, hn]
  | cons x rest ih =>
      intro c2 hpre hn
      have hx : compare x.key (some key) ≠ 0 := hpre x (List.mem_cons_self x rest)
      simp only [List.cons_append, ht_chain_remove, if_neg hx, List.append_eq]
      rw [ih (fun m hm => hpre m (List.mem_cons_of_mem x hm)) hn]

theorem ht_chain_remove_split_last {compare : Option K → Option K → Int} {key : K}
    {n : ht_node_t K V} :
    ∀ {c1 : List (ht_node_t K V)},
      (∀ m ∈ c1, compare m.key (some key) ≠ 0) → compare n.key (some key) = 0 →
      ht_chain_remove compare key (c1 ++ [n]) = c1 ++ [(⟨none, none⟩ : ht_node_t K V)] := by
  intro c1
  induction c1 with
  | nil =>
      intro _ hn
      simp [ht_chain_remove, hn]
  | cons x rest ih =>
      intro hpre hn
      have hx : compare x.key (some key) ≠ 0 := hpre x (List.mem_cons_self x rest)
      simp only [List.cons_append, ht_chain_remove, if_neg hx, List.append_eq]
      rw [ih (fun m hm => hpre m (List.mem_cons_of_mem x hm)) hn]

theorem getD_set_ne {α : Type _} (t : List (List α)) {i j : Nat} (hij : i ≠ j)
    (c : List α) : (t.set i c).getD j [] = t.getD j [] := by
  rw [List.getD_eq_getElem?_getD, List.getElem?_set_ne hij,
    ← List.getD_eq_getElem?_getD]

theorem getD_set_self {α : Type _} {t : List (List α)} {i : Nat}
    (h : i < t.length) (c : List α) : (t.set i c).getD i [] = c := by
  rw [List.getD_eq_getElem?_getD, List.getElem?_set_self h]
  rfl

theorem mem_bucket_of_mem_flatten {ht : hashtable_t K V} (hwf : WF ht)
    {n : ht_node_t K V} {k : K} (hmem : n ∈ ht.table.flatten)
    (hkey : n.key = some k) :
    n ∈ ht.table.getD (ht.hash (some k) % ht.size) [] := by
  obtain ⟨c, hc, hnc⟩ := List.mem_flatten.mp hmem
  obtain ⟨i, hi, hci⟩ := List.mem_iff_getElem.mp hc
  have hgd : ht.table.getD i [] = c := by
    rw [List.getD_eq_getElem?_getD, List.getElem?_eq_getElem hi, hci]
    rfl
  have hpl := hwf.placed i n (hgd ▸ hnc) k hkey
  rw [hpl, hgd]
  exact hnc

theorem ht_get_node_eq_some_iff {ht : hashtable_t K V} (hwf : WF ht) {k : K}
    {n : ht_node_t K V} :
    ht_get_node ht k = some n ↔ n ∈ ht.table.flatten ∧ n.key = some k := by
  constructor
  · intro h
    obtain ⟨hcmp, c1, c2, hdec, _⟩ := ht_chain_find_split h
    have hmemb : n ∈ ht.table.getD (ht_get_index ht k) [] := by
      rw [hdec]
      exact List.mem_append_right c1 (List.mem_cons_self n c2)
    refine ⟨mem_flatten_of_getD hmemb, ?_⟩
    cases hk : n.key with
    | none => rw [hk] at hcmp; exact absurd hcmp (hwf.cmp_ok.2 k)
    | some a =>
        rw [hk] at hcmp
        exact congrArg some ((hwf.cmp_ok.1 a k).mp hcmp)
  · rintro ⟨hmem, hkey⟩
    have hbucket : n ∈ ht.table.getD (ht_get_index ht k) [] :=
      mem_bucket_of_mem_flatten hwf hmem hkey
    cases hfind : ht_get_node ht k with
    | none =>
        have := (ht_chain_find_eq_none.mp hfind) n hbucket
        rw [hkey] at this
        exact absurd ((hwf.cmp_ok.1 k k).mpr rfl) this
    | some n' =>
        obtain ⟨hcmp', c1, c2, hdec, _⟩ := ht_chain_find_split hfind
        have hmem' : n' ∈ ht.table.flatten := by
          refine mem_flatten_of_getD (t := ht.table) (i := ht_get_index ht k) ?_
          rw [hdec]
          exact List.mem_append_right c1 (List.mem_cons_self n' c2)
        have hkey' : n'.key = some k := by
          cases hk : n'.key with
          | none => rw [hk] at hcmp'; exact absurd hcmp' (hwf.cmp_ok.2 k)
          | some a =>
              rw [hk] at hcmp'
              exact congrArg some ((hwf.cmp_ok.1 a k).mp hcmp')
        by_cases hnn : n = n'
        · rw [hnn]
        · exfalso
          have h2 : 2 ≤ ht.table.flatten.countP (fun m => decide (m.key = some k)) :=
            two_le_countP hmem hmem' hnn (by simp [hkey]) (by simp [hkey'])
          have := hwf.uniq k
          omega

theorem ht_get_node_eq_none_iff {ht : hashtable_t K V} (hwf : WF ht) {k : K} :
    ht_get_node ht k = none ↔ ∀ n ∈ ht.table.flatten, n.key ≠ some k := by
  constructor
  · intro h n hmem hkey
    have hbucket : n ∈ ht.table.getD (ht_get_index ht k) [] :=
      mem_bucket_of_mem_flatten hwf hmem hkey
    have := (ht_chain_find_eq_none.mp h) n hbucket
    rw [hkey] at this
    exact absurd ((hwf.cmp_ok.1 k k).mpr rfl) this
  · intro h
    cases hfind : ht_get_node ht k with
    | none => rfl
    | some n =>
        obtain ⟨hmem, hkey⟩ := (ht_get_node_eq_some_iff hwf).mp hfind
        exact absurd hkey (h n hmem)

/-! ### Resize preserves length, content and placement -/

theorem _copy_ht_eq_foldl (new_table : List (List (ht_node_t K V)))
    (src : hashtable_t K V) (new_size : Nat) :
    _copy_ht new_table src new_size =
      src.table.flatten.foldl
        (fun acc node => _ht_copy_insert new_size src.hash acc node) new_table := by
  unfold _copy_ht
  rw [List.foldl_flatten]

theorem _ht_copy_insert_def (new_size : Nat) (hash : Option K → Nat)
    (acc : List (List (ht_node_t K V))) (node : ht_node_t K V) :
    _ht_copy_insert new_size hash acc node =
      acc.set (hash node.key % new_size)
        (node :: acc.getD (hash node.key % new_size) []) := rfl

theorem _ht_copy_insert_length (new_size : Nat) (hash : Option K → Nat)
    (acc : List (List (ht_node_t K V))) (node : ht_node_t K V) :
    (_ht_copy_insert new_size hash acc node).length = acc.length := by
  simp [_ht_copy_insert]

theorem copy_foldl_length (new_size : Nat) (hash : Option K → Nat) :
    ∀ (nodes : List (ht_node_t K V)) (acc : List (List (ht_node_t K V))),
      (nodes.foldl (fun a node => _ht_copy_insert new_size hash a node) acc).length =
        acc.length
  | [], _ => rfl
  | node :: rest, acc => by
      rw [List.foldl_cons, copy_foldl_length new_size hash rest]
      exact _ht_copy_insert_length new_size hash acc node

theorem _ht_copy_insert_flatten_countP (new_size : Nat) (hash : Option K → Nat)
    (acc : List (List (ht_node_t K V))) (node : ht_node_t K V)
    (hpos : 0 < new_size) (hlen : acc.length = new_size) (p : ht_node_t K V → Bool) :
    (_ht_copy_insert new_size hash acc node).flatten.countP p =
      acc.flatten.countP p + (if p node then 1 else 0) := by
  have hidx : hash node.key % new_size < acc.length := by
    rw [hlen]
    exact Nat.mod_lt _ hpos
  obtain ⟨t1, c, t2, hdec, _, hget, hset⟩ :=
    exists_set_split acc (hash node.key % new_size) hidx
  have hgd : acc.getD (hash node.key % new_size) [] = c := by
    rw [List.getD_eq_getElem?_getD, hget]
    rfl
  rw [_ht_copy_insert_def, hgd, hset, hdec]
  simp [List.countP_append, List.countP_cons]
  omega

theorem copy_foldl_flatten_countP (new_size : Nat) (hash : Option K → Nat)
    (hpos : 0 < new_size) (p : ht_node_t K V → Bool) :
    ∀ (nodes : List (ht_node_t K V)) (acc : List (List (ht_node_t K V))),
      acc.length = new_size →
      (nodes.foldl (fun a node => _ht_copy_insert new_size hash a node) acc).flatten.countP p =
        acc.flatten.countP p + nodes.countP p
  | [], acc, _ => by simp
  | node :: rest, acc, hlen => by
      rw [List.foldl_cons,
        copy_foldl_flatten_countP new_size hash hpos p rest _
          (by rw [_ht_copy_insert_length]; exact hlen),
        _ht_copy_insert_flatten_countP new_size hash acc node hpos hlen p,
        List.countP_cons]
      omega

theorem _ht_copy_insert_flatten_mem (new_size : Nat) (hash : Option K → Nat)
    (acc : List (List (ht_node_t K V))) (node : ht_node_t K V)
    (hpos : 0 < new_size) (hlen : acc.length = new_size) (x : ht_node_t K V) :
    (x ∈ (_ht_copy_insert new_size hash acc node).flatten ↔
      x = node ∨ x ∈ acc.flatten) := by
  have hidx : hash node.key % new_size < acc.length := by
    rw [hlen]
    exact Nat.mod_lt _ hpos
  obtain ⟨t1, c, t2, hdec, _, hget, hset⟩ :=
    exists_set_split acc (hash node.key % new_size) hidx
  have hgd : acc.getD (hash node.key % new_size) [] = c := by
    rw [List.getD_eq_getElem?_getD, hget]
    rfl
  rw [_ht_copy_insert_def, hgd, hset, hdec, List.flatten_append, List.flatten_cons,
    List.flatten_append, List.flatten_cons]
  simp only [List.mem_append, List.mem_cons]
  tauto

theorem copy_foldl_flatten_mem (new_size : Nat) (hash : Option K → Nat)
    (hpos : 0 < new_size) (x : ht_node_t K V) :
    ∀ (nodes : List (ht_node_t K V)) (acc : List (List (ht_node_t K V))),
      acc.length = new_size →
      (x ∈ (nodes.foldl (fun a node => _ht_copy_insert new_size hash a node) acc).flatten ↔
        x ∈ acc.flatten ∨ x ∈ nodes)
  | [], acc, _ => by simp
  | node :: rest, acc, hlen => by
      rw [List.foldl_cons,
        copy_foldl_flatten_mem new_size hash hpos x rest _
          (by rw [_ht_copy_insert_length]; exact hlen),
        _ht_copy_insert_flatten_mem new_size hash acc node hpos hlen x]
      simp only [List.mem_cons]
      tauto

theorem getD_replicate_nil {α : Type _} (n i : Nat) :
    (List.replicate n ([] : List α)).getD i [] = [] := by
  rw [List.getD_eq_getElem?_getD]
  rcases lt_or_ge i n with h | h
  · rw [List.getElem?_eq_getElem (by simpa using h)]
    simp
  · rw [List.getElem?_eq_none (by simpa using h)]
    rfl

theorem _ht_copy_insert_placedP (new_size : Nat) (hash : Option K → Nat)
    (acc : List (List (ht_node_t K V))) (node : ht_node_t K V)
    (hpos : 0 < new_size) (hlen : acc.length = new_size)
    (hp : placedP new_size hash acc) :
    placedP new_size hash (_ht_copy_insert new_size hash acc node) := by
  intro i n hn k hk
  by_cases hi : hash node.key % new_size = i
  · rw [_ht_copy_insert_def, ← hi,
      getD_set_self (by rw [hlen]; exact Nat.mod_lt _ hpos) _] at hn
    rcases List.mem_cons.mp hn with rfl | hmem
    · rw [← hi, hk]
    · exact hi ▸ hp (hash node.key % new_size) n hmem k hk
  · rw [_ht_copy_insert_def, getD_set_ne acc hi _] at hn
    exact hp i n hn k hk

theorem copy_foldl_placedP (new_size : Nat) (hash : Option K → Nat)
    (hpos : 0 < new_size) :
    ∀ (nodes : List (ht_node_t K V)) (acc : List (List (ht_node_t K V))),
      acc.length = new_size → placedP new_size hash acc →
      placedP new_size hash
        (nodes.foldl (fun a node => _ht_copy_insert new_size hash a node) acc)
  | [], _, _, hp => hp
  | node :: rest, acc, hlen, hp => by
      rw [List.foldl_cons]
      exact copy_foldl_placedP new_size hash hpos rest _
        (by rw [_ht_copy_insert_length]; exact hlen)
        (_ht_copy_insert_placedP new_size hash acc node hpos hlen hp)

theorem _resize_ht_fields (ht : hashtable_t K V) :
    (_resize_ht ht).size = ht.size * GROWTH_FACTOR ∧
    (_resize_ht ht).n_values = ht.n_values ∧
    (_resize_ht ht).compare = ht.compare ∧
    (_resize_ht ht).hash = ht.hash := by
  refine ⟨rfl, rfl, rfl, rfl⟩

theorem _resize_ht_len (ht : hashtable_t K V) :
    (_resize_ht ht).table.length = ht.size * GROWTH_FACTOR := by
  show (_copy_ht (List.replicate (ht.size * GROWTH_FACTOR) []) ht
      (ht.size * GROWTH_FACTOR)).length = ht.size * GROWTH_FACTOR
  rw [_copy_ht_eq_foldl, copy_foldl_length, List.length_replicate]

theorem _resize_ht_countP (ht : hashtable_t K V) (hpos : 0 < ht.size)
    (p : ht_node_t K V → Bool) :
    (_resize_ht ht).table.flatten.countP p = ht.table.flatten.countP p := by
  have hpos2 : 0 < ht.size * GROWTH_FACTOR := Nat.mul_pos hpos (by norm_num [GROWTH_FACTOR])
  show ((_copy_ht (List.replicate (ht.size * GROWTH_FACTOR) []) ht
      (ht.size * GROWTH_FACTOR)).flatten.countP p) = _
  rw [_copy_ht_eq_foldl,
    copy_foldl_flatten_countP _ ht.hash hpos2 p ht.table.flatten _
      (List.length_replicate _ _)]
  simp

theorem _resize_ht_mem (ht : hashtable_t K V) (hpos : 0 < ht.size)
    (x : ht_node_t K V) :
    x ∈ (_resize_ht ht).table.flatten ↔ x ∈ ht.table.flatten := by
  have hpos2 : 0 < ht.size * GROWTH_FACTOR := Nat.mul_pos hpos (by norm_num [GROWTH_FACTOR])
  show x ∈ (_copy_ht (List.replicate (ht.size * GROWTH_FACTOR) []) ht
      (ht.size * GROWTH_FACTOR)).flatten ↔ _
  rw [_copy_ht_eq_foldl,
    copy_foldl_flatten_mem _ ht.hash hpos2 x ht.table.flatten _
      (List.length_replicate _ _)]
  simp

theorem WF_resize {ht : hashtable_t K V} (hwf : WF ht) : WF (_resize_ht ht) := by
  have hpos2 : 0 < ht.size * GROWTH_FACTOR :=
    Nat.mul_pos hwf.size_pos (by norm_num [GROWTH_FACTOR])
  refine ⟨hwf.cmp_ok, hpos2, ?_, ?_, ?_, ?_⟩
  · rw [_resize_ht_len]
    rfl
  · have hplaced : placedP (ht.size * GROWTH_FACTOR) ht.hash (_resize_ht ht).table := by
      show placedP _ _ (_copy_ht (List.replicate (ht.size * GROWTH_FACTOR) []) ht
        (ht.size * GROWTH_FACTOR))
      rw [_copy_ht_eq_foldl]
      refine copy_foldl_placedP _ ht.hash hpos2 ht.table.flatten _
        (List.length_replicate _ _) ?_
      intro i n hn
      exfalso
      rw [getD_replicate_nil] at hn
      cases hn
    exact hplaced
  · intro k
    rw [_resize_ht_countP ht hwf.size_pos]
    exact hwf.uniq k
  · rw [_resize_ht_countP ht hwf.size_pos]
    exact hwf.count_eq

/-! ### Insert and remove: structural decomposition and invariant preservation -/

theorem flatten_replicate_nil {α : Type _} (n : Nat) :
    (List.replicate n ([] : List α)).flatten = [] := by
  induction n with
  | zero => rfl
  | succ m ih => simp [List.replicate_succ, ih]

theorem WF_create (S : Nat) (compare : Option K → Option K → Int)
    (hash : Option K → Nat) (hc : cmpOk compare) (hS : 0 < S) :
    WF (ht_create S compare hash (K := K) (V := V)) := by
  refine ⟨hc, hS, by simp [ht_create], ?_, ?_, ?_⟩
  · intro i n hn
    rw [show (ht_create S compare hash (K := K) (V := V)).table =
      List.replicate S [] from rfl, getD_replicate_nil] at hn
    cases hn
  · intro k
    rw [show (ht_create S compare hash (K := K) (V := V)).table =
      List.replicate S [] from rfl, flatten_replicate_nil]
    simp
  · rw [show (ht_create S compare hash (K := K) (V := V)).table =
      List.replicate S [] from rfl, flatten_replicate_nil]
    rfl

theorem ht_get_index_lt {ht : hashtable_t K V} (hwf : WF ht) (k : K) :
    ht_get_index ht k < ht.table.length := by
  rw [hwf.len_eq]
  exact Nat.mod_lt _ hwf.size_pos

theorem ht_insert_found_decomp {ht : hashtable_t K V} (hwf : WF ht) {k : K}
    {n0 : ht_node_t K V} (hfind : ht_get_node ht k = some n0) (v : Option V) :
    ∃ T1 c1 c2 T2,
      ht.table = T1 ++ (c1 ++ n0 :: c2) :: T2 ∧
      T1.length = ht_get_index ht k ∧
      (ht_insert ht k v).table =
        T1 ++ (c1 ++ { n0 with value := v } :: c2) :: T2 ∧
      (ht_insert ht k v).size = ht.size ∧
      (ht_insert ht k v).n_values = ht.n_values ∧
      (ht_insert ht k v).compare = ht.compare ∧
      (ht_insert ht k v).hash = ht.hash := by
  obtain ⟨T1, bucket, T2, hdec, hT1len, hget, hset⟩ :=
    exists_set_split ht.table (ht_get_index ht k) (ht_get_index_lt hwf k)
  have hgd : ht.table.getD (ht_get_index ht k) [] = bucket := by
    rw [List.getD_eq_getElem?_getD, hget]
    rfl
  have hchain : ht_chain_find ht.compare k bucket = some n0 := by
    rw [← hgd]
    exact hfind
  obtain ⟨hcmp, c1, c2, hbdec, hpre⟩ := ht_chain_find_split hchain
  have hsetv : ht_chain_set_value ht.compare k v bucket =
      c1 ++ { n0 with value := v } :: c2 := by
    rw [hbdec]
    exact ht_chain_set_value_split hpre hcmp
  have hins : ht_insert ht k v =
      { ht with
        table := ht.table.set (ht_get_index ht k)
          (ht_chain_set_value ht.compare k v
            (ht.table.getD (ht_get_index ht k) [])) } := by
    unfold ht_insert
    rw [hfind]
  refine ⟨T1, c1, c2, T2, by rw [hdec, hbdec], hT1len, ?_, by rw [hins], by rw [hins],
    by rw [hins], by rw [hins]⟩
  rw [hins]
  show ht.table.set (ht_get_index ht k) _ = _
  rw [hgd, hsetv, hset]

theorem ht_insert_fresh_inner {ht : hashtable_t K V} (hwf : WF ht) {k : K}
    (hfind : ht_get_node ht k = none) (v : Option V) :
    ∃ ht1 : hashtable_t K V,
      (ht_insert ht k v = if _needs_resize ht1 then _resize_ht ht1 else ht1) ∧
      ht1.size = ht.size ∧
      ht1.n_values = ht.n_values + 1 ∧
      ht1.compare = ht.compare ∧
      ht1.hash = ht.hash ∧
      WF ht1 ∧
      (∀ x : ht_node_t K V, x ∈ ht1.table.flatten ↔
        x = (⟨some k, v⟩ : ht_node_t K V) ∨ x ∈ ht.table.flatten) ∧
      (∀ p : ht_node_t K V → Bool, ht1.table.flatten.countP p =
        ht.table.flatten.countP p + (if p ⟨some k, v⟩ then 1 else 0)) := by
  obtain ⟨T1, bucket, T2, hdec, hT1len, hget, hset⟩ :=
    exists_set_split ht.table (ht_get_index ht k) (ht_get_index_lt hwf k)
  have hgd : ht.table.getD (ht_get_index ht k) [] = bucket := by
    rw [List.getD_eq_getElem?_getD, hget]
    rfl
  have hnokey : ∀ n ∈ ht.table.flatten, n.key ≠ some k :=
    (ht_get_node_eq_none_iff hwf).mp hfind
  refine ⟨{ ht with
      table := ht.table.set (ht_get_index ht k)
        ((⟨some k, v⟩ : ht_node_t K V) :: ht.table.getD (ht_get_index ht k) []),
      n_values := ht.n_values + 1 }, ?_, rfl, rfl, rfl, rfl, ?_, ?_, ?_⟩
  · unfold ht_insert
    rw [hfind]
  · refine ⟨hwf.cmp_ok, hwf.size_pos, by simpa using hwf.len_eq, ?_, ?_, ?_⟩
    · intro i n hn j hj
      by_cases hi : ht_get_index ht k = i
      · subst hi
        rw [show ({ ht with
              table := ht.table.set (ht_get_index ht k)
                ((⟨some k, v⟩ : ht_node_t K V) :: ht.table.getD (ht_get_index ht k) []),
              n_values := ht.n_values + 1 } : hashtable_t K V).table =
            ht.table.set (ht_get_index ht k)
              ((⟨some k, v⟩ : ht_node_t K V) :: ht.table.getD (ht_get_index ht k) [])
            from rfl,
          getD_set_self (ht_get_index_lt hwf k) _] at hn
        rcases List.mem_cons.mp hn with rfl | hmem
        · cases hj
          rfl
        · exact hwf.placed _ n hmem j hj
      · rw [show ({ ht with
              table := ht.table.set (ht_get_index ht k)
                ((⟨some k, v⟩ : ht_node_t K V) :: ht.table.getD (ht_get_index ht k) []),
              n_values := ht.n_values + 1 } : hashtable_t K V).table =
            ht.table.set (ht_get_index ht k)
              ((⟨some k, v⟩ : ht_node_t K V) :: ht.table.getD (ht_get_index ht k) [])
            from rfl,
          getD_set_ne ht.table hi _] at hn
        exact hwf.placed i n hn j hj
    · intro j
      have hflat : (ht.table.set (ht_get_index ht k)
          ((⟨some k, v⟩ : ht_node_t K V) :: bucket)).flatten =
          T1.flatten ++ ((⟨some k, v⟩ : ht_node_t K V) :: bucket) ++ T2.flatten := by
        rw [hset]
        simp [List.flatten_append]
      have hflatold : ht.table.flatten = T1.flatten ++ bucket ++ T2.flatten := by
        rw [hdec]
        simp [List.flatten_append]
      show ((ht.table.set (ht_get_index ht k)
          ((⟨some k, v⟩ : ht_node_t K V) :: ht.table.getD (ht_get_index ht k) [])).flatten.countP
            (fun n => decide (n.key = some j))) ≤ 1
      rw [hgd, hflat]
      by_cases hjk : j = k
      · have hz : ht.table.flatten.countP (fun n => decide (n.key = some j)) = 0 := by
          rw [List.countP_eq_zero]
          intro n hn
          simp only [decide_eq_true_eq]
          rw [hjk]
          exact hnokey n hn
        rw [hflatold, List.countP_append, List.countP_append] at hz
        rw [List.countP_append, List.countP_append, List.countP_cons]
        have hd : (if decide ((⟨some k, v⟩ : ht_node_t K V).key = some j) = true
            then 1 else 0) = 1 := by
          simp [hjk]
        rw [hd]
        omega
      · have hle := hwf.uniq j
        rw [hflatold] at hle
        simp only [List.countP_append, List.countP_cons] at hle ⊢
        have : (decide ((⟨some k, v⟩ : ht_node_t K V).key = some j) : Bool) = false := by
          simp
          exact fun h => hjk h.symm
        rw [this]
        simpa using hle
    · show ht.n_values + 1 = ((ht.table.set (ht_get_index ht k)
        ((⟨some k, v⟩ : ht_node_t K V) :: ht.table.getD (ht_get_index ht k) [])).flatten.countP
          (fun n => n.key.isSome))
      rw [hgd, hset]
      have hflatold : ht.table.flatten = T1.flatten ++ bucket ++ T2.flatten := by
        rw [hdec]
        simp [List.flatten_append]
      have := hwf.count_eq
      rw [hflatold] at this
      simp only [List.flatten_append, List.flatten_cons, List.countP_append,
        List.countP_cons] at this ⊢
      simp at this ⊢
      omega
  · intro x
    show x ∈ (ht.table.set (ht_get_index ht k)
        ((⟨some k, v⟩ : ht_node_t K V) :: ht.table.getD (ht_get_index ht k) [])).flatten ↔ _
    rw [hgd, hset, hdec]
    simp only [List.flatten_append, List.flatten_cons, List.mem_append, List.mem_cons]
    tauto
  · intro p
    show ((ht.table.set (ht_get_index ht k)
        ((⟨some k, v⟩ : ht_node_t K V) :: ht.table.getD (ht_get_index ht k) [])).flatten.countP p)
        = _
    rw [hgd, hset, hdec]
    simp only [List.flatten_append, List.flatten_cons, List.countP_append, List.countP_cons]
    omega

theorem getD_middle_self {α : Type _} (T1 : List (List α)) (X : List α)
    (T2 : List (List α)) : (T1 ++ X :: T2).getD T1.length [] = X := by
  rw [List.getD_eq_getElem?_getD, List.getElem?_append_right (Nat.le_refl _),
    Nat.sub_self]
  simp

theorem getD_middle_ne {α : Type _} (T1 : List (List α)) (X Y : List α)
    (T2 : List (List α)) {j : Nat} (hj : j ≠ T1.length) :
    (T1 ++ X :: T2).getD j [] = (T1 ++ Y :: T2).getD j [] := by
  rw [List.getD_eq_getElem?_getD, List.getD_eq_getElem?_getD]
  rcases Nat.lt_or_ge j T1.length with h | h
  · rw [List.getElem?_append_left h, List.getElem?_append_left h]
  · have h' : T1.length < j := lt_of_le_of_ne h (Ne.symm hj)
    rw [List.getElem?_append_right h, List.getElem?_append_right h]
    obtain ⟨d, hd⟩ : ∃ d, j - T1.length = d + 1 :=
      ⟨j - T1.length - 1, by omega⟩
    rw [hd]
    rfl

/-- Replacing the tail `old` of one bucket chain by `X` preserves the table
invariant, provided every key of `X` already keyed a node of `old` and no key
occurs more often in `X` than in `old`. -/
theorem WF_bucket_surgery {ht ht' : hashtable_t K V} (hwf : WF ht)
    {T1 T2 : List (List (ht_node_t K V))} {c1 w X : List (ht_node_t K V)}
    (hold : ht.table = T1 ++ (c1 ++ w) :: T2)
    (hnew : ht'.table = T1 ++ (c1 ++ X) :: T2)
    (hsz : ht'.size = ht.size) (hcmp : ht'.compare = ht.compare)
    (hhash : ht'.hash = ht.hash)
    (hXkeys : ∀ m ∈ X, (∃ m0 ∈ w, m.key = m0.key) ∨ m.key = none)
    (hXcount : ∀ j : K, X.countP (fun n => decide (n.key = some j)) ≤
      w.countP (fun n => decide (n.key = some j)))
    (hnvX : ht.n_values + X.countP (fun n => n.key.isSome) =
      ht'.n_values + w.countP (fun n => n.key.isSome)) :
    WF ht' := by
  have hlen : ht'.table.length = ht.table.length := by
    rw [hold, hnew]
    simp
  refine ⟨by rw [hcmp]; exact hwf.cmp_ok, by rw [hsz]; exact hwf.size_pos,
    by rw [hlen, hsz]; exact hwf.len_eq, ?_, ?_, ?_⟩
  · intro i n hn j hj
    rw [hhash, hsz]
    by_cases hi : i = T1.length
    · subst hi
      rw [hnew, getD_middle_self] at hn
      have hin : n ∈ c1 ∨ n ∈ X := by
        rcases List.mem_append.mp hn with h | h
        · exact Or.inl h
        · exact Or.inr h
      have hmem_old : ∃ m0 ∈ c1 ++ w, m0.key = some j := by
        rcases hin with h | h
        · exact ⟨n, List.mem_append_left w h, hj⟩
        · rcases hXkeys n h with ⟨m0, hm0, hkeq⟩ | hnone
          · exact ⟨m0, List.mem_append_right c1 hm0, by rw [← hkeq]; exact hj⟩
          · rw [hnone] at hj
            cases hj
      obtain ⟨m0, hm0, hm0k⟩ := hmem_old
      have := hwf.placed T1.length m0 (by rw [hold, getD_middle_self]; exact hm0) j hm0k
      exact this
    · rw [hnew, getD_middle_ne T1 (c1 ++ X) (c1 ++ w) T2 hi, ← hold] at hn
      exact hwf.placed i n hn j hj
  · intro j
    have hfl' : ht'.table.flatten =
        T1.flatten ++ (c1 ++ X) ++ T2.flatten := by
      rw [hnew]
      simp [List.flatten_append]
    have hfl : ht.table.flatten =
        T1.flatten ++ (c1 ++ w) ++ T2.flatten := by
      rw [hold]
      simp [List.flatten_append]
    have hle := hwf.uniq j
    rw [hfl] at hle
    rw [hfl']
    simp only [List.countP_append] at hle ⊢
    have := hXcount j
    omega
  · have hfl' : ht'.table.flatten =
        T1.flatten ++ (c1 ++ X) ++ T2.flatten := by
      rw [hnew]
      simp [List.flatten_append]
    have hfl : ht.table.flatten =
        T1.flatten ++ (c1 ++ w) ++ T2.flatten := by
      rw [hold]
      simp [List.flatten_append]
    have hc := hwf.count_eq
    rw [hfl] at hc
    rw [hfl']
    simp only [List.countP_append] at hc ⊢
    omega

theorem WF_insert {ht : hashtable_t K V} (hwf : WF ht) (k : K) (v : Option V) :
    WF (ht_insert ht k v) := by
  cases hfind : ht_get_node ht k with
  | some n0 =>
      obtain ⟨T1, c1, c2, T2, hold, hT1, hnew, hsz, hnv, hcmp, hhash⟩ :=
        ht_insert_found_decomp hwf hfind v
      refine WF_bucket_surgery hwf (w := n0 :: c2) (X := { n0 with value := v } :: c2)
        (by rw [hold]) (by rw [hnew]) hsz hcmp hhash ?_ ?_ ?_
      · intro m hm
        rcases List.mem_cons.mp hm with rfl | hmem
        · exact Or.inl ⟨n0, List.mem_cons_self n0 c2, rfl⟩
        · exact Or.inl ⟨m, List.mem_cons_of_mem n0 hmem, rfl⟩
      · intro j
        simp only [List.countP_cons]
        omega
      · rw [hnv]
        simp only [List.countP_cons]
  | none =>
      obtain ⟨ht1, heq, hsz, hnv, hcmp, hhash, hwf1, hmem, hcount⟩ :=
        ht_insert_fresh_inner hwf hfind v
      rw [heq]
      by_cases hres : _needs_resize ht1
      · rw [if_pos hres]
        exact WF_resize hwf1
      · rw [if_neg hres]
        exact hwf1

theorem ht_remove_not_found {ht : hashtable_t K V} {k : K}
    (hfind : ht_get_node ht k = none) : ht_remove ht k = ht := by
  unfold ht_remove
  rw [hfind]

theorem ht_remove_found_decomp {ht : hashtable_t K V} (hwf : WF ht) {k : K}
    {n0 : ht_node_t K V} (hfind : ht_get_node ht k = some n0) :
    ∃ T1 c1 c2 T2,
      ht.table = T1 ++ (c1 ++ n0 :: c2) :: T2 ∧
      T1.length = ht_get_index ht k ∧
      ((c2 = [] ∧ (ht_remove ht k).table =
          T1 ++ (c1 ++ [(⟨none, none⟩ : ht_node_t K V)]) :: T2) ∨
        (c2 ≠ [] ∧ (ht_remove ht k).table = T1 ++ (c1 ++ c2) :: T2)) ∧
      (ht_remove ht k).size = ht.size ∧
      (ht_remove ht k).n_values = ht.n_values - 1 ∧
      (ht_remove ht k).compare = ht.compare ∧
      (ht_remove ht k).hash = ht.hash ∧
      n0.key = some k := by
  obtain ⟨T1, bucket, T2, hdec, hT1len, hget, hset⟩ :=
    exists_set_split ht.table (ht_get_index ht k) (ht_get_index_lt hwf k)
  have hgd : ht.table.getD (ht_get_index ht k) [] = bucket := by
    rw [List.getD_eq_getElem?_getD, hget]
    rfl
  have hchain : ht_chain_find ht.compare k bucket = some n0 := by
    rw [← hgd]
    exact hfind
  obtain ⟨hcmp, c1, c2, hbdec, hpre⟩ := ht_chain_find_split hchain
  have hkey : n0.key = some k := ((ht_get_node_eq_some_iff hwf).mp hfind).2
  have hrem : ht_remove ht k =
      { ht with
        table := ht.table.set (ht_get_index ht k)
          (ht_chain_remove ht.compare k (ht.table.getD (ht_get_index ht k) [])),
        n_values := ht.n_values - 1 } := by
    unfold ht_remove
    rw [hfind]
  refine ⟨T1, c1, c2, T2, by rw [hdec, hbdec], hT1len, ?_, by rw [hrem],
    by rw [hrem], by rw [hrem], by rw [hrem], hkey⟩
  cases hc2 : c2 with
  | nil =>
      left
      refine ⟨rfl, ?_⟩
      rw [hrem]
      show ht.table.set (ht_get_index ht k) _ = _
      rw [hgd, hbdec, hc2, ht_chain_remove_split_last hpre hcmp, hset]
  | cons succ rest2 =>
      right
      refine ⟨by simp, ?_⟩
      rw [hrem]
      show ht.table.set (ht_get_index ht k) _ = _
      rw [hgd, hbdec, hc2, ht_chain_remove_split_mid hpre hcmp, hset]

theorem nvalues_pos_of_found {ht : hashtable_t K V} (hwf : WF ht) {k : K}
    {n0 : ht_node_t K V} (hfind : ht_get_node ht k = some n0) :
    1 ≤ ht.n_values := by
  obtain ⟨hmem, hkey⟩ := (ht_get_node_eq_some_iff hwf).mp hfind
  have : 0 < ht.table.flatten.countP (fun n => n.key.isSome) :=
    List.countP_pos.mpr ⟨n0, hmem, by rw [hkey]; rfl⟩
  rw [hwf.count_eq]
  omega

theorem WF_remove {ht : hashtable_t K V} (hwf : WF ht) (k : K) :
    WF (ht_remove ht k) := by
  cases hfind : ht_get_node ht k with
  | none => rw [ht_remove_not_found hfind]; exact hwf
  | some n0 =>
      obtain ⟨T1, c1, c2, T2, hold, hT1, hcases, hsz, hnv, hcmp, hhash, hkey⟩ :=
        ht_remove_found_decomp hwf hfind
      have hn1 : 1 ≤ ht.n_values := nvalues_pos_of_found hwf hfind
      rcases hcases with ⟨hc2, hnew⟩ | ⟨hc2, hnew⟩
      · subst hc2
        refine WF_bucket_surgery hwf (w := [n0])
          (X := [(⟨none, none⟩ : ht_node_t K V)])
          (by rw [hold]) (by rw [hnew]) hsz hcmp hhash ?_ ?_ ?_
        · intro m hm
          rcases List.mem_cons.mp hm with rfl | hmem
          · exact Or.inr rfl
          · cases hmem
        · intro j
          simp [List.countP_cons]
        · rw [hnv]
          have h1 : ([(⟨none, none⟩ : ht_node_t K V)]).countP
              (fun n => n.key.isSome) = 0 := by simp
          have h2 : ([n0]).countP (fun n => n.key.isSome) = 1 := by
            simp [hkey]
          rw [h1, h2]
          omega
      · refine WF_bucket_surgery hwf (w := n0 :: c2) (X := c2)
          (by rw [hold]) (by rw [hnew]) hsz hcmp hhash ?_ ?_ ?_
        · intro m hm
          exact Or.inl ⟨m, List.mem_cons_of_mem n0 hm, rfl⟩
        · intro j
          simp only [List.countP_cons]
          omega
        · rw [hnv]
          simp only [List.countP_cons, hkey, Option.isSome_some, if_true]
          omega

/-! ### Content characterisation of insert and remove -/

theorem countP_side_zero {F1 F2 : List (ht_node_t K V)} {n0 : ht_node_t K V}
    {p : ht_node_t K V → Bool}
    (hle : (F1 ++ n0 :: F2).countP p ≤ 1) (hp : p n0 = true) :
    (∀ m ∈ F1, p m = false) ∧ (∀ m ∈ F2, p m = false) := by
  rw [List.countP_append, List.countP_cons, hp] at hle
  simp at hle
  constructor
  · intro m hm
    by_contra hfalse
    have : 0 < F1.countP p :=
      List.countP_pos.mpr ⟨m, hm, by revert hfalse; cases p m <;> simp⟩
    omega
  · intro m hm
    by_contra hfalse
    have : 0 < F2.countP p :=
      List.countP_pos.mpr ⟨m, hm, by revert hfalse; cases p m <;> simp⟩
    omega

theorem HasPair_insert {ht : hashtable_t K V} (hwf : WF ht) (k : K)
    (v : Option V) (j : K) (w : Option V) :
    HasPair (ht_insert ht k v) j w ↔
      if j = k then w = v else HasPair ht j w := by
  cases hfind : ht_get_node ht k with
  | some n0 =>
      obtain ⟨T1, c1, c2, T2, hold, hT1, hnew, hsz, hnv, hcmp, hhash⟩ :=
        ht_insert_found_decomp hwf hfind v
      have hkey : n0.key = some k := ((ht_get_node_eq_some_iff hwf).mp hfind).2
      have hfl : ht.table.flatten =
          (T1.flatten ++ c1) ++ n0 :: (c2 ++ T2.flatten) := by
        rw [hold]
        simp [List.flatten_append]
      have hfl' : (ht_insert ht k v).table.flatten =
          (T1.flatten ++ c1) ++ { n0 with value := v } :: (c2 ++ T2.flatten) := by
        rw [hnew]
        simp [List.flatten_append]
      have huniq := hwf.uniq k
      rw [hfl] at huniq
      obtain ⟨hz1, hz2⟩ := countP_side_zero huniq (by simp [hkey])
      by_cases hjk : j = k
      · subst hjk
        rw [if_pos rfl]
        constructor
        · rintro ⟨n, hn, hnk, hnv'⟩
          rw [hfl'] at hn
          rcases List.mem_append.mp hn with h1 | h2
          · have := hz1 n h1
            simp [hnk] at this
          · rcases List.mem_cons.mp h2 with rfl | h3
            · rw [← hnv']
            · have := hz2 n h3
              simp [hnk] at this
        · intro hw
          refine ⟨{ n0 with value := v }, ?_, by simpa using hkey, by rw [hw]⟩
          rw [hfl']
          exact List.mem_append_right _ (List.mem_cons_self _ _)
      · rw [if_neg hjk]
        constructor
        · rintro ⟨n, hn, hnk, hnv'⟩
          rw [hfl'] at hn
          refine ⟨n, ?_, hnk, hnv'⟩
          rw [hfl]
          rcases List.mem_append.mp hn with h1 | h2
          · exact List.mem_append_left _ h1
          · rcases List.mem_cons.mp h2 with rfl | h3
            · exfalso
              apply hjk
              have : n0.key = some j := by simpa using hnk
              rw [hkey] at this
              exact (Option.some_injective K this).symm ▸ rfl
            · exact List.mem_append_right _ (List.mem_cons_of_mem _ h3)
        · rintro ⟨n, hn, hnk, hnv'⟩
          rw [hfl] at hn
          refine ⟨n, ?_, hnk, hnv'⟩
          rw [hfl']
          rcases List.mem_append.mp hn with h1 | h2
          · exact List.mem_append_left _ h1
          · rcases List.mem_cons.mp h2 with rfl | h3
            · exfalso
              apply hjk
              rw [hnk] at hkey
              exact Option.some_injective K hkey
            · exact List.mem_append_right _ (List.mem_cons_of_mem _ h3)
  | none =>
      obtain ⟨ht1, heq, hsz, hnv, hcmp, hhash, hwf1, hmem, hcount⟩ :=
        ht_insert_fresh_inner hwf hfind v
      have hnokey : ∀ n ∈ ht.table.flatten, n.key ≠ some k :=
        (ht_get_node_eq_none_iff hwf).mp hfind
      have hmem' : ∀ x : ht_node_t K V, x ∈ (ht_insert ht k v).table.flatten ↔
          x = (⟨some k, v⟩ : ht_node_t K V) ∨ x ∈ ht.table.flatten := by
        intro x
        rw [heq]
        by_cases hres : _needs_resize ht1
        · rw [if_pos hres, _resize_ht_mem ht1 (by rw [hsz]; exact hwf.size_pos) x]
          exact hmem x
        · rw [if_neg hres]
          exact hmem x
      by_cases hjk : j = k
      · subst hjk
        rw [if_pos rfl]
        constructor
        · rintro ⟨n, hn, hnk, hnv'⟩
          rcases (hmem' n).mp hn with rfl | h2
          · exact hnv'.symm
          · exact absurd hnk (hnokey n h2)
        · intro hw
          exact ⟨⟨some j, v⟩, (hmem' _).mpr (Or.inl rfl), rfl, hw.symm⟩
      · rw [if_neg hjk]
        constructor
        · rintro ⟨n, hn, hnk, hnv'⟩
          rcases (hmem' n).mp hn with rfl | h2
          · exfalso
            apply hjk
            simpa using hnk.symm
          · exact ⟨n, h2, hnk, hnv'⟩
        · rintro ⟨n, hn, hnk, hnv'⟩
          exact ⟨n, (hmem' n).mpr (Or.inr hn), hnk, hnv'⟩

theorem HasPair_remove {ht : hashtable_t K V} (hwf : WF ht) (k : K) (j : K)
    (w : Option V) :
    HasPair (ht_remove ht k) j w ↔ (j ≠ k ∧ HasPair ht j w) := by
  cases hfind : ht_get_node ht k with
  | none =>
      rw [ht_remove_not_found hfind]
      have hnokey : ∀ n ∈ ht.table.flatten, n.key ≠ some k :=
        (ht_get_node_eq_none_iff hwf).mp hfind
      constructor
      · rintro ⟨n, hn, hnk, hnv'⟩
        refine ⟨?_, n, hn, hnk, hnv'⟩
        rintro rfl
        exact hnokey n hn hnk
      · rintro ⟨_, h⟩
        exact h
  | some n0 =>
      obtain ⟨T1, c1, c2, T2, hold, hT1, hcases, hsz, hnv, hcmp, hhash, hkey⟩ :=
        ht_remove_found_decomp hwf hfind
      have hfl : ht.table.flatten =
          (T1.flatten ++ c1) ++ n0 :: (c2 ++ T2.flatten) := by
        rw [hold]
        simp [List.flatten_append]
      have huniq := hwf.uniq k
      rw [hfl] at huniq
      obtain ⟨hz1, hz2⟩ := countP_side_zero huniq (by simp [hkey])
      have hmemiff : ∀ x : ht_node_t K V,
          x ∈ (ht_remove ht k).table.flatten →
            x = (⟨none, none⟩ : ht_node_t K V) ∨
              (x ∈ (T1.flatten ++ c1) ∨ x ∈ (c2 ++ T2.flatten)) := by
        intro x hx
        rcases hcases with ⟨hc2, hnew⟩ | ⟨hc2, hnew⟩
        · subst hc2
          rw [hnew] at hx
          simp only [List.flatten_append, List.flatten_cons, List.mem_append,
            List.mem_cons, List.mem_singleton] at hx
          simp only [List.mem_append]
          tauto
        · rw [hnew] at hx
          simp only [List.flatten_append, List.flatten_cons, List.mem_append] at hx
          simp only [List.mem_append]
          tauto
      have hmemrev : ∀ x : ht_node_t K V,
          (x ∈ (T1.flatten ++ c1) ∨ x ∈ (c2 ++ T2.flatten)) →
            x ∈ (ht_remove ht k).table.flatten := by
        intro x hx
        rcases hcases with ⟨hc2, hnew⟩ | ⟨hc2, hnew⟩
        · subst hc2
          rw [hnew]
          simp only [List.flatten_append, List.flatten_cons, List.mem_append,
            List.mem_cons, List.mem_singleton] at hx ⊢
          tauto
        · rw [hnew]
          simp only [List.flatten_append, List.flatten_cons, List.mem_append] at hx ⊢
          tauto
      constructor
      · rintro ⟨n, hn, hnk, hnv'⟩
        rcases hmemiff n hn with rfl | hside
        · cases hnk
        · have hmemold : n ∈ ht.table.flatten := by
            rw [hfl]
            rcases hside with h | h
            · exact List.mem_append_left _ h
            · exact List.mem_append_right _ (List.mem_cons_of_mem _ h)
          refine ⟨?_, n, hmemold, hnk, hnv'⟩
          rintro rfl
          rcases hside with h | h
          · have := hz1 n h
            simp [hnk] at this
          · have := hz2 n h
            simp [hnk] at this
      · rintro ⟨hjk, n, hn, hnk, hnv'⟩
        rw [hfl] at hn
        refine ⟨n, ?_, hnk, hnv'⟩
        apply hmemrev
        rcases List.mem_append.mp hn with h1 | h2
        · exact Or.inl h1
        · rcases List.mem_cons.mp h2 with rfl | h3
          · exfalso
            apply hjk
            rw [hnk] at hkey
            exact Option.some_injective K hkey
          · exact Or.inr h3

theorem ht_contains_iff {ht : hashtable_t K V} (hwf : WF ht) (k : K) :
    ht_contains ht k = true ↔ HasKey ht k := by
  unfold ht_contains
  rw [Option.isSome_iff_exists]
  constructor
  · rintro ⟨n, hn⟩
    obtain ⟨hmem, hkey⟩ := (ht_get_node_eq_some_iff hwf).mp hn
    exact ⟨n, hmem, hkey⟩
  · rintro ⟨n, hmem, hkey⟩
    exact ⟨n, (ht_get_node_eq_some_iff hwf).mpr ⟨hmem, hkey⟩⟩

theorem ht_search_of_HasPair {ht : hashtable_t K V} (hwf : WF ht) {k : K}
    {w : Option V} (h : HasPair ht k w) : ht_search ht k = w := by
  obtain ⟨n, hmem, hkey, hval⟩ := h
  have : ht_get_node ht k = some n := (ht_get_node_eq_some_iff hwf).mpr ⟨hmem, hkey⟩
  unfold ht_search
  rw [this]
  exact hval

theorem ht_search_of_not_HasKey {ht : hashtable_t K V} (hwf : WF ht) {k : K}
    (h : ¬HasKey ht k) : ht_search ht k = none := by
  have : ht_get_node ht k = none := by
    rw [ht_get_node_eq_none_iff hwf]
    intro n hmem hkey
    exact h ⟨n, hmem, hkey⟩
  unfold ht_search
  rw [this]

theorem not_HasKey_of_no_pair {ht : hashtable_t K V} {k : K}
    (h : ∀ w, ¬HasPair ht k w) : ¬HasKey ht k := by
  rintro ⟨n, hmem, hkey⟩
  exact h n.value ⟨n, hmem, hkey, rfl⟩

theorem ht_run_aux :
    ∀ (ops : List (ht_op K V)) (ht : hashtable_t K V)
      (m : K → Option (Option V)),
      WF ht → (∀ k w, HasPair ht k w ↔ m k = some w) →
      WF (ops.foldl ht_apply ht) ∧
      (∀ k w, HasPair (ops.foldl ht_apply ht) k w ↔ spec_run m ops k = some w)
  | [], ht, m, hwf, habs => ⟨hwf, fun k w => by simpa [spec_run] using habs k w⟩
  | op :: rest, ht, m, hwf, habs => by
      have hstep : WF (ht_apply ht op) ∧
          (∀ k w, HasPair (ht_apply ht op) k w ↔ spec_step m op k = some w) := by
        cases op with
        | ins j v =>
            refine ⟨WF_insert hwf j v, ?_⟩
            intro k w
            rw [show ht_apply ht (ht_op.ins j v) = ht_insert ht j v from rfl,
              HasPair_insert hwf j v k w]
            show _ ↔ (if j = k then some v else m k) = some w
            by_cases hkj : k = j
            · subst hkj
              rw [if_pos rfl, if_pos rfl]
              constructor
              · intro h
                rw [h]
              · intro h
                exact (Option.some_injective _ h).symm
            · rw [if_neg hkj, if_neg (fun h => hkj h.symm)]
              exact habs k w
        | rem j =>
            refine ⟨WF_remove hwf j, ?_⟩
            intro k w
            rw [show ht_apply ht (ht_op.rem j) = ht_remove ht j from rfl,
              HasPair_remove hwf j k w]
            show _ ↔ (if j = k then none else m k) = some w
            by_cases hkj : k = j
            · subst hkj
              rw [if_pos rfl]
              simp
            · rw [if_neg (fun h => hkj h.symm)]
              constructor
              · rintro ⟨_, h⟩
                exact (habs k w).mp h
              · intro h
                exact ⟨hkj, (habs k w).mpr h⟩
      have := ht_run_aux rest (ht_apply ht op) (spec_step m op) hstep.1 hstep.2
      exact ⟨this.1, fun k w => by
        rw [List.foldl_cons] at *
        exact this.2 k w⟩

theorem ht_run_correct (S : Nat) (compare : Option K → Option K → Int)
    (hash : Option K → Nat) (hc : cmpOk compare) (hS : 0 < S)
    (ops : List (ht_op K V)) :
    WF (ht_run S compare hash ops) ∧
    (∀ k w, HasPair (ht_run S compare hash ops) k w ↔ spec_lookup ops k = some w) := by
  refine ht_run_aux ops (ht_create S compare hash) (fun _ => none)
    (WF_create S compare hash hc hS) ?_
  intro k w
  constructor
  · rintro ⟨n, hmem, _, _⟩
    rw [show (ht_create S compare hash (K := K) (V := V)).table =
      List.replicate S [] from rfl, flatten_replicate_nil] at hmem
    cases hmem
  · intro h
    cases h

theorem ht_run_search (S : Nat) (compare : Option K → Option K → Int)
    (hash : Option K → Nat) (hc : cmpOk compare) (hS : 0 < S)
    (ops : List (ht_op K V)) (k : K) :
    ht_search (ht_run S compare hash ops) k = (spec_lookup ops k).join ∧
    (ht_contains (ht_run S compare hash ops) k = true ↔
      (spec_lookup ops k).isSome) := by
  obtain ⟨hwf, habs⟩ := ht_run_correct S compare hash hc hS ops
  cases hspec : spec_lookup ops k with
  | some w =>
      have hp : HasPair (ht_run S compare hash ops) k w := (habs k w).mpr hspec
      refine ⟨?_, ?_⟩
      · rw [ht_search_of_HasPair hwf hp]
        rfl
      · rw [ht_contains_iff hwf]
        constructor
        · intro _
          rfl
        · intro _
          obtain ⟨n, hmem, hkey, _⟩ := hp
          exact ⟨n, hmem, hkey⟩
  | none =>
      have hnk : ¬HasKey (ht_run S compare hash ops) k := by
        apply not_HasKey_of_no_pair
        intro w hw
        rw [(habs k w).mp hw] at hspec
        cases hspec
      refine ⟨?_, ?_⟩
      · rw [ht_search_of_not_HasKey hwf hnk]
        rfl
      · rw [ht_contains_iff hwf]
        constructor
        · intro h
          exact absurd h hnk
        · intro h
          simp at h

theorem ht_insert_found_counters {ht : hashtable_t K V} {k : K}
    {n0 : ht_node_t K V} (hfind : ht_get_node ht k = some n0) (v : Option V) :
    (ht_insert ht k v).size = ht.size ∧
    (ht_insert ht k v).n_values = ht.n_values := by
  unfold ht_insert
  rw [hfind]
  exact ⟨rfl, rfl⟩

theorem ht_insert_fresh_eq {ht : hashtable_t K V} {k : K}
    (hfind : ht_get_node ht k = none) (v : Option V) :
    ht_insert ht k v =
      (if _needs_resize (ht_insert1 ht k v) then _resize_ht (ht_insert1 ht k v)
       else ht_insert1 ht k v) := by
  unfold ht_insert ht_insert1
  rw [hfind]

theorem ht_insert_fresh_counters {ht : hashtable_t K V} {k : K}
    (hfind : ht_get_node ht k = none) (v : Option V) :
    ((ht.size ≤ ht.n_values + 1 ∧
        (ht_insert ht k v).size = ht.size * GROWTH_FACTOR) ∨
      (ht.n_values + 1 < ht.size ∧ (ht_insert ht k v).size = ht.size)) ∧
    (ht_insert ht k v).n_values = ht.n_values + 1 := by
  rw [ht_insert_fresh_eq hfind v]
  by_cases hres : ht.size * MAX_LOAD_FACTOR_NUM ≤ ht.n_values + 1
  · have hb : _needs_resize (ht_insert1 ht k v) = true := by
      unfold _needs_resize ht_insert1
      simpa using hres
    rw [hb, if_pos rfl]
    refine ⟨Or.inl ⟨?_, rfl⟩, rfl⟩
    simpa [MAX_LOAD_FACTOR_NUM] using hres
  · have hb : _needs_resize (ht_insert1 ht k v) = false := by
      unfold _needs_resize ht_insert1
      simpa using hres
    rw [hb, if_neg (by simp)]
    refine ⟨Or.inr ⟨?_, rfl⟩, rfl⟩
    simp [MAX_LOAD_FACTOR_NUM] at hres
    omega

/-- One insert step: the load invariant is preserved, and the bucket array
doubles exactly when the resulting entry count reaches the old bucket count. -/
theorem ht_insert_growth (ht : hashtable_t K V) (k : K) (v : Option V)
    (hinv : ht_load_inv ht) :
    ht_load_inv (ht_insert ht k v) ∧
    ((ht_insert ht k v).size = ht.size * GROWTH_FACTOR ↔
      (ht_insert ht k v).n_values = ht.size) ∧
    ((ht_insert ht k v).size = ht.size ∨
      (ht_insert ht k v).size = ht.size * GROWTH_FACTOR) := by
  obtain ⟨hS, hlt⟩ := hinv
  cases hfind : ht_get_node ht k with
  | some n0 =>
      obtain ⟨hsz, hnv⟩ := ht_insert_found_counters hfind v
      refine ⟨⟨by omega, by omega⟩, ?_, Or.inl hsz⟩
      rw [hsz, hnv]
      constructor
      · intro h
        rw [GROWTH_FACTOR] at h
        omega
      · intro h
        omega
  | none =>
      obtain ⟨hcases, hnv⟩ := ht_insert_fresh_counters hfind v
      rcases hcases with ⟨hge, hsz⟩ | ⟨hlt2, hsz⟩
      · have heq : ht.n_values + 1 = ht.size := by omega
        refine ⟨⟨?_, ?_⟩, ?_, Or.inr hsz⟩
        · rw [hsz, GROWTH_FACTOR]
          omega
        · rw [hsz, hnv, GROWTH_FACTOR]
          omega
        · rw [hsz, hnv, heq]
          simp
      · refine ⟨⟨by omega, by rw [hsz, hnv]; omega⟩, ?_, Or.inl hsz⟩
        rw [hsz, hnv]
        constructor
        · intro h
          rw [GROWTH_FACTOR] at h
          omega
        · intro h
          omega

theorem ht_run_inserts_inv (S : Nat) (compare : Option K → Option K → Int)
    (hash : Option K → Nat) (hS : 1 ≤ S) (pairs : List (K × Option V)) :
    ht_load_inv (ht_run_inserts S compare hash pairs) := by
  suffices h : ∀ (ps : List (K × Option V)) (ht : hashtable_t K V),
      ht_load_inv ht → ht_load_inv (ps.foldl (fun h kv => ht_insert h kv.1 kv.2) ht) by
    exact h pairs _ ⟨hS, by simpa [ht_create] using hS⟩
  intro ps
  induction ps with
  | nil => intro ht h; exact h
  | cons p rest ih =>
      intro ht h
      rw [List.foldl_cons]
      exact ih _ (ht_insert_growth ht p.1 p.2 h).1

theorem ht_run_inserts_take_succ (S : Nat) (compare : Option K → Option K → Int)
    (hash : Option K → Nat) (pairs : List (K × Option V)) (i : Nat)
    (hi : i < pairs.length) :
    ht_run_inserts S compare hash (pairs.take (i + 1)) =
      ht_insert (ht_run_inserts S compare hash (pairs.take i))
        (pairs.get ⟨i, hi⟩).1 (pairs.get ⟨i, hi⟩).2 := by
  unfold ht_run_inserts
  rw [List.take_succ, List.foldl_append]
  rw [List.getElem?_eq_getElem hi]
  rfl

theorem cmpOk_eqCmp {K : Type} [DecidableEq K] : cmpOk (eqCmp (K := K)) := by
  constructor
  · intro a b
    unfold eqCmp
    by_cases h : a = b
    · subst h
      simp
    · rw [if_neg (fun hh => h (Option.some_injective K hh))]
      simp [h]
  · intro b
    unfold eqCmp
    rw [if_neg (by simp)]
    simp

theorem HasKey_of_HasPair {ht : hashtable_t K V} {k : K} {w : Option V}
    (h : HasPair ht k w) : HasKey ht k := by
  obtain ⟨n, hmem, hkey, _⟩ := h
  exact ⟨n, hmem, hkey⟩

theorem ht_chain_find_append_none {compare : Option K → Option K → Int}
    {key : K} {c1 c2 : List (ht_node_t K V)}
    (h : ∀ m ∈ c1, compare m.key (some key) ≠ 0) :
    ht_chain_find compare key (c1 ++ c2) = ht_chain_find compare key c2 := by
  induction c1 with
  | nil => rfl
  | cons x rest ih =>
      have hx := h x (List.mem_cons_self x rest)
      rw [List.cons_append]
      show (if compare x.key (some key) = 0 then some x else _) = _
      rw [if_neg hx]
      exact ih (fun m hm => h m (List.mem_cons_of_mem x hm))

theorem ht_chain_probes_of_none {compare : Option K → Option K → Int} {key : K}
    {c : List (ht_node_t K V)} (h : ht_chain_find compare key c = none) :
    ht_chain_probes compare key c = c.map (fun n => n.key) := by
  induction c with
  | nil => rfl
  | cons x rest ih =>
      have hall := ht_chain_find_eq_none.mp h
      have hx := hall x (List.mem_cons_self x rest)
      show (if compare x.key (some key) = 0 then [x.key]
        else x.key :: ht_chain_probes compare key rest) = _
      rw [if_neg hx, List.map_cons]
      rw [ih (ht_chain_find_eq_none.mpr (fun m hm => hall m (List.mem_cons_of_mem x hm)))]

/-! ### The claims -/

/-- **C5** (growth trigger): starting from a table of capacity `S ≥ 1`, along
any sequence of inserts with pairwise distinct keys, after each insert the
bucket count either stays or doubles; it doubles exactly when that insert's
resulting entry count reaches the previous bucket count (load factor 1.0 with
factor 2 growth), and after every insert `entry_count ≤ bucket_count`. -/
theorem claim5_growth_trigger (S : Nat) (compare : Option K → Option K → Int)
    (hash : Option K → Nat) (pairs : List (K × Option V)) (hS : 1 ≤ S)
    (hdistinct : (pairs.map Prod.fst).Nodup) (i : Nat) (hi : i < pairs.length) :
    ((ht_run_inserts S compare hash (pairs.take (i + 1))).size =
        (ht_run_inserts S compare hash (pairs.take i)).size * GROWTH_FACTOR ↔
      (ht_run_inserts S compare hash (pairs.take (i + 1))).n_values =
        (ht_run_inserts S compare hash (pairs.take i)).size) ∧
    ((ht_run_inserts S compare hash (pairs.take (i + 1))).size =
        (ht_run_inserts S compare hash (pairs.take i)).size ∨
      (ht_run_inserts S compare hash (pairs.take (i + 1))).size =
        (ht_run_inserts S compare hash (pairs.take i)).size * GROWTH_FACTOR) ∧
    (ht_run_inserts S compare hash (pairs.take (i + 1))).n_values ≤
      (ht_run_inserts S compare hash (pairs.take (i + 1))).size := by
  have hpre := ht_run_inserts_inv S compare hash hS (pairs.take i)
  have hstep := ht_run_inserts_take_succ S compare hash pairs i hi
  rw [hstep]
  obtain ⟨hinv', hiff, hor⟩ :=
    ht_insert_growth _ (pairs.get ⟨i, hi⟩).1 (pairs.get ⟨i, hi⟩).2 hpre
  exact ⟨hiff, hor, Nat.le_of_lt hinv'.2⟩

theorem claim5_witness :
    (ht_run_inserts 2 (eqCmp (K := Nat)) (fun _ => 0)
        ([((1 : Nat), some (1 : Nat)), (2, some 2), (3, some 3)].take 2)).size =
      (ht_run_inserts 2 (eqCmp (K := Nat)) (fun _ => 0)
        ([((1 : Nat), some (1 : Nat)), (2, some 2), (3, some 3)].take 1)).size *
        GROWTH_FACTOR := by
  have h := claim5_growth_trigger 2 (eqCmp (K := Nat)) (fun _ => 0)
    [((1 : Nat), some (1 : Nat)), (2, some 2), (3, some 3)]
    (by decide) (by decide) 1 (by decide)
  exact h.1.mpr (by decide)

/-- **C6** (last-write-wins): after any sequence of inserts and removes on a
table created with sound comparator and positive capacity, `ht_search k`
returns exactly the value recorded by the reference map (the most recent
insert of `k`, unless removed since), and `ht_contains k` holds iff the
reference map has `k`. -/
theorem claim6_last_write_wins (S : Nat) (compare : Option K → Option K → Int)
    (hash : Option K → Nat) (hc : cmpOk compare) (hS : 0 < S)
    (ops : List (ht_op K V)) (k : K) :
    ht_search (ht_run S compare hash ops) k = (spec_lookup ops k).join ∧
    (ht_contains (ht_run S compare hash ops) k = true ↔
      (spec_lookup ops k).isSome) :=
  ht_run_search S compare hash hc hS ops k

theorem claim6_witness :
    ht_search (ht_run 2 (eqCmp (K := Nat)) (fun _ => 0)
      [ht_op.ins 1 (some (5 : Nat)), ht_op.ins 1 (some 7)]) 1 = some 7 := by
  have h := claim6_last_write_wins 2 (eqCmp (K := Nat)) (fun _ => 0) cmpOk_eqCmp
    (by decide) [ht_op.ins 1 (some (5 : Nat)), ht_op.ins 1 (some 7)] 1
  rw [h.1]
  decide

/-- **C7** (remove frame and atomicity): removing a present key makes it
absent, decrements `n_values` by exactly one, never changes the bucket count,
and leaves every other key's search/contains result unchanged; removing an
absent key returns the table completely unchanged. -/
theorem claim7_remove_frame (ht : hashtable_t K V) (k : K) (hwf : WF ht) :
    (ht_contains ht k = true →
      ht_contains (ht_remove ht k) k = false ∧
      (ht_remove ht k).n_values + 1 = ht.n_values ∧
      (ht_remove ht k).size = ht.size ∧
      (∀ j, j ≠ k → ht_search (ht_remove ht k) j = ht_search ht j ∧
        ht_contains (ht_remove ht k) j = ht_contains ht j)) ∧
    (ht_contains ht k = false → ht_remove ht k = ht) := by
  constructor
  · intro hcont
    obtain ⟨n0, hfind⟩ := Option.isSome_iff_exists.mp hcont
    obtain ⟨T1, c1, c2, T2, hold, hT1, hcases, hsz, hnv, hcmp, hhash, hkey⟩ :=
      ht_remove_found_decomp hwf hfind
    have hn1 := nvalues_pos_of_found hwf hfind
    have hwf' := WF_remove hwf k
    refine ⟨?_, by omega, hsz, ?_⟩
    · cases habs : ht_contains (ht_remove ht k) k with
      | false => rfl
      | true =>
          exfalso
          obtain ⟨n, hmem, hkeyn⟩ := (ht_contains_iff hwf' k).mp habs
          have := (HasPair_remove hwf k k n.value).mp ⟨n, hmem, hkeyn, rfl⟩
          exact this.1 rfl
    · intro j hj
      have hiff : HasKey (ht_remove ht k) j ↔ HasKey ht j := by
        constructor
        · rintro ⟨n, hmem, hkeyn⟩
          exact HasKey_of_HasPair
            ((HasPair_remove hwf k j n.value).mp ⟨n, hmem, hkeyn, rfl⟩).2
        · rintro ⟨n, hmem, hkeyn⟩
          exact HasKey_of_HasPair
            ((HasPair_remove hwf k j n.value).mpr ⟨hj, n, hmem, hkeyn, rfl⟩)
      constructor
      · by_cases hhk : HasKey ht j
        · obtain ⟨n, hmem, hkeyn⟩ := hhk
          have hp : HasPair ht j n.value := ⟨n, hmem, hkeyn, rfl⟩
          have hp' : HasPair (ht_remove ht k) j n.value :=
            (HasPair_remove hwf k j n.value).mpr ⟨hj, hp⟩
          rw [ht_search_of_HasPair hwf' hp', ht_search_of_HasPair hwf hp]
        · have hnk' : ¬HasKey (ht_remove ht k) j := fun h => hhk (hiff.mp h)
          rw [ht_search_of_not_HasKey hwf' hnk', ht_search_of_not_HasKey hwf hhk]
      · cases hc1 : ht_contains (ht_remove ht k) j with
        | true =>
            have := hiff.mp ((ht_contains_iff hwf' j).mp hc1)
            exact ((ht_contains_iff hwf j).mpr this).symm
        | false =>
            cases hc2 : ht_contains ht j with
            | false => rfl
            | true =>
                exfalso
                have := hiff.mpr ((ht_contains_iff hwf j).mp hc2)
                have := (ht_contains_iff hwf' j).mpr this
                rw [hc1] at this
                cases this
  · intro hcont
    cases hfind : ht_get_node ht k with
    | none => exact ht_remove_not_found hfind
    | some n0 =>
        exfalso
        have : ht_contains ht k = true := by
          unfold ht_contains
          rw [hfind]
          rfl
        rw [hcont] at this
        cases this

theorem claim7_witness :
    ht_contains (ht_remove (ht_run 2 (eqCmp (K := Nat)) (fun _ => 0)
        [ht_op.ins 1 (some (5 : Nat)), ht_op.ins 2 (some 6)]) 1) 1 = false ∧
    (ht_remove (ht_run 2 (eqCmp (K := Nat)) (fun _ => 0)
        [ht_op.ins 1 (some (5 : Nat)), ht_op.ins 2 (some 6)]) 1).n_values + 1 =
      (ht_run 2 (eqCmp (K := Nat)) (fun _ => 0)
        [ht_op.ins 1 (some (5 : Nat)), ht_op.ins 2 (some 6)]).n_values ∧
    (ht_remove (ht_run 2 (eqCmp (K := Nat)) (fun _ => 0)
        [ht_op.ins 1 (some (5 : Nat)), ht_op.ins 2 (some 6)]) 1).size =
      (ht_run 2 (eqCmp (K := Nat)) (fun _ => 0)
        [ht_op.ins 1 (some (5 : Nat)), ht_op.ins 2 (some 6)]).size ∧
    ht_search (ht_remove (ht_run 2 (eqCmp (K := Nat)) (fun _ => 0)
        [ht_op.ins 1 (some (5 : Nat)), ht_op.ins 2 (some 6)]) 1) 2 =
      ht_search (ht_run 2 (eqCmp (K := Nat)) (fun _ => 0)
        [ht_op.ins 1 (some (5 : Nat)), ht_op.ins 2 (some 6)]) 2 := by
  have hwf : WF (ht_run 2 (eqCmp (K := Nat)) (fun _ => 0)
      [ht_op.ins 1 (some (5 : Nat)), ht_op.ins 2 (some 6)]) :=
    (ht_run_correct 2 (eqCmp (K := Nat)) (fun _ => 0) cmpOk_eqCmp (by decide) _).1
  have h := claim7_remove_frame _ 1 hwf
  have h1 := h.1 (by decide)
  exact ⟨h1.1, h1.2.1, h1.2.2.1, (h1.2.2.2 2 (by decide)).1⟩

/-- **C10** (search ambiguity): after any call sequence, `ht_search k` is NULL
iff the key is absent or its most recently inserted (and not removed) value is
NULL, so `ht_search` alone cannot separate the two; `ht_contains` reports
presence regardless of the stored value and separates them. -/
theorem claim10_search_ambiguity (S : Nat) (compare : Option K → Option K → Int)
    (hash : Option K → Nat) (hc : cmpOk compare) (hS : 0 < S)
    (ops : List (ht_op K V)) (k : K) :
    (ht_search (ht_run S compare hash ops) k = none ↔
      (spec_lookup ops k = none ∨ spec_lookup ops k = some none)) ∧
    (ht_contains (ht_run S compare hash ops) k = true ↔
      (spec_lookup ops k).isSome) := by
  obtain ⟨hsearch, hcont⟩ := ht_run_search S compare hash hc hS ops k
  refine ⟨?_, hcont⟩
  rw [hsearch]
  cases hspec : spec_lookup ops k with
  | none => simp
  | some w => cases w <;> simp

theorem claim10_witness :
    ht_search (ht_run 2 (eqCmp (K := Nat)) (fun _ => 0)
      [ht_op.ins 3 (none : Option Nat)]) 3 = none ∧
    ht_contains (ht_run 2 (eqCmp (K := Nat)) (fun _ => 0)
      [ht_op.ins 3 (none : Option Nat)]) 3 = true := by
  have h := claim10_search_ambiguity 2 (eqCmp (K := Nat)) (fun _ => 0) cmpOk_eqCmp
    (by decide) [ht_op.ins 3 (none : Option Nat)] 3
  exact ⟨h.1.mpr (Or.inr (by decide)), h.2.mpr (by decide)⟩

/-- C9 as stated is false: after `ht_remove` clears a slot, a later lookup
hashing to that bucket that matches an earlier chain node returns before
reaching the cleared node and never hands its NULL key to `compare`.  In this
table the cleared node sits in bucket 0, key 10 hashes to bucket 0, its lookup
succeeds, and NULL is not among the keys probed. -/
theorem claim9_counterexample :
    ((⟨none, none⟩ : ht_node_t Nat Nat) ∈
      (ht_remove (ht_insert (ht_insert
        (ht_create 2 (eqCmp (K := Nat)) (fun _ => 0)) 10 (some 1)) 20 (some 2))
        20).table.getD 0 []) ∧
    ht_get_index (ht_remove (ht_insert (ht_insert
      (ht_create 2 (eqCmp (K := Nat)) (fun _ => 0)) 10 (some 1)) 20 (some 2))
      20) 10 = 0 ∧
    (ht_get_node (ht_remove (ht_insert (ht_insert
      (ht_create 2 (eqCmp (K := Nat)) (fun _ => 0)) 10 (some 1)) 20 (some 2))
      20) 10).isSome = true ∧
    (none : Option Nat) ∉ ht_lookup_probes (ht_remove (ht_insert (ht_insert
      (ht_create 2 (eqCmp (K := Nat)) (fun _ => 0)) 10 (some 1)) 20 (some 2))
      20) 10 := by
  decide

/-- **C9 amended**: removing a present key whose chain entry has no successor
leaves the cleared node `⟨NULL, NULL⟩` in place at the end of its bucket; it
is revisited by any full traversal of that bucket, and every subsequent
*unsuccessful* lookup hashing to that bucket hands the NULL stored key to
`compare` — but a lookup that matches an earlier chain node stops before the
cleared slot (see the counterexample), so only lookups that reach the end of
the chain require a NULL-tolerant `compare`. -/
theorem claim9_amended (ht : hashtable_t K V) (k : K)
    (pre : List (ht_node_t K V)) (n0 : ht_node_t K V)
    (hlen : ht_get_index ht k < ht.table.length)
    (hbucket : ht.table.getD (ht_get_index ht k) [] = pre ++ [n0])
    (hpre : ∀ m ∈ pre, ht.compare m.key (some k) ≠ 0)
    (hmatch : ht.compare n0.key (some k) = 0) :
    (ht_remove ht k).table.getD (ht_get_index ht k) [] =
      pre ++ [(⟨none, none⟩ : ht_node_t K V)] ∧
    (⟨none, none⟩ : ht_node_t K V) ∈
      (ht_remove ht k).table.getD (ht_get_index ht k) [] ∧
    (∀ j : K, ht_get_index (ht_remove ht k) j = ht_get_index ht k →
      ht_get_node (ht_remove ht k) j = none →
      (none : Option K) ∈ ht_lookup_probes (ht_remove ht k) j) := by
  have hfind : ht_get_node ht k = some n0 := by
    unfold ht_get_node
    rw [hbucket, ht_chain_find_append_none hpre]
    show (if ht.compare n0.key (some k) = 0 then some n0 else _) = some n0
    rw [if_pos hmatch]
  have hrem : ht_remove ht k =
      { ht with
        table := ht.table.set (ht_get_index ht k)
          (ht_chain_remove ht.compare k (ht.table.getD (ht_get_index ht k) [])),
        n_values := ht.n_values - 1 } := by
    unfold ht_remove
    rw [hfind]
  have hchainrem : ht_chain_remove ht.compare k (pre ++ [n0]) =
      pre ++ [(⟨none, none⟩ : ht_node_t K V)] :=
    ht_chain_remove_split_last hpre hmatch
  have hb' : (ht_remove ht k).table.getD (ht_get_index ht k) [] =
      pre ++ [(⟨none, none⟩ : ht_node_t K V)] := by
    rw [hrem]
    show (ht.table.set (ht_get_index ht k)
      (ht_chain_remove ht.compare k (ht.table.getD (ht_get_index ht k) []))).getD
        (ht_get_index ht k) [] = _
    rw [hbucket, getD_set_self hlen, hchainrem]
  refine ⟨hb', by rw [hb']; exact List.mem_append_right pre (List.mem_cons_self _ _), ?_⟩
  intro j hidx hmiss
  have hcmpeq : (ht_remove ht k).compare = ht.compare := by rw [hrem]
  have hfound : ht_chain_find (ht_remove ht k).compare j
      ((ht_remove ht k).table.getD (ht_get_index (ht_remove ht k) j) []) = none :=
    hmiss
  rw [hidx, hb'] at hfound
  unfold ht_lookup_probes
  rw [hidx, hb', ht_chain_probes_of_none hfound, List.map_append]
  exact List.mem_append_right _ (by simp)

theorem claim9_witness :
    (ht_remove (ht_insert (ht_insert
        (ht_create 2 (eqCmp (K := Nat)) (fun _ => 0)) 10 (some 1)) 20 (some 2))
        20).table.getD (ht_get_index (ht_insert (ht_insert
        (ht_create 2 (eqCmp (K := Nat)) (fun _ => 0)) 10 (some 1)) 20 (some 2)) 20) [] =
      [(⟨some 10, some 1⟩ : ht_node_t Nat Nat)] ++ [⟨none, none⟩] ∧
    (none : Option Nat) ∈ ht_lookup_probes (ht_remove (ht_insert (ht_insert
      (ht_create 2 (eqCmp (K := Nat)) (fun _ => 0)) 10 (some 1)) 20 (some 2)) 20) 30 := by
  have h := claim9_amended (ht_insert (ht_insert
      (ht_create 2 (eqCmp (K := Nat)) (fun _ => 0)) 10 (some 1)) 20 (some 2)) 20
    [(⟨some 10, some 1⟩ : ht_node_t Nat Nat)] ⟨some 20, some 2⟩
    (by decide) (by decide) (by decide) (by decide)
  exact ⟨h.1, h.2.2 30 (by decide) (by decide)⟩

/-! ### RAG insert characterisations -/

theorem getD_set_eq_any {α : Type _} {l : List α} {i : Nat} (h : i < l.length)
    (x d : α) : (l.set i x).getD i d = x := by
  rw [List.getD_eq_getElem?_getD, List.getElem?_set_self h]
  rfl

theorem getD_set_ne_any {α : Type _} (l : List α) {i j : Nat} (h : i ≠ j)
    (x d : α) : (l.set i x).getD j d = l.getD j d := by
  rw [List.getD_eq_getElem?_getD, List.getElem?_set_ne h,
    ← List.getD_eq_getElem?_getD]

theorem getD_append_length {α : Type _} (l : List α) (x d : α) :
    (l ++ [x]).getD l.length d = x := by
  rw [List.getD_eq_getElem?_getD, List.getElem?_append_right (Nat.le_refl _),
    Nat.sub_self]
  rfl

theorem getD_append_lt {α : Type _} (l l2 : List α) {i : Nat}
    (h : i < l.length) (d : α) : (l ++ l2).getD i d = l.getD i d := by
  rw [List.getD_eq_getElem?_getD, List.getElem?_append_left h,
    ← List.getD_eq_getElem?_getD]

theorem ht_unique_insert_not_contained {ht : hashtable_t K V} {k : K}
    (h : ht_contains ht k = false) (v : Option V) :
    ht_unique_insert ht k v = (ht_insert ht k v, true) := by
  unfold ht_unique_insert
  rw [h]
  simp

/-- Equation form of the soft-insert creation path. -/
theorem RAG_insert_fresh_eq (rag : RAG_t I D) (key : ckey_t I) (data : Option D)
    (next : Option Nat) (hfind : ht_get_node rag.ht key = none) :
    RAG_insert rag key data next =
      (RAG_increment
        (_RAG_DLL_insert
          { rag with
            heap := rag.heap ++ [_RAG_create_node key data next],
            ht := ht_insert rag.ht key (some rag.heap.length) } key)
        key.type,
       status_t.ADDED_NODE) := by
  have hcont : ht_contains rag.ht key = false := by
    unfold ht_contains
    rw [hfind]
    rfl
  simp only [RAG_insert, hfind, ht_unique_insert_not_contained hcont]
  rfl

/-- Equation form of the hard-insert creation path (identical to soft). -/
theorem RAG_hard_insert_fresh_eq (rag : RAG_t I D) (key : ckey_t I)
    (data : Option D) (next : Option Nat)
    (hfind : ht_get_node rag.ht key = none) :
    RAG_hard_insert rag key data next =
      (RAG_increment
        (_RAG_DLL_insert
          { rag with
            heap := rag.heap ++ [_RAG_create_node key data next],
            ht := ht_insert rag.ht key (some rag.heap.length) } key)
        key.type,
       status_t.ADDED_NODE) := by
  have hcont : ht_contains rag.ht key = false := by
    unfold ht_contains
    rw [hfind]
    rfl
  simp only [RAG_hard_insert, hfind, ht_unique_insert_not_contained hcont]
  rfl

/-- Full characterisation of the soft-insert update path: each field is
overwritten exactly when the caller supplied it and it was unset; the status
reports which fields qualified; nothing else in the RAG changes. -/
theorem RAG_insert_found_char (rag : RAG_t I D) (key : ckey_t I)
    (data : Option D) (next : Option Nat) (htn : ht_node_t (ckey_t I) Nat)
    (a : Nat) (hfind : ht_get_node rag.ht key = some htn)
    (hval : htn.value = some a) (ha : a < rag.heap.length) :
    ((RAG_insert rag key data next).1.heap.getD a default).data =
      (if data.isSome ∧ (rag.heap.getD a default).data = none then data
       else (rag.heap.getD a default).data) ∧
    ((RAG_insert rag key data next).1.heap.getD a default).next =
      (if next.isSome ∧ (rag.heap.getD a default).next = none then next
       else (rag.heap.getD a default).next) ∧
    ((RAG_insert rag key data next).1.heap.getD a default).key =
      (rag.heap.getD a default).key ∧
    ((RAG_insert rag key data next).1.heap.getD a default)._prev =
      (rag.heap.getD a default)._prev ∧
    (RAG_insert rag key data next).2 =
      (if (next.isSome ∧ (rag.heap.getD a default).next = none) ∧
          (data.isSome ∧ (rag.heap.getD a default).data = none) then
        status_t.UPDATED_NEXT_DATA
       else if next.isSome ∧ (rag.heap.getD a default).next = none then
        status_t.UPDATED_NEXT
       else if data.isSome ∧ (rag.heap.getD a default).data = none then
        status_t.UPDATED_DATA
       else status_t.NO_UPDATE) ∧
    (RAG_insert rag key data next).1.ht = rag.ht ∧
    (RAG_insert rag key data next).1.proc_key_list = rag.proc_key_list ∧
    (RAG_insert rag key data next).1.res_key_list = rag.res_key_list ∧
    (RAG_insert rag key data next).1.n_processes = rag.n_processes ∧
    (RAG_insert rag key data next).1.n_resources = rag.n_resources ∧
    (RAG_insert rag key data next).1.heap.length = rag.heap.length ∧
    (∀ b, b ≠ a →
      (RAG_insert rag key data next).1.heap.getD b default =
        rag.heap.getD b default) := by
  have hins : RAG_insert rag key data next =
      (if next.isSome && (rag.heap.getD a default).next.isNone &&
          (data.isSome && (rag.heap.getD a default).data.isNone) then
        ({ rag with
            heap := rag.heap.set a
              { rag.heap.getD a default with next := next, data := data } },
          status_t.UPDATED_NEXT_DATA)
       else if next.isSome && (rag.heap.getD a default).next.isNone then
        ({ rag with
            heap := rag.heap.set a
              { rag.heap.getD a default with next := next } },
          status_t.UPDATED_NEXT)
       else if data.isSome && (rag.heap.getD a default).data.isNone then
        ({ rag with
            heap := rag.heap.set a
              { rag.heap.getD a default with data := data } },
          status_t.UPDATED_DATA)
       else (rag, status_t.NO_UPDATE)) := by
    unfold RAG_insert
    rw [hfind]
    simp only [hval, Option.getD_some]
  have hguard1 : ((next.isSome && (rag.heap.getD a default).next.isNone &&
      (data.isSome && (rag.heap.getD a default).data.isNone)) = true) ↔
      ((next.isSome ∧ (rag.heap.getD a default).next = none) ∧
        (data.isSome ∧ (rag.heap.getD a default).data = none)) := by
    rw [Bool.and_eq_true, Bool.and_eq_true, Bool.and_eq_true,
      Option.isNone_iff_eq_none, Option.isNone_iff_eq_none]
  have hguard2 : ((next.isSome && (rag.heap.getD a default).next.isNone) = true) ↔
      (next.isSome ∧ (rag.heap.getD a default).next = none) := by
    rw [Bool.and_eq_true, Option.isNone_iff_eq_none]
  have hguard3 : ((data.isSome && (rag.heap.getD a default).data.isNone) = true) ↔
      (data.isSome ∧ (rag.heap.getD a default).data = none) := by
    rw [Bool.and_eq_true, Option.isNone_iff_eq_none]
  by_cases hN : next.isSome ∧ (rag.heap.getD a default).next = none <;>
    by_cases hD : data.isSome ∧ (rag.heap.getD a default).data = none
  · rw [hins, if_pos (hguard1.mpr ⟨hN, hD⟩)]
    refine ⟨?_, ?_, ?_, ?_, ?_, rfl, rfl, rfl, rfl, rfl, by simp, ?_⟩
    · rw [getD_set_eq_any ha, if_pos hD]
    · rw [getD_set_eq_any ha, if_pos hN]
    · rw [getD_set_eq_any ha]
    · rw [getD_set_eq_any ha]
    · rw [if_pos ⟨hN, hD⟩]
    · intro b hb
      exact getD_set_ne_any rag.heap (fun h => hb h.symm) _ _
  · rw [hins, if_neg (fun h => hD (hguard1.mp h).2), if_pos (hguard2.mpr hN)]
    refine ⟨?_, ?_, ?_, ?_, ?_, rfl, rfl, rfl, rfl, rfl, by simp, ?_⟩
    · rw [getD_set_eq_any ha, if_neg hD]
    · rw [getD_set_eq_any ha, if_pos hN]
    · rw [getD_set_eq_any ha]
    · rw [getD_set_eq_any ha]
    · rw [if_neg (fun h => hD h.2), if_pos hN]
    · intro b hb
      exact getD_set_ne_any rag.heap (fun h => hb h.symm) _ _
  · rw [hins, if_neg (fun h => hN (hguard1.mp h).1),
      if_neg (fun h => hN (hguard2.mp h)), if_pos (hguard3.mpr hD)]
    refine ⟨?_, ?_, ?_, ?_, ?_, rfl, rfl, rfl, rfl, rfl, by simp, ?_⟩
    · rw [getD_set_eq_any ha, if_pos hD]
    · rw [getD_set_eq_any ha, if_neg hN]
    · rw [getD_set_eq_any ha]
    · rw [getD_set_eq_any ha]
    · rw [if_neg (fun h => hN h.1), if_neg hN, if_pos hD]
    · intro b hb
      exact getD_set_ne_any rag.heap (fun h => hb h.symm) _ _
  · rw [hins, if_neg (fun h => hN (hguard1.mp h).1),
      if_neg (fun h => hN (hguard2.mp h)), if_neg (fun h => hD (hguard3.mp h))]
    refine ⟨?_, ?_, rfl, rfl, ?_, rfl, rfl, rfl, rfl, rfl, rfl, ?_⟩
    · rw [if_neg hD]
    · rw [if_neg hN]
    · rw [if_neg (fun h => hN h.1), if_neg hN, if_neg hD]
    · intro b _
      rfl

/-- Full characterisation of the hard-insert update path: each supplied field
is overwritten unconditionally; nothing else in the RAG changes. -/
theorem RAG_hard_insert_found_char (rag : RAG_t I D) (key : ckey_t I)
    (data : Option D) (next : Option Nat) (htn : ht_node_t (ckey_t I) Nat)
    (a : Nat) (hfind : ht_get_node rag.ht key = some htn)
    (hval : htn.value = some a) (ha : a < rag.heap.length) :
    ((RAG_hard_insert rag key data next).1.heap.getD a default).data =
      (if data.isSome then data else (rag.heap.getD a default).data) ∧
    ((RAG_hard_insert rag key data next).1.heap.getD a default).next =
      (if next.isSome then next else (rag.heap.getD a default).next) ∧
    ((RAG_hard_insert rag key data next).1.heap.getD a default).key =
      (rag.heap.getD a default).key ∧
    ((RAG_hard_insert rag key data next).1.heap.getD a default)._prev =
      (rag.heap.getD a default)._prev ∧
    (RAG_hard_insert rag key data next).2 =
      (if next.isSome ∧ data.isSome then status_t.UPDATED_NEXT_DATA
       else if next.isSome then status_t.UPDATED_NEXT
       else if data.isSome then status_t.UPDATED_DATA
       else status_t.NO_UPDATE) ∧
    (RAG_hard_insert rag key data next).1.ht = rag.ht ∧
    (RAG_hard_insert rag key data next).1.proc_key_list = rag.proc_key_list ∧
    (RAG_hard_insert rag key data next).1.res_key_list = rag.res_key_list ∧
    (RAG_hard_insert rag key data next).1.n_processes = rag.n_processes ∧
    (RAG_hard_insert rag key data next).1.n_resources = rag.n_resources ∧
    (RAG_hard_insert rag key data next).1.heap.length = rag.heap.length ∧
    (∀ b, b ≠ a →
      (RAG_hard_insert rag key data next).1.heap.getD b default =
        rag.heap.getD b default) := by
  have hins : RAG_hard_insert rag key data next =
      (if next.isSome && data.isSome then
        ({ rag with
            heap := rag.heap.set a
              { rag.heap.getD a default with next := next, data := data } },
          status_t.UPDATED_NEXT_DATA)
       else if next.isSome then
        ({ rag with
            heap := rag.heap.set a
              { rag.heap.getD a default with next := next } },
          status_t.UPDATED_NEXT)
       else if data.isSome then
        ({ rag with
            heap := rag.heap.set a
              { rag.heap.getD a default with data := data } },
          status_t.UPDATED_DATA)
       else (rag, status_t.NO_UPDATE)) := by
    unfold RAG_hard_insert
    rw [hfind]
    simp only [hval, Option.getD_some]
  have hguard1 : ((next.isSome && data.isSome) = true) ↔
      (next.isSome ∧ data.isSome) := by
    rw [Bool.and_eq_true]
  by_cases hN : next.isSome = true <;> by_cases hD : data.isSome = true
  · rw [hins, if_pos (hguard1.mpr ⟨hN, hD⟩)]
    refine ⟨?_, ?_, ?_, ?_, ?_, rfl, rfl, rfl, rfl, rfl, by simp, ?_⟩
    · rw [getD_set_eq_any ha, if_pos hD]
    · rw [getD_set_eq_any ha, if_pos hN]
    · rw [getD_set_eq_any ha]
    · rw [getD_set_eq_any ha]
    · rw [if_pos ⟨hN, hD⟩]
    · intro b hb
      exact getD_set_ne_any rag.heap (fun h => hb h.symm) _ _
  · rw [hins, if_neg (fun h => hD (hguard1.mp h).2), if_pos hN]
    refine ⟨?_, ?_, ?_, ?_, ?_, rfl, rfl, rfl, rfl, rfl, by simp, ?_⟩
    · rw [getD_set_eq_any ha, if_neg hD]
    · rw [getD_set_eq_any ha, if_pos hN]
    · rw [getD_set_eq_any ha]
    · rw [getD_set_eq_any ha]
    · rw [if_neg (fun h => hD h.2), if_pos hN]
    · intro b hb
      exact getD_set_ne_any rag.heap (fun h => hb h.symm) _ _
  · rw [hins, if_neg (fun h => hN (hguard1.mp h).1), if_neg hN, if_pos hD]
    refine ⟨?_, ?_, ?_, ?_, ?_, rfl, rfl, rfl, rfl, rfl, by simp, ?_⟩
    · rw [getD_set_eq_any ha, if_pos hD]
    · rw [getD_set_eq_any ha, if_neg hN]
    · rw [getD_set_eq_any ha]
    · rw [getD_set_eq_any ha]
    · rw [if_neg (fun h => hN h.1), if_neg hN, if_pos hD]
    · intro b hb
      exact getD_set_ne_any rag.heap (fun h => hb h.symm) _ _
  · rw [hins, if_neg (fun h => hN (hguard1.mp h).1), if_neg hN, if_neg hD]
    refine ⟨?_, ?_, rfl, rfl, ?_, rfl, rfl, rfl, rfl, rfl, rfl, ?_⟩
    · rw [if_neg hD]
    · rw [if_neg hN]
    · rw [if_neg (fun h => hN h.1), if_neg hN, if_neg hD]
    · intro b _
      rfl

theorem RAG_increment_frame (rag : RAG_t I D) (type : type_t) :
    (RAG_increment rag type).ht = rag.ht ∧
    (RAG_increment rag type).heap = rag.heap ∧
    (RAG_increment rag type).proc_key_list = rag.proc_key_list ∧
    (RAG_increment rag type).res_key_list = rag.res_key_list := by
  unfold RAG_increment
  split <;> exact ⟨rfl, rfl, rfl, rfl⟩

theorem _RAG_DLL_insert_frame (rag : RAG_t I D) (key : ckey_t I) :
    (_RAG_DLL_insert rag key).ht = rag.ht ∧
    (_RAG_DLL_insert rag key).heap = rag.heap ∧
    (_RAG_DLL_insert rag key).n_processes = rag.n_processes ∧
    (_RAG_DLL_insert rag key).n_resources = rag.n_resources := by
  unfold _RAG_DLL_insert
  split <;> exact ⟨rfl, rfl, rfl, rfl⟩

theorem RAG_insert_fresh_components (rag : RAG_t I D) (key : ckey_t I)
    (data : Option D) (next : Option Nat)
    (hfind : ht_get_node rag.ht key = none) :
    (RAG_insert rag key data next).1.ht =
      ht_insert rag.ht key (some rag.heap.length) ∧
    (RAG_insert rag key data next).1.heap =
      rag.heap ++ [_RAG_create_node key data next] ∧
    (RAG_insert rag key data next).2 = status_t.ADDED_NODE := by
  rw [RAG_insert_fresh_eq rag key data next hfind]
  obtain ⟨hi1, hi2, _, _⟩ := RAG_increment_frame
    (_RAG_DLL_insert
      { rag with
        heap := rag.heap ++ [_RAG_create_node key data next],
        ht := ht_insert rag.ht key (some rag.heap.length) } key) key.type
  obtain ⟨hd1, hd2, _, _⟩ := _RAG_DLL_insert_frame
    { rag with
      heap := rag.heap ++ [_RAG_create_node key data next],
      ht := ht_insert rag.ht key (some rag.heap.length) } key
  exact ⟨by rw [hi1, hd1], by rw [hi2, hd2], rfl⟩

/-- **C1** (soft insert non-clobber).  First part: on a present key, each of
`data`/`next` is overwritten exactly when the caller supplied it non-absent
and the field was unset — never when already set — and the returned status is
`UPDATED_NEXT_DATA`/`UPDATED_NEXT`/`UPDATED_DATA`/`NO_UPDATE` according to
which fields qualified; everything else in the RAG is unchanged.  Second
part: the two-insert scenario `insert(K, D1, absent)` then
`insert(K, D2, N1)` leaves `data = D1`, sets `next = N1` and returns
`UPDATED_NEXT`. -/
theorem claim1_soft_insert_non_clobber :
    (∀ (rag : RAG_t I D) (key : ckey_t I) (data : Option D) (next : Option Nat)
      (htn : ht_node_t (ckey_t I) Nat) (a : Nat),
      ht_get_node rag.ht key = some htn → htn.value = some a →
      a < rag.heap.length →
      ((RAG_insert rag key data next).1.heap.getD a default).data =
        (if data.isSome ∧ (rag.heap.getD a default).data = none then data
         else (rag.heap.getD a default).data) ∧
      ((RAG_insert rag key data next).1.heap.getD a default).next =
        (if next.isSome ∧ (rag.heap.getD a default).next = none then next
         else (rag.heap.getD a default).next) ∧
      (RAG_insert rag key data next).2 =
        (if (next.isSome ∧ (rag.heap.getD a default).next = none) ∧
            (data.isSome ∧ (rag.heap.getD a default).data = none) then
          status_t.UPDATED_NEXT_DATA
         else if next.isSome ∧ (rag.heap.getD a default).next = none then
          status_t.UPDATED_NEXT
         else if data.isSome ∧ (rag.heap.getD a default).data = none then
          status_t.UPDATED_DATA
         else status_t.NO_UPDATE) ∧
      (RAG_insert rag key data next).1.ht = rag.ht ∧
      (∀ b, b ≠ a →
        (RAG_insert rag key data next).1.heap.getD b default =
          rag.heap.getD b default)) ∧
    (∀ (rag : RAG_t I D) (K0 : ckey_t I) (D1 D2 : D) (N1 : Nat),
      WF rag.ht → ht_get_node rag.ht K0 = none →
      (RAG_insert (RAG_insert rag K0 (some D1) none).1 K0 (some D2)
        (some N1)).2 = status_t.UPDATED_NEXT ∧
      ((RAG_insert (RAG_insert rag K0 (some D1) none).1 K0 (some D2)
        (some N1)).1.heap.getD rag.heap.length default).data = some D1 ∧
      ((RAG_insert (RAG_insert rag K0 (some D1) none).1 K0 (some D2)
        (some N1)).1.heap.getD rag.heap.length default).next = some N1) := by
  constructor
  · intro rag key data next htn a hfind hval ha
    obtain ⟨h1, h2, _, _, h5, h6, _, _, _, _, _, h12⟩ :=
      RAG_insert_found_char rag key data next htn a hfind hval ha
    exact ⟨h1, h2, h5, h6, h12⟩
  · intro rag K0 D1 D2 N1 hwf hfind
    obtain ⟨hr1ht, hr1heap, _⟩ :=
      RAG_insert_fresh_components rag K0 (some D1) none hfind
    have hwf1 : WF (RAG_insert rag K0 (some D1) none).1.ht := by
      rw [hr1ht]
      exact WF_insert hwf K0 (some rag.heap.length)
    have hpair : HasPair (RAG_insert rag K0 (some D1) none).1.ht K0
        (some rag.heap.length) := by
      rw [hr1ht]
      refine (HasPair_insert hwf K0 (some rag.heap.length) K0
        (some rag.heap.length)).mpr ?_
      rw [if_pos rfl]
    obtain ⟨n1, hmem1, hkey1⟩ := HasKey_of_HasPair hpair
    have hfind1 : ht_get_node (RAG_insert rag K0 (some D1) none).1.ht K0 =
        some n1 := (ht_get_node_eq_some_iff hwf1).mpr ⟨hmem1, hkey1⟩
    have hval1 : n1.value = some rag.heap.length := by
      have hthis : HasPair (RAG_insert rag K0 (some D1) none).1.ht K0 n1.value :=
        ⟨n1, hmem1, hkey1, rfl⟩
      rw [hr1ht] at hthis
      have h2 := (HasPair_insert hwf K0 (some rag.heap.length) K0
        n1.value).mp hthis
      rw [if_pos rfl] at h2
      exact h2
    have haddr : rag.heap.length < (RAG_insert rag K0 (some D1) none).1.heap.length := by
      rw [hr1heap]
      simp
    have hnode1 : (RAG_insert rag K0 (some D1) none).1.heap.getD
        rag.heap.length default = _RAG_create_node K0 (some D1) none := by
      rw [hr1heap]
      exact getD_append_length _ _ _
    obtain ⟨hdata, hnext, _, _, hstatus, _⟩ :=
      RAG_insert_found_char (RAG_insert rag K0 (some D1) none).1 K0 (some D2)
        (some N1) n1 rag.heap.length hfind1 hval1 haddr
    rw [hnode1] at hdata hnext hstatus
    simp only [_RAG_create_node] at hdata hnext hstatus
    refine ⟨?_, ?_, ?_⟩
    · rw [hstatus, if_neg (fun h => by simp at h), if_pos (by simp)]
    · rw [hdata, if_neg (fun h => by simp at h)]
    · rw [hnext, if_pos (by simp)]

theorem claim1_witness :
    (RAG_insert (RAG_insert
      (RAG_create (eqCmp (K := ckey_t Nat)) (fun _ => 0) : RAG_t Nat Nat)
      (⟨type_t.PROCESS_T, 1⟩ : ckey_t Nat) (some 11) none).1
      (⟨type_t.PROCESS_T, 1⟩ : ckey_t Nat) (some 22) (some 7)).2 =
        status_t.UPDATED_NEXT ∧
    ((RAG_insert (RAG_insert
      (RAG_create (eqCmp (K := ckey_t Nat)) (fun _ => 0) : RAG_t Nat Nat)
      (⟨type_t.PROCESS_T, 1⟩ : ckey_t Nat) (some 11) none).1
      (⟨type_t.PROCESS_T, 1⟩ : ckey_t Nat) (some 22) (some 7)).1.heap.getD 0
        default).data = some 11 ∧
    ((RAG_insert (RAG_insert
      (RAG_create (eqCmp (K := ckey_t Nat)) (fun _ => 0) : RAG_t Nat Nat)
      (⟨type_t.PROCESS_T, 1⟩ : ckey_t Nat) (some 11) none).1
      (⟨type_t.PROCESS_T, 1⟩ : ckey_t Nat) (some 22) (some 7)).1.heap.getD 0
        default).next = some 7 := by
  have h := claim1_soft_insert_non_clobber.2
    (RAG_create (eqCmp (K := ckey_t Nat)) (fun _ => 0) : RAG_t Nat Nat)
    (⟨type_t.PROCESS_T, 1⟩ : ckey_t Nat) 11 22 7
    (WF_create INITIAL_TABLE_SIZE _ _ cmpOk_eqCmp (by decide)) (by decide)
  exact ⟨h.1, h.2.1, h.2.2⟩

/-- **C2** (hard insert overwrite).  First part: on a present key, each of
`data`/`next` supplied non-absent is overwritten unconditionally, regardless
of the field's current state, with the same status vocabulary and
`NO_UPDATE` exactly when neither argument was supplied.  Second part: the
creation path for an absent key is identical to soft insert and returns
`ADDED_NODE`.  Third part: the scenario `hard_insert(K, D1)` then
`hard_insert(K, D2)` leaves `data = D2` and returns `UPDATED_DATA`. -/
theorem claim2_hard_insert_overwrite :
    (∀ (rag : RAG_t I D) (key : ckey_t I) (data : Option D) (next : Option Nat)
      (htn : ht_node_t (ckey_t I) Nat) (a : Nat),
      ht_get_node rag.ht key = some htn → htn.value = some a →
      a < rag.heap.length →
      ((RAG_hard_insert rag key data next).1.heap.getD a default).data =
        (if data.isSome then data else (rag.heap.getD a default).data) ∧
      ((RAG_hard_insert rag key data next).1.heap.getD a default).next =
        (if next.isSome then next else (rag.heap.getD a default).next) ∧
      (RAG_hard_insert rag key data next).2 =
        (if next.isSome ∧ data.isSome then status_t.UPDATED_NEXT_DATA
         else if next.isSome then status_t.UPDATED_NEXT
         else if data.isSome then status_t.UPDATED_DATA
         else status_t.NO_UPDATE) ∧
      ((RAG_hard_insert rag key data next).2 = status_t.NO_UPDATE ↔
        (data = none ∧ next = none))) ∧
    (∀ (rag : RAG_t I D) (key : ckey_t I) (data : Option D) (next : Option Nat),
      ht_get_node rag.ht key = none →
      RAG_hard_insert rag key data next = RAG_insert rag key data next ∧
      (RAG_hard_insert rag key data next).2 = status_t.ADDED_NODE) ∧
    (∀ (rag : RAG_t I D) (K0 : ckey_t I) (D1 D2 : D),
      WF rag.ht → ht_get_node rag.ht K0 = none →
      (RAG_hard_insert (RAG_hard_insert rag K0 (some D1) none).1 K0 (some D2)
        none).2 = status_t.UPDATED_DATA ∧
      ((RAG_hard_insert (RAG_hard_insert rag K0 (some D1) none).1 K0 (some D2)
        none).1.heap.getD rag.heap.length default).data = some D2) := by
  refine ⟨?_, ?_, ?_⟩
  · intro rag key data next htn a hfind hval ha
    obtain ⟨h1, h2, _, _, h5, _⟩ :=
      RAG_hard_insert_found_char rag key data next htn a hfind hval ha
    refine ⟨h1, h2, h5, ?_⟩
    rw [h5]
    by_cases hN : next.isSome = true <;> by_cases hD : data.isSome = true
    · rw [if_pos ⟨hN, hD⟩]
      constructor
      · intro h
        cases h
      · rintro ⟨h, _⟩
        rw [h] at hD
        cases hD
    · rw [if_neg (fun h => hD h.2), if_pos hN]
      constructor
      · intro h
        cases h
      · rintro ⟨_, h⟩
        rw [h] at hN
        cases hN
    · rw [if_neg (fun h => hN h.1), if_neg hN, if_pos hD]
      constructor
      · intro h
        cases h
      · rintro ⟨h, _⟩
        rw [h] at hD
        cases hD
    · rw [if_neg (fun h => hN h.1), if_neg hN, if_neg hD]
      refine ⟨fun _ => ⟨?_, ?_⟩, fun _ => rfl⟩
      · exact Option.not_isSome_iff_eq_none.mp (fun h => hD h)
      · exact Option.not_isSome_iff_eq_none.mp (fun h => hN h)
  · intro rag key data next hfind
    rw [RAG_hard_insert_fresh_eq rag key data next hfind,
      RAG_insert_fresh_eq rag key data next hfind]
    exact ⟨rfl, rfl⟩
  · intro rag K0 D1 D2 hwf hfind
    obtain ⟨hr1ht, hr1heap, _⟩ : (RAG_hard_insert rag K0 (some D1) none).1.ht =
        ht_insert rag.ht K0 (some rag.heap.length) ∧
        (RAG_hard_insert rag K0 (some D1) none).1.heap =
          rag.heap ++ [_RAG_create_node K0 (some D1) none] ∧
        (RAG_hard_insert rag K0 (some D1) none).2 = status_t.ADDED_NODE := by
      rw [RAG_hard_insert_fresh_eq rag K0 (some D1) none hfind]
      obtain ⟨hi1, hi2, _, _⟩ := RAG_increment_frame
        (_RAG_DLL_insert
          { rag with
            heap := rag.heap ++ [_RAG_create_node K0 (some D1) none],
            ht := ht_insert rag.ht K0 (some rag.heap.length) } K0) K0.type
      obtain ⟨hd1, hd2, _, _⟩ := _RAG_DLL_insert_frame
        { rag with
          heap := rag.heap ++ [_RAG_create_node K0 (some D1) none],
          ht := ht_insert rag.ht K0 (some rag.heap.length) } K0
      exact ⟨by rw [hi1, hd1], by rw [hi2, hd2], rfl⟩
    have hwf1 : WF (RAG_hard_insert rag K0 (some D1) none).1.ht := by
      rw [hr1ht]
      exact WF_insert hwf K0 (some rag.heap.length)
    have hpair : HasPair (RAG_hard_insert rag K0 (some D1) none).1.ht K0
        (some rag.heap.length) := by
      rw [hr1ht]
      refine (HasPair_insert hwf K0 (some rag.heap.length) K0
        (some rag.heap.length)).mpr ?_
      rw [if_pos rfl]
    obtain ⟨n1, hmem1, hkey1⟩ := HasKey_of_HasPair hpair
    have hfind1 : ht_get_node (RAG_hard_insert rag K0 (some D1) none).1.ht K0 =
        some n1 := (ht_get_node_eq_some_iff hwf1).mpr ⟨hmem1, hkey1⟩
    have hval1 : n1.value = some rag.heap.length := by
      have hthis : HasPair (RAG_hard_insert rag K0 (some D1) none).1.ht K0
          n1.value := ⟨n1, hmem1, hkey1, rfl⟩
      rw [hr1ht] at hthis
      have h2 := (HasPair_insert hwf K0 (some rag.heap.length) K0
        n1.value).mp hthis
      rw [if_pos rfl] at h2
      exact h2
    have haddr : rag.heap.length <
        (RAG_hard_insert rag K0 (some D1) none).1.heap.length := by
      rw [hr1heap]
      simp
    obtain ⟨hdata, _, _, _, hstatus, _⟩ :=
      RAG_hard_insert_found_char (RAG_hard_insert rag K0 (some D1) none).1 K0
        (some D2) none n1 rag.heap.length hfind1 hval1 haddr
    refine ⟨?_, ?_⟩
    · rw [hstatus, if_neg (fun h => by simp at h),
        if_neg (fun h => by simp at h), if_pos (by simp)]
    · rw [hdata, if_pos (by simp)]

theorem claim2_witness :
    (RAG_hard_insert (RAG_hard_insert
      (RAG_create (eqCmp (K := ckey_t Nat)) (fun _ => 0) : RAG_t Nat Nat)
      (⟨type_t.RESOURCE_T, 2⟩ : ckey_t Nat) (some 11) none).1
      (⟨type_t.RESOURCE_T, 2⟩ : ckey_t Nat) (some 22) none).2 =
        status_t.UPDATED_DATA ∧
    ((RAG_hard_insert (RAG_hard_insert
      (RAG_create (eqCmp (K := ckey_t Nat)) (fun _ => 0) : RAG_t Nat Nat)
      (⟨type_t.RESOURCE_T, 2⟩ : ckey_t Nat) (some 11) none).1
      (⟨type_t.RESOURCE_T, 2⟩ : ckey_t Nat) (some 22) none).1.heap.getD 0
        default).data = some 22 := by
  have h := claim2_hard_insert_overwrite.2.2
    (RAG_create (eqCmp (K := ckey_t Nat)) (fun _ => 0) : RAG_t Nat Nat)
    (⟨type_t.RESOURCE_T, 2⟩ : ckey_t Nat) 11 22
    (WF_create INITIAL_TABLE_SIZE _ _ cmpOk_eqCmp (by decide)) (by decide)
  exact ⟨h.1, h.2⟩

theorem HasKey_insert {K V : Type} [DecidableEq K] [DecidableEq V]
    {ht : hashtable_t K V} (hwf : WF ht) (k : K) (v : Option V) (j : K) :
    HasKey (ht_insert ht k v) j ↔ (j = k ∨ HasKey ht j) := by
  constructor
  · rintro ⟨n, hmem, hkey⟩
    have h := (HasPair_insert hwf k v j n.value).mp ⟨n, hmem, hkey, rfl⟩
    by_cases hj : j = k
    · exact Or.inl hj
    · rw [if_neg hj] at h
      exact Or.inr (HasKey_of_HasPair h)
  · rintro (rfl | hk)
    · exact HasKey_of_HasPair
        ((HasPair_insert hwf j v j v).mpr (by rw [if_pos rfl]))
    · by_cases hj : j = k
      · subst hj
        exact HasKey_of_HasPair
          ((HasPair_insert hwf j v j v).mpr (by rw [if_pos rfl]))
      · obtain ⟨n, hmem, hkey⟩ := hk
        exact HasKey_of_HasPair ((HasPair_insert hwf k v j n.value).mpr
          (by rw [if_neg hj]; exact ⟨n, hmem, hkey, rfl⟩))

theorem RAGCounts_congr {rag rag' : RAG_t I D} (hht : rag'.ht = rag.ht)
    (hp : rag'.proc_key_list = rag.proc_key_list)
    (hr : rag'.res_key_list = rag.res_key_list)
    (hnp : rag'.n_processes = rag.n_processes)
    (hnr : rag'.n_resources = rag.n_resources)
    (hc : RAGCounts rag) : RAGCounts rag' := by
  refine ⟨?_, ?_, ?_, ?_, ?_, ?_, ?_⟩
  · rw [hht]
    exact hc.wf
  · rw [hnp, hp]
    exact hc.proc_count
  · rw [hnr, hr]
    exact hc.res_count
  · rw [hp]
    exact hc.proc_nodup
  · rw [hr]
    exact hc.res_nodup
  · intro k
    rw [hp, hht]
    exact hc.proc_mem k
  · intro k
    rw [hr, hht]
    exact hc.res_mem k

theorem RAG_insert_found_frame (rag : RAG_t I D) (key : ckey_t I)
    (data : Option D) (next : Option Nat) (htn : ht_node_t (ckey_t I) Nat)
    (hfind : ht_get_node rag.ht key = some htn) :
    (RAG_insert rag key data next).1.ht = rag.ht ∧
    (RAG_insert rag key data next).1.proc_key_list = rag.proc_key_list ∧
    (RAG_insert rag key data next).1.res_key_list = rag.res_key_list ∧
    (RAG_insert rag key data next).1.n_processes = rag.n_processes ∧
    (RAG_insert rag key data next).1.n_resources = rag.n_resources := by
  unfold RAG_insert
  rw [hfind]
  dsimp only
  split_ifs <;> exact ⟨rfl, rfl, rfl, rfl, rfl⟩

theorem RAG_hard_insert_found_frame (rag : RAG_t I D) (key : ckey_t I)
    (data : Option D) (next : Option Nat) (htn : ht_node_t (ckey_t I) Nat)
    (hfind : ht_get_node rag.ht key = some htn) :
    (RAG_hard_insert rag key data next).1.ht = rag.ht ∧
    (RAG_hard_insert rag key data next).1.proc_key_list = rag.proc_key_list ∧
    (RAG_hard_insert rag key data next).1.res_key_list = rag.res_key_list ∧
    (RAG_hard_insert rag key data next).1.n_processes = rag.n_processes ∧
    (RAG_hard_insert rag key data next).1.n_resources = rag.n_resources := by
  unfold RAG_hard_insert
  rw [hfind]
  dsimp only
  split_ifs <;> exact ⟨rfl, rfl, rfl, rfl, rfl⟩

theorem not_HasKey_of_get_node_none {K V : Type} [DecidableEq K] [DecidableEq V]
    {ht : hashtable_t K V} {k : K} (hfind : ht_get_node ht k = none)
    (hwf : WF ht) : ¬HasKey ht k := by
  rintro ⟨n, hmem, hkey⟩
  rw [(ht_get_node_eq_some_iff hwf).mpr ⟨hmem, hkey⟩] at hfind
  cases hfind

theorem RAGCounts_create_step (rag : RAG_t I D) (key : ckey_t I)
    (data : Option D) (next : Option Nat)
    (hfind : ht_get_node rag.ht key = none) (hc : RAGCounts rag) :
    RAGCounts
      (RAG_increment
        (_RAG_DLL_insert
          { rag with
            heap := rag.heap ++ [_RAG_create_node key data next],
            ht := ht_insert rag.ht key (some rag.heap.length) } key)
        key.type) := by
  have hnew : ¬HasKey rag.ht key := not_HasKey_of_get_node_none hfind hc.wf
  have hwf' := WF_insert hc.wf key (some rag.heap.length)
  have hhk : ∀ j : ckey_t I,
      HasKey (ht_insert rag.ht key (some rag.heap.length)) j ↔
        (j = key ∨ HasKey rag.ht j) :=
    fun j => HasKey_insert hc.wf key (some rag.heap.length) j
  cases htype : key.type with
  | PROCESS_T =>
      have hstep : RAG_increment
          (_RAG_DLL_insert
            { rag with
              heap := rag.heap ++ [_RAG_create_node key data next],
              ht := ht_insert rag.ht key (some rag.heap.length) } key)
          type_t.PROCESS_T =
          { rag with
            heap := rag.heap ++ [_RAG_create_node key data next],
            ht := ht_insert rag.ht key (some rag.heap.length),
            proc_key_list := rag.proc_key_list ++ [key],
            n_processes := rag.n_processes + 1 } := by
        unfold _RAG_DLL_insert RAG_increment
        rw [if_pos htype, if_pos rfl]
      rw [hstep]
      refine ⟨hwf', ?_, hc.res_count, ?_, hc.res_nodup, ?_, ?_⟩
      · show rag.n_processes + 1 = (rag.proc_key_list ++ [key]).length
        rw [List.length_append, hc.proc_count]
        rfl
      · show (rag.proc_key_list ++ [key]).Nodup
        rw [List.nodup_append]
        refine ⟨hc.proc_nodup, List.nodup_singleton key, ?_⟩
        intro x hx hxk
        rw [List.mem_singleton] at hxk
        subst hxk
        exact hnew ((hc.proc_mem x).mp hx).1
      · intro j
        show j ∈ rag.proc_key_list ++ [key] ↔ _
        rw [List.mem_append, List.mem_singleton, hhk j]
        constructor
        · rintro (hj | rfl)
          · obtain ⟨hk1, hk2⟩ := (hc.proc_mem j).mp hj
            exact ⟨Or.inr hk1, hk2⟩
          · exact ⟨Or.inl rfl, htype⟩
        · rintro ⟨hj | hk1, hk2⟩
          · exact Or.inr hj
          · exact Or.inl ((hc.proc_mem j).mpr ⟨hk1, hk2⟩)
      · intro j
        show j ∈ rag.res_key_list ↔ _
        rw [hc.res_mem j, hhk j]
        constructor
        · rintro ⟨hk1, hk2⟩
          exact ⟨Or.inr hk1, hk2⟩
        · rintro ⟨rfl | hk1, hk2⟩
          · rw [htype] at hk2
            cases hk2
          · exact ⟨hk1, hk2⟩
  | RESOURCE_T =>
      have hne : ¬(key.type = type_t.PROCESS_T) := by
        rw [htype]
        intro h
        cases h
      have hstep : RAG_increment
          (_RAG_DLL_insert
            { rag with
              heap := rag.heap ++ [_RAG_create_node key data next],
              ht := ht_insert rag.ht key (some rag.heap.length) } key)
          type_t.RESOURCE_T =
          { rag with
            heap := rag.heap ++ [_RAG_create_node key data next],
            ht := ht_insert rag.ht key (some rag.heap.length),
            res_key_list := rag.res_key_list ++ [key],
            n_resources := rag.n_resources + 1 } := by
        unfold _RAG_DLL_insert RAG_increment
        rw [if_neg hne, if_neg (fun h => type_t.noConfusion h)]
      rw [hstep]
      refine ⟨hwf', hc.proc_count, ?_, hc.proc_nodup, ?_, ?_, ?_⟩
      · show rag.n_resources + 1 = (rag.res_key_list ++ [key]).length
        rw [List.length_append, hc.res_count]
        rfl
      · show (rag.res_key_list ++ [key]).Nodup
        rw [List.nodup_append]
        refine ⟨hc.res_nodup, List.nodup_singleton key, ?_⟩
        intro x hx hxk
        rw [List.mem_singleton] at hxk
        subst hxk
        exact hnew ((hc.res_mem x).mp hx).1
      · intro j
        show j ∈ rag.proc_key_list ↔ _
        rw [hc.proc_mem j, hhk j]
        constructor
        · rintro ⟨hk1, hk2⟩
          exact ⟨Or.inr hk1, hk2⟩
        · rintro ⟨rfl | hk1, hk2⟩
          · rw [htype] at hk2
            cases hk2
          · exact ⟨hk1, hk2⟩
      · intro j
        show j ∈ rag.res_key_list ++ [key] ↔ _
        rw [List.mem_append, List.mem_singleton, hhk j]
        constructor
        · rintro (hj | rfl)
          · obtain ⟨hk1, hk2⟩ := (hc.res_mem j).mp hj
            exact ⟨Or.inr hk1, hk2⟩
          · exact ⟨Or.inl rfl, htype⟩
        · rintro ⟨hj | hk1, hk2⟩
          · exact Or.inr hj
          · exact Or.inl ((hc.res_mem j).mpr ⟨hk1, hk2⟩)

theorem RAGCounts_apply (rag : RAG_t I D) (op : RAG_op I D)
    (hc : RAGCounts rag) : RAGCounts (RAG_apply rag op) := by
  cases op with
  | soft k d n =>
      show RAGCounts (RAG_insert rag k d n).1
      cases hfind : ht_get_node rag.ht k with
      | none =>
          rw [RAG_insert_fresh_eq rag k d n hfind]
          exact RAGCounts_create_step rag k d n hfind hc
      | some htn =>
          obtain ⟨h1, h2, h3, h4, h5⟩ := RAG_insert_found_frame rag k d n htn hfind
          exact RAGCounts_congr h1 h2 h3 h4 h5 hc
  | hard k d n =>
      show RAGCounts (RAG_hard_insert rag k d n).1
      cases hfind : ht_get_node rag.ht k with
      | none =>
          rw [RAG_hard_insert_fresh_eq rag k d n hfind]
          exact RAGCounts_create_step rag k d n hfind hc
      | some htn =>
          obtain ⟨h1, h2, h3, h4, h5⟩ := RAG_hard_insert_found_frame rag k d n htn hfind
          exact RAGCounts_congr h1 h2 h3 h4 h5 hc

theorem RAGCounts_run (cmp : Option (ckey_t I) → Option (ckey_t I) → Int)
    (hash : Option (ckey_t I) → Nat) (hcmp : cmpOk cmp)
    (ops : List (RAG_op I D)) : RAGCounts (RAG_run cmp hash ops) := by
  have hinit : RAGCounts (RAG_create cmp hash (I := I) (D := D)) := by
    have hwf0 : WF (ht_create INITIAL_TABLE_SIZE cmp hash
        (K := ckey_t I) (V := Nat)) :=
      WF_create INITIAL_TABLE_SIZE cmp hash hcmp (by norm_num [INITIAL_TABLE_SIZE])
    have hnone : ∀ j : ckey_t I, ¬HasKey (ht_create INITIAL_TABLE_SIZE cmp hash
        (K := ckey_t I) (V := Nat)) j := by
      rintro j ⟨n, hmem, _⟩
      rw [show (ht_create INITIAL_TABLE_SIZE cmp hash
        (K := ckey_t I) (V := Nat)).table = List.replicate INITIAL_TABLE_SIZE []
        from rfl, flatten_replicate_nil] at hmem
      cases hmem
    refine ⟨hwf0, rfl, rfl, List.nodup_nil, List.nodup_nil, ?_, ?_⟩
    · intro k
      constructor
      · intro h
        cases h
      · rintro ⟨hk, _⟩
        exact absurd hk (hnone k)
    · intro k
      constructor
      · intro h
        cases h
      · rintro ⟨hk, _⟩
        exact absurd hk (hnone k)
  suffices h : ∀ (os : List (RAG_op I D)) (rag : RAG_t I D), RAGCounts rag →
      RAGCounts (os.foldl RAG_apply rag) by
    exact h ops _ hinit
  intro os
  induction os with
  | nil =>
      intro rag h
      exact h
  | cons op rest ih =>
      intro rag h
      rw [List.foldl_cons]
      exact ih _ (RAGCounts_apply rag op h)

/-- C3 as stated is false: a standalone `RAG_increment` (and, with one key
present, a standalone `RAG_decrement`) shifts the counter away from the order
list's cardinality without touching any list or the node table.  Concretely,
one bare increment on a fresh RAG leaves `n_processes = 1` while the process
order list is empty. -/
theorem claim3_counterexample :
    (RAG_increment
      (RAG_create (eqCmp (K := ckey_t Nat)) (fun _ => 0) : RAG_t Nat Nat)
      type_t.PROCESS_T).n_processes = 1 ∧
    (RAG_increment
      (RAG_create (eqCmp (K := ckey_t Nat)) (fun _ => 0) : RAG_t Nat Nat)
      type_t.PROCESS_T).proc_key_list.length = 0 ∧
    ¬((RAG_increment
      (RAG_create (eqCmp (K := ckey_t Nat)) (fun _ => 0) : RAG_t Nat Nat)
      type_t.PROCESS_T).n_processes =
        (RAG_increment
          (RAG_create (eqCmp (K := ckey_t Nat)) (fun _ => 0) : RAG_t Nat Nat)
          type_t.PROCESS_T).proc_key_list.length) := by
  refine ⟨rfl, rfl, ?_⟩
  intro h
  cases h

/-- **C3 amended** (counter consistency): after any sequence of `RAG_insert`
and `RAG_hard_insert` calls starting from a fresh RAG (no standalone
increment/decrement calls), `n_processes` equals the cardinality of the
process order list, which holds exactly the distinct process-typed keys
present in the node table (duplicate-free); likewise for resources.
`RAG_decrement` on a counter already at 0 is a no-op leaving it at 0. -/
theorem claim3_counter_consistency
    (cmp : Option (ckey_t I) → Option (ckey_t I) → Int)
    (hash : Option (ckey_t I) → Nat) (hcmp : cmpOk cmp)
    (ops : List (RAG_op I D)) :
    (RAG_run cmp hash ops).n_processes =
      (RAG_run cmp hash ops).proc_key_list.length ∧
    (RAG_run cmp hash ops).n_resources =
      (RAG_run cmp hash ops).res_key_list.length ∧
    (RAG_run cmp hash ops).proc_key_list.Nodup ∧
    (RAG_run cmp hash ops).res_key_list.Nodup ∧
    (∀ k : ckey_t I, k ∈ (RAG_run cmp hash ops).proc_key_list ↔
      (ht_contains (RAG_run cmp hash ops).ht k = true ∧
        k.type = type_t.PROCESS_T)) ∧
    (∀ k : ckey_t I, k ∈ (RAG_run cmp hash ops).res_key_list ↔
      (ht_contains (RAG_run cmp hash ops).ht k = true ∧
        k.type = type_t.RESOURCE_T)) ∧
    (∀ rag : RAG_t I D, rag.n_processes = 0 →
      (RAG_decrement rag type_t.PROCESS_T).n_processes = 0) ∧
    (∀ rag : RAG_t I D, rag.n_resources = 0 →
      (RAG_decrement rag type_t.RESOURCE_T).n_resources = 0) := by
  have hc := RAGCounts_run cmp hash hcmp ops
  refine ⟨hc.proc_count, hc.res_count, hc.proc_nodup, hc.res_nodup, ?_, ?_, ?_, ?_⟩
  · intro k
    rw [hc.proc_mem k, ht_contains_iff hc.wf k]
  · intro k
    rw [hc.res_mem k, ht_contains_iff hc.wf k]
  · intro rag hz
    unfold RAG_decrement
    rw [if_neg (fun h => by rw [hz] at h; exact absurd h.2 (by omega)),
      if_neg (fun h => type_t.noConfusion h.1)]
    exact hz
  · intro rag hz
    unfold RAG_decrement
    rw [if_neg (fun h => type_t.noConfusion h.1),
      if_neg (fun h => by rw [hz] at h; exact absurd h.2 (by omega))]
    exact hz

theorem claim3_witness :
    (RAG_run (eqCmp (K := ckey_t Nat)) (fun _ => 0)
      [RAG_op.soft (⟨type_t.PROCESS_T, 1⟩ : ckey_t Nat) (some (5 : Nat)) none,
        RAG_op.hard (⟨type_t.RESOURCE_T, 2⟩ : ckey_t Nat) none none,
        RAG_op.soft (⟨type_t.PROCESS_T, 1⟩ : ckey_t Nat) (some 9) none]).n_processes =
      (RAG_run (eqCmp (K := ckey_t Nat)) (fun _ => 0)
        [RAG_op.soft (⟨type_t.PROCESS_T, 1⟩ : ckey_t Nat) (some (5 : Nat)) none,
          RAG_op.hard (⟨type_t.RESOURCE_T, 2⟩ : ckey_t Nat) none none,
          RAG_op.soft (⟨type_t.PROCESS_T, 1⟩ : ckey_t Nat) (some 9) none]).proc_key_list.length ∧
    ((⟨type_t.PROCESS_T, 1⟩ : ckey_t Nat) ∈
      (RAG_run (eqCmp (K := ckey_t Nat)) (fun _ => 0)
        [RAG_op.soft (⟨type_t.PROCESS_T, 1⟩ : ckey_t Nat) (some (5 : Nat)) none,
          RAG_op.hard (⟨type_t.RESOURCE_T, 2⟩ : ckey_t Nat) none none,
          RAG_op.soft (⟨type_t.PROCESS_T, 1⟩ : ckey_t Nat) (some 9) none]).proc_key_list ↔
      (ht_contains (RAG_run (eqCmp (K := ckey_t Nat)) (fun _ => 0)
        [RAG_op.soft (⟨type_t.PROCESS_T, 1⟩ : ckey_t Nat) (some (5 : Nat)) none,
          RAG_op.hard (⟨type_t.RESOURCE_T, 2⟩ : ckey_t Nat) none none,
          RAG_op.soft (⟨type_t.PROCESS_T, 1⟩ : ckey_t Nat) (some 9) none]).ht
        (⟨type_t.PROCESS_T, 1⟩ : ckey_t Nat) = true ∧
        (⟨type_t.PROCESS_T, 1⟩ : ckey_t Nat).type = type_t.PROCESS_T)) := by
  have h := claim3_counter_consistency (eqCmp (K := ckey_t Nat)) (fun _ => 0)
    cmpOk_eqCmp
    [RAG_op.soft (⟨type_t.PROCESS_T, 1⟩ : ckey_t Nat) (some (5 : Nat)) none,
      RAG_op.hard (⟨type_t.RESOURCE_T, 2⟩ : ckey_t Nat) none none,
      RAG_op.soft (⟨type_t.PROCESS_T, 1⟩ : ckey_t Nat) (some 9) none]
  exact ⟨h.1, h.2.2.2.2.1 (⟨type_t.PROCESS_T, 1⟩ : ckey_t Nat)⟩

/-! ### C4: the directed-to-undirected conversion pass -/

theorem _RAG_convert_step_none (rag : RAG_t I D) (key : ckey_t I)
    (h : (rag.heap.getD ((ht_search rag.ht key).getD 0) default).next = none) :
    _RAG_convert_step rag key = rag := by
  simp only [_RAG_convert_step, h]

theorem _RAG_convert_step_some (rag : RAG_t I D) (key : ckey_t I) (naddr : Nat)
    (h : (rag.heap.getD ((ht_search rag.ht key).getD 0) default).next =
      some naddr) :
    _RAG_convert_step rag key =
      { rag with
        heap := rag.heap.set naddr
          { rag.heap.getD naddr default with
            _prev := some ((ht_search rag.ht key).getD 0) } } := by
  simp only [_RAG_convert_step, h]

theorem mem_of_getD {α : Type _} {l : List α} {i : Nat} (h : i < l.length)
    (d : α) : l.getD i d ∈ l := by
  rw [List.getD_eq_getElem?_getD, List.getElem?_eq_getElem h]
  exact List.getElem_mem h

theorem getLast?_cons_of_some {α : Type _} {l : List α} {x : α}
    (h : l.getLast? = some x) (a : α) : (a :: l).getLast? = some x := by
  cases l with
  | nil => cases h
  | cons b t =>
      rw [List.getLast?_cons_cons]
      exact h

theorem getLast?_eq_none_iff_nil {α : Type _} {l : List α} :
    l.getLast? = none ↔ l = [] := by
  cases l with
  | nil => simp
  | cons b t =>
      constructor
      · intro h
        have : (b :: t).getLast?.isSome = true := by
          rw [List.getLast?_isSome]
          simp
        rw [h] at this
        cases this
      · intro h
        cases h

theorem convert_fold_char (keys : List (ckey_t I)) :
    ∀ (rag : RAG_t I D),
      (∀ key ∈ keys, ∃ a, ht_search rag.ht key = some a ∧ a < rag.heap.length) →
      (∀ n ∈ rag.heap, ∀ t, n.next = some t → t < rag.heap.length) →
      (keys.foldl _RAG_convert_step rag).ht = rag.ht ∧
      (keys.foldl _RAG_convert_step rag).heap.length = rag.heap.length ∧
      (∀ b : Nat,
        ((keys.foldl _RAG_convert_step rag).heap.getD b default).key =
          (rag.heap.getD b default).key ∧
        ((keys.foldl _RAG_convert_step rag).heap.getD b default).data =
          (rag.heap.getD b default).data ∧
        ((keys.foldl _RAG_convert_step rag).heap.getD b default).next =
          (rag.heap.getD b default).next) ∧
      (∀ B : Nat, B < rag.heap.length →
        ((keys.foldl _RAG_convert_step rag).heap.getD B default)._prev =
          (match ((keys.map (fun key => (ht_search rag.ht key).getD 0)).filter
              (fun x => (rag.heap.getD x default).next = some B)).getLast? with
           | some a => some a
           | none => (rag.heap.getD B default)._prev)) ∧
      (∀ n ∈ (keys.foldl _RAG_convert_step rag).heap, ∀ t : Nat,
        n.next = some t → t < rag.heap.length) := by
  induction keys with
  | nil =>
      intro rag _ hn
      refine ⟨rfl, rfl, fun b => ⟨rfl, rfl, rfl⟩, ?_, hn⟩
      intro B _
      simp
  | cons key rest ih =>
      intro rag hk hn
      obtain ⟨a, hsearch, ha⟩ := hk key (List.mem_cons_self key rest)
      have haddr : (ht_search rag.ht key).getD 0 = a := by
        rw [hsearch]
        rfl
      rw [List.foldl_cons]
      cases hnx : (rag.heap.getD a default).next with
      | none =>
          have hstep : _RAG_convert_step rag key = rag :=
            _RAG_convert_step_none rag key (by rw [haddr]; exact hnx)
          rw [hstep]
          obtain ⟨c1, c2, c3, c4, c5⟩ :=
            ih rag (fun k hk' => hk k (List.mem_cons_of_mem key hk')) hn
          refine ⟨c1, c2, c3, ?_, c5⟩
          intro B hB
          rw [c4 B hB, List.map_cons, List.filter_cons, haddr]
          have hfalse : (decide ((rag.heap.getD a default).next = some B)) = false := by
            rw [decide_eq_false_iff_not, hnx]
            intro h
            cases h
          rw [hfalse]
          simp only [Bool.false_eq_true, if_false]
      | some naddr =>
          have hnaddr : naddr < rag.heap.length :=
            hn (rag.heap.getD a default) (mem_of_getD ha default) naddr hnx
          have hstep : _RAG_convert_step rag key =
              { rag with
                heap := rag.heap.set naddr
                  { rag.heap.getD naddr default with _prev := some a } } := by
            rw [_RAG_convert_step_some rag key naddr (by rw [haddr]; exact hnx),
              haddr]
          rw [hstep]
          have f2 : ({ rag with
              heap := rag.heap.set naddr
                { rag.heap.getD naddr default with
                  _prev := some a } } : RAG_t I D).heap.length =
              rag.heap.length := by
            simp
          have f3 : ∀ b : Nat,
              (({ rag with
                heap := rag.heap.set naddr
                  { rag.heap.getD naddr default with
                    _prev := some a } } : RAG_t I D).heap.getD b default).key =
                (rag.heap.getD b default).key ∧
              (({ rag with
                heap := rag.heap.set naddr
                  { rag.heap.getD naddr default with
                    _prev := some a } } : RAG_t I D).heap.getD b default).data =
                (rag.heap.getD b default).data ∧
              (({ rag with
                heap := rag.heap.set naddr
                  { rag.heap.getD naddr default with
                    _prev := some a } } : RAG_t I D).heap.getD b default).next =
                (rag.heap.getD b default).next := by
            intro b
            by_cases hb : naddr = b
            · subst hb
              show ((rag.heap.set naddr _).getD naddr default).key = _ ∧ _ ∧ _
              rw [getD_set_eq_any hnaddr]
              exact ⟨rfl, rfl, rfl⟩
            · show ((rag.heap.set naddr _).getD b default).key = _ ∧ _ ∧ _
              rw [getD_set_ne_any rag.heap hb]
              exact ⟨rfl, rfl, rfl⟩
          obtain ⟨c1, c2, c3, c4, c5⟩ := ih
            { rag with
              heap := rag.heap.set naddr
                { rag.heap.getD naddr default with _prev := some a } }
            (fun k hk' => by
              obtain ⟨a', hs', ha'⟩ := hk k (List.mem_cons_of_mem key hk')
              exact ⟨a', hs', by rw [f2]; exact ha'⟩)
            (fun n hmem t hnt => by
              rw [f2]
              rcases List.mem_or_eq_of_mem_set hmem with hmem' | rfl
              · exact hn n hmem' t hnt
              · have : (rag.heap.getD naddr default).next = some t := hnt
                exact hn (rag.heap.getD naddr default)
                  (mem_of_getD hnaddr default) t this)
          refine ⟨c1, by rw [c2, f2], ?_, ?_, ?_⟩
          case refine_3 =>
            intro n hmem t hnt
            have := c5 n hmem t hnt
            rw [f2] at this
            exact this
          · intro b
            obtain ⟨d1, d2, d3⟩ := c3 b
            obtain ⟨e1, e2, e3⟩ := f3 b
            exact ⟨d1.trans e1, d2.trans e2, d3.trans e3⟩
          · intro B hB
            have hB1 : B < ({ rag with
                heap := rag.heap.set naddr
                  { rag.heap.getD naddr default with
                    _prev := some a } } : RAG_t I D).heap.length := by
              rw [f2]
              exact hB
            rw [c4 B hB1]
            have hfilter : ((rest.map (fun k =>
                (ht_search ({ rag with
                  heap := rag.heap.set naddr
                    { rag.heap.getD naddr default with
                      _prev := some a } } : RAG_t I D).ht k).getD 0)).filter
                (fun x => (({ rag with
                  heap := rag.heap.set naddr
                    { rag.heap.getD naddr default with
                      _prev := some a } } : RAG_t I D).heap.getD x
                        default).next = some B)) =
                ((rest.map (fun k => (ht_search rag.ht k).getD 0)).filter
                (fun x => (rag.heap.getD x default).next = some B)) := by
              apply List.filter_congr
              intro x _
              have := (f3 x).2.2
              simp only [this]
            rw [hfilter, List.map_cons, List.filter_cons, haddr]
            by_cases hnB : naddr = B
            · subst hnB
              have htrue : (decide ((rag.heap.getD a default).next =
                  some naddr)) = true := by
                rw [decide_eq_true_eq]
                exact hnx
              rw [htrue]
              simp only [if_true]
              have hbase : (({ rag with
                  heap := rag.heap.set naddr
                    { rag.heap.getD naddr default with
                      _prev := some a } } : RAG_t I D).heap.getD naddr
                        default)._prev = some a := by
                show ((rag.heap.set naddr _).getD naddr default)._prev = some a
                rw [getD_set_eq_any hnaddr]
              rw [hbase]
              cases hfr : ((rest.map (fun k => (ht_search rag.ht k).getD 0)).filter
                  (fun x => (rag.heap.getD x default).next = some naddr)).getLast? with
              | some x =>
                  rw [getLast?_cons_of_some hfr a]
              | none =>
                  rw [getLast?_eq_none_iff_nil.mp hfr]
                  rfl
            · have hfalse2 : (decide ((rag.heap.getD a default).next =
                  some B)) = false := by
                rw [decide_eq_false_iff_not, hnx]
                intro h
                injection h with h'
                exact hnB h'
              rw [hfalse2]
              simp only [Bool.false_eq_true, if_false]
              have hbase : (({ rag with
                  heap := rag.heap.set naddr
                    { rag.heap.getD naddr default with
                      _prev := some a } } : RAG_t I D).heap.getD B
                        default)._prev = (rag.heap.getD B default)._prev := by
                show ((rag.heap.set naddr _).getD B default)._prev = _
                rw [getD_set_ne_any rag.heap hnB]
              rw [hbase]

theorem getLast?_append_right {α : Type _} {l l2 : List α} {x : α}
    (h : l2.getLast? = some x) : (l ++ l2).getLast? = some x := by
  induction l with
  | nil => exact h
  | cons a t iht =>
      rw [List.cons_append]
      exact getLast?_cons_of_some iht a

/-- **C4** (single-slot back-reference): `RAG_convert_to_undirected` makes a
single pass over the process order list and then the resource order list and,
for each visited node whose `next` edge is set, writes that node into
`next._prev`.  Hence, for every target slot `B`, the final `B._prev` is the
last node in that traversal order (all processes in insertion order, then all
resources in insertion order) whose `next` points at `B` — not any of the
earlier ones — and `B._prev` is untouched when no visited node points at `B`.
All other node fields (`key`, `data`, `next`) and the hashtable itself are
left unchanged.  Hypotheses: every key on the order lists resolves through
`ht_search` to an in-bounds node address, and every `next` edge is in bounds
(both hold for RAGs built by the insert operations). -/
theorem claim4_single_slot_back_reference (rag : RAG_t I D)
    (hkeys : ∀ key ∈ rag.proc_key_list ++ rag.res_key_list,
      ∃ a, ht_search rag.ht key = some a ∧ a < rag.heap.length)
    (hnext : ∀ n ∈ rag.heap, ∀ t : Nat, n.next = some t → t < rag.heap.length)
    (B : Nat) (hB : B < rag.heap.length) :
    ((RAG_convert_to_undirected rag).heap.getD B default)._prev =
      (match (((rag.proc_key_list ++ rag.res_key_list).map
          (fun key => (ht_search rag.ht key).getD 0)).filter
          (fun x => (rag.heap.getD x default).next = some B)).getLast? with
       | some a => some a
       | none => (rag.heap.getD B default)._prev) ∧
    ((RAG_convert_to_undirected rag).heap.getD B default).key =
      (rag.heap.getD B default).key ∧
    ((RAG_convert_to_undirected rag).heap.getD B default).data =
      (rag.heap.getD B default).data ∧
    ((RAG_convert_to_undirected rag).heap.getD B default).next =
      (rag.heap.getD B default).next ∧
    (RAG_convert_to_undirected rag).ht = rag.ht := by
  obtain ⟨p1, p2, p3, p4, p5⟩ := convert_fold_char rag.proc_key_list rag
    (fun k hk => hkeys k (List.mem_append_left _ hk)) hnext
  obtain ⟨q1, q2, q3, q4, q5⟩ := convert_fold_char rag.res_key_list
    (rag.proc_key_list.foldl _RAG_convert_step rag)
    (fun k hk => by
      obtain ⟨a, hs, ha⟩ := hkeys k (List.mem_append_right _ hk)
      exact ⟨a, by rw [p1]; exact hs, by rw [p2]; exact ha⟩)
    (fun n hmem t hnt => by
      rw [p2]
      exact p5 n hmem t hnt)
  have hBmid : B < (rag.proc_key_list.foldl _RAG_convert_step rag).heap.length := by
    rw [p2]
    exact hB
  show ((rag.res_key_list.foldl _RAG_convert_step
      (rag.proc_key_list.foldl _RAG_convert_step rag)).heap.getD B
        default)._prev = _ ∧ _ ∧ _ ∧ _ ∧ _
  refine ⟨?_, (q3 B).1.trans (p3 B).1, (q3 B).2.1.trans (p3 B).2.1,
    (q3 B).2.2.trans (p3 B).2.2, q1.trans p1⟩
  have hmap : rag.res_key_list.map (fun k =>
      (ht_search (rag.proc_key_list.foldl _RAG_convert_step rag).ht k).getD 0) =
      rag.res_key_list.map (fun k => (ht_search rag.ht k).getD 0) := by
    apply List.map_congr_left
    intro k _
    rw [p1]
  have hfil : (rag.res_key_list.map (fun k => (ht_search rag.ht k).getD 0)).filter
      (fun x => (((rag.proc_key_list.foldl _RAG_convert_step rag)).heap.getD x
          default).next = some B) =
      (rag.res_key_list.map (fun k => (ht_search rag.ht k).getD 0)).filter
      (fun x => (rag.heap.getD x default).next = some B) := by
    apply List.filter_congr
    intro x _
    simp only [(p3 x).2.2]
  rw [q4 B hBmid, hmap, hfil, List.map_append, List.filter_append]
  cases hfr : ((rag.res_key_list.map (fun k => (ht_search rag.ht k).getD 0)).filter
      (fun x => decide ((rag.heap.getD x default).next = some B))).getLast? with
  | some x =>
      rw [getLast?_append_right hfr]
  | none =>
      rw [getLast?_eq_none_iff_nil.mp hfr, List.append_nil]
      exact p4 B hB

/-- Concrete run of C4: resource 10 at address 0 with no `next`; processes 20
(address 1) and 30 (address 2), both with `next = some 0`, inserted in that
order.  Both point at slot 0, and the conversion leaves `_prev` of slot 0
equal to the later of the two in traversal order, address 2. -/
theorem claim4_witness :
    ((RAG_convert_to_undirected
      ((RAG_insert (RAG_insert (RAG_insert
        (RAG_create eqCmp (fun _ => 0) : RAG_t Nat Nat)
        ⟨type_t.RESOURCE_T, 10⟩ (some 5) none).1
        ⟨type_t.PROCESS_T, 20⟩ none (some 0)).1
        ⟨type_t.PROCESS_T, 30⟩ none (some 0)).1)).heap.getD 0
          default)._prev = some 2 := by
  have hkeys : ∀ key ∈ ((RAG_insert (RAG_insert (RAG_insert
        (RAG_create eqCmp (fun _ => 0) : RAG_t Nat Nat)
        ⟨type_t.RESOURCE_T, 10⟩ (some 5) none).1
        ⟨type_t.PROCESS_T, 20⟩ none (some 0)).1
        ⟨type_t.PROCESS_T, 30⟩ none (some 0)).1).proc_key_list ++
        ((RAG_insert (RAG_insert (RAG_insert
        (RAG_create eqCmp (fun _ => 0) : RAG_t Nat Nat)
        ⟨type_t.RESOURCE_T, 10⟩ (some 5) none).1
        ⟨type_t.PROCESS_T, 20⟩ none (some 0)).1
        ⟨type_t.PROCESS_T, 30⟩ none (some 0)).1).res_key_list,
      ∃ a, ht_search ((RAG_insert (RAG_insert (RAG_insert
        (RAG_create eqCmp (fun _ => 0) : RAG_t Nat Nat)
        ⟨type_t.RESOURCE_T, 10⟩ (some 5) none).1
        ⟨type_t.PROCESS_T, 20⟩ none (some 0)).1
        ⟨type_t.PROCESS_T, 30⟩ none (some 0)).1).ht key = some a ∧
        a < ((RAG_insert (RAG_insert (RAG_insert
        (RAG_create eqCmp (fun _ => 0) : RAG_t Nat Nat)
        ⟨type_t.RESOURCE_T, 10⟩ (some 5) none).1
        ⟨type_t.PROCESS_T, 20⟩ none (some 0)).1
        ⟨type_t.PROCESS_T, 30⟩ none (some 0)).1).heap.length := by
    intro key hk
    have hk' : key = (⟨type_t.PROCESS_T, 20⟩ : ckey_t Nat) ∨
        key = (⟨type_t.PROCESS_T, 30⟩ : ckey_t Nat) ∨
        key = (⟨type_t.RESOURCE_T, 10⟩ : ckey_t Nat) := by
      rw [show ((RAG_insert (RAG_insert (RAG_insert
          (RAG_create eqCmp (fun _ => 0) : RAG_t Nat Nat)
          ⟨type_t.RESOURCE_T, 10⟩ (some 5) none).1
          ⟨type_t.PROCESS_T, 20⟩ none (some 0)).1
          ⟨type_t.PROCESS_T, 30⟩ none (some 0)).1).proc_key_list =
          [⟨type_t.PROCESS_T, 20⟩, ⟨type_t.PROCESS_T, 30⟩] from by decide,
        show ((RAG_insert (RAG_insert (RAG_insert
          (RAG_create eqCmp (fun _ => 0) : RAG_t Nat Nat)
          ⟨type_t.RESOURCE_T, 10⟩ (some 5) none).1
          ⟨type_t.PROCESS_T, 20⟩ none (some 0)).1
          ⟨type_t.PROCESS_T, 30⟩ none (some 0)).1).res_key_list =
          [⟨type_t.RESOURCE_T, 10⟩] from by decide] at hk
      simp only [List.mem_append, List.mem_cons, List.not_mem_nil,
        or_false] at hk
      tauto
    rcases hk' with rfl | rfl | rfl
    · exact ⟨1, by decide, by decide⟩
    · exact ⟨2, by decide, by decide⟩
    · exact ⟨0, by decide, by decide⟩
  have hnext : ∀ n ∈ ((RAG_insert (RAG_insert (RAG_insert
        (RAG_create eqCmp (fun _ => 0) : RAG_t Nat Nat)
        ⟨type_t.RESOURCE_T, 10⟩ (some 5) none).1
        ⟨type_t.PROCESS_T, 20⟩ none (some 0)).1
        ⟨type_t.PROCESS_T, 30⟩ none (some 0)).1).heap, ∀ t : Nat,
      n.next = some t →
      t < ((RAG_insert (RAG_insert (RAG_insert
        (RAG_create eqCmp (fun _ => 0) : RAG_t Nat Nat)
        ⟨type_t.RESOURCE_T, 10⟩ (some 5) none).1
        ⟨type_t.PROCESS_T, 20⟩ none (some 0)).1
        ⟨type_t.PROCESS_T, 30⟩ none (some 0)).1).heap.length := by
    intro n hn t ht
    have hn' : n.next = none ∨ n.next = some 0 := by
      rw [show ((RAG_insert (RAG_insert (RAG_insert
          (RAG_create eqCmp (fun _ => 0) : RAG_t Nat Nat)
          ⟨type_t.RESOURCE_T, 10⟩ (some 5) none).1
          ⟨type_t.PROCESS_T, 20⟩ none (some 0)).1
          ⟨type_t.PROCESS_T, 30⟩ none (some 0)).1).heap =
          [⟨⟨type_t.RESOURCE_T, 10⟩, some 5, none, none⟩,
           ⟨⟨type_t.PROCESS_T, 20⟩, none, none, some 0⟩,
           ⟨⟨type_t.PROCESS_T, 30⟩, none, none, some 0⟩] from by decide] at hn
      simp only [List.mem_cons, List.not_mem_nil, or_false] at hn
      rcases hn with rfl | rfl | rfl
      · exact Or.inl rfl
      · exact Or.inr rfl
      · exact Or.inr rfl
    rcases hn' with hz | hz
    · rw [hz] at ht
      cases ht
    · rw [hz] at ht
      injection ht with ht'
      rw [← ht']
      decide
  have h := claim4_single_slot_back_reference
    ((RAG_insert (RAG_insert (RAG_insert
      (RAG_create eqCmp (fun _ => 0) : RAG_t Nat Nat)
      ⟨type_t.RESOURCE_T, 10⟩ (some 5) none).1
      ⟨type_t.PROCESS_T, 20⟩ none (some 0)).1
      ⟨type_t.PROCESS_T, 30⟩ none (some 0)).1)
    hkeys hnext 0 (by decide)
  rw [h.1]
  rfl

theorem headOr_append (t l2 : List Nat) (nx : Option Nat) :
    headOr (t ++ l2) nx = headOr t (headOr l2 nx) := by
  cases t <;> rfl

theorem headOr_none (l : List Nat) : headOr l none = l.head? := by
  cases l <;> rfl

theorem lastOr_cons (a : Nat) (t : List Nat) (pa : Option Nat) :
    lastOr (a :: t) pa = lastOr t (some a) := by
  cases t with
  | nil => simp [lastOr]
  | cons b t' =>
      unfold lastOr
      rw [List.getLast?_cons_cons]
      cases h : (b :: t').getLast? with
      | none => exact absurd (getLast?_eq_none_iff_nil.mp h) (by simp)
      | some x => rfl

theorem lastOr_none (l : List Nat) : lastOr l none = l.getLast? := by
  unfold lastOr
  cases h : l.getLast? <;> rfl

theorem getLast?_eq_some_concat {α : Type _} :
    ∀ {l : List α} {x : α}, l.getLast? = some x → ∃ l', l = l' ++ [x] := by
  intro l
  induction l with
  | nil => intro x h; cases h
  | cons b t ih =>
      intro x h
      cases t with
      | nil =>
          rw [List.getLast?_singleton] at h
          injection h with h'
          exact ⟨[], by rw [h']; rfl⟩
      | cons c t' =>
          rw [List.getLast?_cons_cons] at h
          obtain ⟨l', hl'⟩ := ih h
          exact ⟨b :: l', by rw [hl']; rfl⟩

theorem chainSeg_cons {heap : List (DLL_node_t D)} {pa nx : Option Nat}
    {a : Nat} {rest : List Nat} :
    chainSeg heap pa (a :: rest) nx ↔
      (a < heap.length ∧ (heap.getD a default).prev = pa ∧
        (heap.getD a default).next = headOr rest nx ∧
        chainSeg heap (some a) rest nx) := Iff.rfl

theorem chainSeg_append {heap : List (DLL_node_t D)} :
    ∀ (l1 l2 : List Nat) (pa nx : Option Nat),
      chainSeg heap pa (l1 ++ l2) nx ↔
        (chainSeg heap pa l1 (headOr l2 nx) ∧
          chainSeg heap (lastOr l1 pa) l2 nx) := by
  intro l1
  induction l1 with
  | nil =>
      intro l2 pa nx
      simp only [List.nil_append]
      exact ⟨fun h => ⟨trivial, h⟩, fun h => h.2⟩
  | cons a t ih =>
      intro l2 pa nx
      rw [List.cons_append, chainSeg_cons, chainSeg_cons, headOr_append,
        lastOr_cons]
      constructor
      · rintro ⟨h1, h2, h3, h4⟩
        obtain ⟨h5, h6⟩ := (ih l2 (some a) nx).mp h4
        exact ⟨⟨h1, h2, h3, h5⟩, h6⟩
      · rintro ⟨⟨h1, h2, h3, h5⟩, h6⟩
        exact ⟨h1, h2, h3, (ih l2 (some a) nx).mpr ⟨h5, h6⟩⟩

theorem chainSeg_bounds {heap : List (DLL_node_t D)} :
    ∀ {l : List Nat} {pa nx : Option Nat}, chainSeg heap pa l nx →
      ∀ a ∈ l, a < heap.length := by
  intro l
  induction l with
  | nil => intro pa nx _ a ha; cases ha
  | cons b t ih =>
      rintro pa nx ⟨h1, _, _, h4⟩ a ha
      rcases List.mem_cons.mp ha with rfl | ha'
      · exact h1
      · exact ih h4 a ha'

theorem chainSeg_frame {heap heap2 : List (DLL_node_t D)}
    (hlen : heap.length ≤ heap2.length) :
    ∀ {l : List Nat} {pa nx : Option Nat},
      (∀ a ∈ l, heap2.getD a default = heap.getD a default) →
      chainSeg heap pa l nx → chainSeg heap2 pa l nx := by
  intro l
  induction l with
  | nil => intro pa nx _ _; trivial
  | cons b t ih =>
      rintro pa nx hsame ⟨h1, h2, h3, h4⟩
      have hb := hsame b (List.mem_cons_self b t)
      exact ⟨Nat.lt_of_lt_of_le h1 hlen, by rw [hb]; exact h2,
        by rw [hb]; exact h3,
        ih (fun a ha => hsame a (List.mem_cons_of_mem b ha)) h4⟩

theorem nodup_lt_length_le {l : List Nat} {n : Nat} (hnd : l.Nodup)
    (hb : ∀ a ∈ l, a < n) : l.length ≤ n := by
  have hsub : l.toFinset ⊆ Finset.range n := fun x hx =>
    Finset.mem_range.mpr (hb x (List.mem_toFinset.mp hx))
  have hc := Finset.card_le_card hsub
  rw [Finset.card_range] at hc
  rwa [List.toFinset_card_of_nodup hnd] at hc

theorem getD_set_data {l : List (DLL_node_t D)} {i b : Nat}
    {x : DLL_node_t D} (hdata : x.data = (l.getD i default).data) :
    ((l.set i x).getD b default).data = (l.getD b default).data := by
  by_cases hib : i = b
  · subst hib
    by_cases hlt : i < l.length
    · rw [getD_set_eq_any hlt, hdata]
    · have hle : l.length ≤ i := Nat.le_of_not_lt hlt
      have h1 : (l.set i x).length ≤ i := by
        rw [List.length_set]
        exact hle
      rw [List.getD_eq_default _ _ h1, List.getD_eq_default _ _ hle]
  · rw [getD_set_ne_any _ hib]

theorem DLL_unlink_heap_length (heap : List (DLL_node_t D)) (a : Nat) :
    (DLL_unlink_heap heap a).length = heap.length := by
  simp only [DLL_unlink_heap]
  cases (heap.getD a default).prev <;> cases (heap.getD a default).next <;> simp

theorem DLL_unlink_heap_data (heap : List (DLL_node_t D)) (a b : Nat) :
    ((DLL_unlink_heap heap a).getD b default).data =
      (heap.getD b default).data := by
  simp only [DLL_unlink_heap]
  cases hp : (heap.getD a default).prev with
  | none =>
      cases hq : (heap.getD a default).next with
      | none => rfl
      | some q => exact getD_set_data rfl
  | some p =>
      cases hq : (heap.getD a default).next with
      | none => exact getD_set_data rfl
      | some q =>
          exact Eq.trans
            (getD_set_data (l := heap.set p
              { heap.getD p default with next := some q }) rfl)
            (getD_set_data rfl)

theorem DLL_insert_tail_spec {dll : DLL_t D} {live : List Nat}
    (h : DLL_rep dll live) (data : Option D) :
    DLL_rep (DLL_insert_tail dll data) (live ++ [dll.heap.length]) ∧
    (DLL_insert_tail dll data).heap.length = dll.heap.length + 1 ∧
    (DLL_insert_tail dll data).tail = some dll.heap.length ∧
    (∀ b : Nat, b ≠ dll.heap.length →
      ((DLL_insert_tail dll data).heap.getD b default).data =
        (dll.heap.getD b default).data) ∧
    ((DLL_insert_tail dll data).heap.getD dll.heap.length default).data =
      data := by
  obtain ⟨hh, htl, hc, hnd⟩ := h
  have hbounds := chainSeg_bounds hc
  cases htail : dll.tail with
  | none =>
      have hnil : live = [] := by
        rw [htail] at htl
        exact getLast?_eq_none_iff_nil.mp htl.symm
      subst hnil
      have hhead : dll.head = none := hh
      have heq : DLL_insert_tail dll data =
          { heap := dll.heap ++ [(⟨data, none, none⟩ : DLL_node_t D)],
            head := some dll.heap.length,
            tail := some dll.heap.length } := by
        simp only [DLL_insert_tail, htail, hhead]
      rw [heq]
      refine ⟨⟨rfl, by simp, ?_, by simp⟩, by simp, rfl, ?_, ?_⟩
      · refine chainSeg_cons.mpr ⟨by simp, ?_, ?_, trivial⟩
        · rw [getD_append_length]
        · rw [getD_append_length]
          rfl
      · intro b hb
        by_cases hlt : b < dll.heap.length
        · rw [getD_append_lt _ _ hlt]
        · have h1 : dll.heap.length ≤ b := Nat.le_of_not_lt hlt
          have h2 : (dll.heap ++ [(⟨data, none, none⟩ : DLL_node_t D)]).length ≤ b := by
            rw [List.length_append]
            simp only [List.length_singleton]
            omega
          rw [List.getD_eq_default _ _ h2, List.getD_eq_default _ _ h1]
      · rw [getD_append_length]
  | some t =>
      obtain ⟨live', rfl⟩ : ∃ live', live = live' ++ [t] := by
        apply getLast?_eq_some_concat
        rw [← htl]
        exact htail
      have htmem : t ∈ live' ++ [t] :=
        List.mem_append_right _ (List.mem_cons_self _ _)
      have htlt : t < dll.heap.length := hbounds t htmem
      have htne : t ≠ dll.heap.length := Nat.ne_of_lt htlt
      obtain ⟨x, hx⟩ : ∃ x, dll.head = some x := by
        rw [hh]
        cases live' with
        | nil => exact ⟨t, rfl⟩
        | cons y ys => exact ⟨y, rfl⟩
      have heq : DLL_insert_tail dll data =
          { heap := (dll.heap ++ [(⟨data, some t, none⟩ : DLL_node_t D)]).set t
              { dll.heap.getD t default with next := some dll.heap.length },
            head := some x,
            tail := some dll.heap.length } := by
        simp only [DLL_insert_tail, htail, hx]
        rw [getD_append_lt _ _ htlt]
      have hlen2 : ((dll.heap ++ [(⟨data, some t, none⟩ : DLL_node_t D)]).set t
          { dll.heap.getD t default with
            next := some dll.heap.length }).length = dll.heap.length + 1 := by
        rw [List.length_set, List.length_append]
        rfl
      have g_at_len : ((dll.heap ++ [(⟨data, some t, none⟩ : DLL_node_t D)]).set t
          { dll.heap.getD t default with
            next := some dll.heap.length }).getD dll.heap.length default =
          ⟨data, some t, none⟩ := by
        rw [getD_set_ne_any _ htne, getD_append_length]
      have g_at_t : ((dll.heap ++ [(⟨data, some t, none⟩ : DLL_node_t D)]).set t
          { dll.heap.getD t default with
            next := some dll.heap.length }).getD t default =
          { dll.heap.getD t default with next := some dll.heap.length } := by
        refine getD_set_eq_any ?_ _ _
        rw [List.length_append]
        simp only [List.length_singleton]
        omega
      have g_other : ∀ b : Nat, b ≠ t → b ≠ dll.heap.length →
          ((dll.heap ++ [(⟨data, some t, none⟩ : DLL_node_t D)]).set t
            { dll.heap.getD t default with
              next := some dll.heap.length }).getD b default =
          dll.heap.getD b default := by
        intro b hbt hblen
        rw [getD_set_ne_any _ (fun hcon => hbt hcon.symm)]
        by_cases hlt : b < dll.heap.length
        · rw [getD_append_lt _ _ hlt]
        · have h1 : dll.heap.length ≤ b := Nat.le_of_not_lt hlt
          have h2 : (dll.heap ++ [(⟨data, some t, none⟩ : DLL_node_t D)]).length ≤ b := by
            rw [List.length_append]
            simp only [List.length_singleton]
            omega
          rw [List.getD_eq_default _ _ h2, List.getD_eq_default _ _ h1]
      rw [heq]
      obtain ⟨hcl1, hcp⟩ := (chainSeg_append live' [t] none none).mp hc
      obtain ⟨hp1, hpprev, hpnext, _⟩ := chainSeg_cons.mp hcp
      have htnotl : t ∉ live' := by
        obtain ⟨_, _, hd⟩ := List.nodup_append.mp hnd
        exact fun hcon => hd hcon (List.mem_cons_self _ _)
      refine ⟨⟨?_, ?_, ?_, ?_⟩, hlen2, rfl, ?_, ?_⟩
      · have hheadapp : ((live' ++ [t]) ++ [dll.heap.length]).head? =
            (live' ++ [t]).head? := by
          cases live' <;> rfl
        rw [hheadapp, ← hh, hx]
      · rw [getLast?_append_right (x := dll.heap.length) (l := live' ++ [t])
          (by simp)]
      · rw [chainSeg_append (live' ++ [t]) [dll.heap.length] none none]
        constructor
        · rw [chainSeg_append live' [t] none (headOr [dll.heap.length] none)]
          constructor
          · refine chainSeg_frame (by rw [hlen2]; omega) ?_ hcl1
            intro b hb
            have hbt : b ≠ t := fun hcon => htnotl (hcon ▸ hb)
            have hblen : b ≠ dll.heap.length :=
              Nat.ne_of_lt (hbounds b (List.mem_append_left _ hb))
            exact g_other b hbt hblen
          · refine chainSeg_cons.mpr ⟨?_, ?_, ?_, trivial⟩
            · rw [hlen2]
              omega
            · rw [g_at_t]
              exact hpprev
            · rw [g_at_t]
              rfl
        · refine chainSeg_cons.mpr ⟨?_, ?_, ?_, trivial⟩
          · rw [hlen2]
            omega
          · rw [g_at_len]
            rw [lastOr_none,
              getLast?_append_right (x := t) (l := live') (by simp)]
          · rw [g_at_len]
            rfl
      · refine List.Nodup.append hnd (List.nodup_singleton _) ?_
        intro y hy1 hy2
        rw [List.mem_singleton] at hy2
        subst hy2
        exact absurd (hbounds _ hy1) (by omega)
      · intro b hb
        by_cases hbt : b = t
        · subst hbt
          rw [g_at_t]
        · rw [g_other b hbt hb]
      · rw [g_at_len]

theorem DLL_pop_spec {dll : DLL_t D} {a : Nat} {rest : List Nat}
    (h : DLL_rep dll (a :: rest)) :
    (DLL_pop dll).1 = (dll.heap.getD a default).data ∧
    DLL_rep (DLL_pop dll).2 rest ∧
    (DLL_pop dll).2.heap.length = dll.heap.length ∧
    (∀ b : Nat, ((DLL_pop dll).2.heap.getD b default).data =
      (dll.heap.getD b default).data) := by
  obtain ⟨hh, htl, hc, hnd⟩ := h
  obtain ⟨ha, hprev, hnext, hcrest⟩ := chainSeg_cons.mp hc
  have hh' : dll.head = some a := hh
  have hanotin : a ∉ rest := (List.nodup_cons.mp hnd).1
  have hndrest : rest.Nodup := (List.nodup_cons.mp hnd).2
  cases rest with
  | nil =>
      have hnext' : (dll.heap.getD a default).next = none := hnext
      have htla : dll.tail = some a := by
        rw [htl]
        simp
      have heq : DLL_pop dll = ((dll.heap.getD a default).data,
          ⟨dll.heap, none, none⟩) := by
        simp only [DLL_pop, hh', hnext']
        rw [if_pos htla]
      rw [heq]
      exact ⟨rfl, ⟨rfl, rfl, trivial, List.nodup_nil⟩, rfl, fun b => rfl⟩
  | cons q rest' =>
      have hnext' : (dll.heap.getD a default).next = some q := hnext
      obtain ⟨hq, hqprev, hqnext, hcrest'⟩ := chainSeg_cons.mp hcrest
      have hqnotin : q ∉ rest' := (List.nodup_cons.mp hndrest).1
      have htlne : dll.tail ≠ some a := by
        rw [htl, List.getLast?_cons_cons]
        intro hcon
        obtain ⟨l', hl'⟩ := getLast?_eq_some_concat hcon
        exact hanotin (by
          rw [hl']
          exact List.mem_append_right _ (List.mem_cons_self _ _))
      have heq : DLL_pop dll = ((dll.heap.getD a default).data,
          ⟨dll.heap.set q { dll.heap.getD q default with prev := none },
            some q, dll.tail⟩) := by
        simp only [DLL_pop, hh', hnext']
        rw [if_neg htlne]
      rw [heq]
      refine ⟨rfl, ⟨rfl, ?_, ?_, hndrest⟩, by simp, ?_⟩
      · rw [htl, List.getLast?_cons_cons]
      · refine chainSeg_cons.mpr ⟨by simp [hq], ?_, ?_, ?_⟩
        · rw [getD_set_eq_any hq]
        · rw [getD_set_eq_any hq]
          exact hqnext
        · refine chainSeg_frame (by simp) ?_ hcrest'
          intro b hb
          exact getD_set_ne_any _ (fun hqb => hqnotin (by
              rw [hqb]
              exact hb)) _ _
      · intro b
        exact getD_set_data rfl

theorem DLL_clean_fuel_drain :
    ∀ (live : List Nat) (dll : DLL_t D) (fuel : Nat),
      DLL_rep dll live → live.length ≤ fuel →
      DLL_clean_fuel true fuel dll =
        live.map (fun a => (dll.heap.getD a default).data) := by
  intro live
  induction live with
  | nil =>
      intro dll fuel h _
      obtain ⟨hh, _, _, _⟩ := h
      cases fuel with
      | zero => rfl
      | succ f =>
          simp only [DLL_clean_fuel]
          rw [show dll.head = none from hh]
          rfl
  | cons a rest ih =>
      intro dll fuel h hfuel
      cases fuel with
      | zero => exact absurd hfuel (by simp)
      | succ f =>
          obtain ⟨h1, h2, h3, h4⟩ := DLL_pop_spec h
          have hh : dll.head = some a := h.1
          have hstep : DLL_clean_fuel true (f + 1) dll =
              (DLL_pop dll).1 :: DLL_clean_fuel true f (DLL_pop dll).2 := by
            simp only [DLL_clean_fuel]
            rw [hh]
            rfl
          rw [hstep, h1, ih (DLL_pop dll).2 f h2 (by
            simp only [List.length_cons] at hfuel
            omega)]
          rw [List.map_cons]
          congr 1
          exact List.map_congr_left (fun b _ => h4 b)

theorem DLL_clean_drain {dll : DLL_t D} {live : List Nat}
    (h : DLL_rep dll live) :
    DLL_clean dll true = live.map (fun a => (dll.heap.getD a default).data) := by
  apply DLL_clean_fuel_drain live dll _ h
  have hb := chainSeg_bounds h.2.2.1
  have := nodup_lt_length_le h.2.2.2 hb
  omega

theorem DLL_unlink_spec {heap : List (DLL_node_t D)} {l1 l2 : List Nat}
    {a : Nat} (hchain : chainSeg heap none (l1 ++ a :: l2) none)
    (hnd : (l1 ++ a :: l2).Nodup) :
    chainSeg (DLL_unlink_heap heap a) none (l1 ++ l2) none ∧
    (DLL_unlink_heap heap a).length = heap.length ∧
    (∀ b : Nat, ((DLL_unlink_heap heap a).getD b default).data =
      (heap.getD b default).data) ∧
    (heap.getD a default).prev = l1.getLast? ∧
    (heap.getD a default).next = l2.head? := by
  obtain ⟨hnd1, hndc, hdisj⟩ := List.nodup_append.mp hnd
  obtain ⟨hal2, hnd2⟩ := List.nodup_cons.mp hndc
  obtain ⟨hcl1, hcmid⟩ := (chainSeg_append l1 (a :: l2) none none).mp hchain
  obtain ⟨ha, hprev, hnext, hcl2⟩ := chainSeg_cons.mp hcmid
  rw [lastOr_none] at hprev
  rw [headOr_none] at hnext
  refine ⟨?_, DLL_unlink_heap_length heap a,
    fun b => DLL_unlink_heap_data heap a b, hprev, hnext⟩
  cases hl1last : l1.getLast? with
  | none =>
      have hl1nil : l1 = [] := getLast?_eq_none_iff_nil.mp hl1last
      subst hl1nil
      have hprev' : (heap.getD a default).prev = none := by
        rw [hprev]
        rfl
      cases l2 with
      | nil =>
          have hnext' : (heap.getD a default).next = none := by
            rw [hnext]
            rfl
          have hunl : DLL_unlink_heap heap a = heap := by
            simp only [DLL_unlink_heap, hprev', hnext']
          rw [hunl]
          trivial
      | cons q l2' =>
          have hnext' : (heap.getD a default).next = some q := by
            rw [hnext]
            rfl
          have hunl : DLL_unlink_heap heap a =
              heap.set q { heap.getD q default with prev := none } := by
            simp only [DLL_unlink_heap, hprev', hnext']
          rw [hunl]
          obtain ⟨hq, hqprev, hqnext, hcl2'⟩ := chainSeg_cons.mp hcl2
          have hqnotin : q ∉ l2' := (List.nodup_cons.mp hnd2).1
          refine chainSeg_cons.mpr ⟨by simp [hq], ?_, ?_, ?_⟩
          · rw [getD_set_eq_any hq]
          · rw [getD_set_eq_any hq]
            exact hqnext
          · refine chainSeg_frame (by simp) ?_ hcl2'
            intro b hb
            exact getD_set_ne_any _ (fun hqb => hqnotin (by
              rw [hqb]
              exact hb)) _ _
  | some p =>
      obtain ⟨l1', rfl⟩ := getLast?_eq_some_concat hl1last
      have hprev' : (heap.getD a default).prev = some p := by
        rw [hprev]
        exact hl1last
      have hpmem : p ∈ l1' ++ [p] :=
        List.mem_append_right _ (List.mem_cons_self _ _)
      have hpa : p ≠ a := by
        intro hcon
        exact hdisj hpmem (by rw [hcon]; exact List.mem_cons_self _ _)
      have hpl2 : p ∉ l2 := fun hcon => hdisj hpmem (List.mem_cons_of_mem _ hcon)
      have hpnotl1' : p ∉ l1' := by
        obtain ⟨_, _, hd⟩ := List.nodup_append.mp hnd1
        exact fun hcon => hd hcon (List.mem_cons_self _ _)
      obtain ⟨hcl1', hcp⟩ := (chainSeg_append l1' [p] none (some a)).mp hcl1
      obtain ⟨hp, hpprev, hpnext, _⟩ := chainSeg_cons.mp hcp
      cases l2 with
      | nil =>
          have hnext' : (heap.getD a default).next = none := by
            rw [hnext]
            rfl
          have hunl : DLL_unlink_heap heap a =
              heap.set p { heap.getD p default with next := none } := by
            simp only [DLL_unlink_heap, hprev', hnext']
          rw [hunl, List.append_nil]
          rw [chainSeg_append l1' [p] none none]
          constructor
          · refine chainSeg_frame (by simp) ?_ hcl1'
            intro b hb
            exact getD_set_ne_any _ (fun hpb => hpnotl1' (by
              rw [hpb]
              exact hb)) _ _
          · refine chainSeg_cons.mpr ⟨by simp [hp], ?_, ?_, trivial⟩
            · rw [getD_set_eq_any hp]
              exact hpprev
            · rw [getD_set_eq_any hp]
              rfl
      | cons q l2' =>
          have hnext' : (heap.getD a default).next = some q := by
            rw [hnext]
            rfl
          obtain ⟨hq, hqprev, hqnext, hcl2'⟩ := chainSeg_cons.mp hcl2
          have hqnotl2' : q ∉ l2' := (List.nodup_cons.mp hnd2).1
          have hqp : q ≠ p := by
            intro hcon
            exact hpl2 (by rw [← hcon]; exact List.mem_cons_self _ _)
          have hunl : DLL_unlink_heap heap a =
              (heap.set p { heap.getD p default with next := some q }).set q
                { (heap.set p
                    { heap.getD p default with next := some q }).getD q
                    default with prev := some p } := by
            simp only [DLL_unlink_heap, hprev', hnext']
          have hgq : (heap.set p
              { heap.getD p default with next := some q }).getD q default =
              heap.getD q default := getD_set_ne_any _ (Ne.symm hqp) _ _
          rw [hunl, hgq]
          have hq1 : q < (heap.set p
              { heap.getD p default with next := some q }).length := by
            rw [List.length_set]
            exact hq
          rw [chainSeg_append (l1' ++ [p]) (q :: l2') none none]
          have hlastl1 : lastOr (l1' ++ [p]) none = some p := by
            rw [lastOr_none]
            exact getLast?_append_right (by simp)
          constructor
          · rw [chainSeg_append l1' [p] none (headOr (q :: l2') none)]
            constructor
            · refine chainSeg_frame (by simp) ?_ hcl1'
              intro b hb
              have hbq : q ≠ b := by
                intro hcon
                subst hcon
                exact hdisj (List.mem_append_left _ hb)
                  (List.mem_cons_of_mem _ (List.mem_cons_self _ _))
              have hbp : p ≠ b := by
                intro hcon
                subst hcon
                exact hpnotl1' hb
              rw [getD_set_ne_any _ hbq, getD_set_ne_any _ hbp]
            · refine chainSeg_cons.mpr ⟨?_, ?_, ?_, trivial⟩
              · rw [List.length_set, List.length_set]
                exact hp
              · rw [getD_set_ne_any _ hqp, getD_set_eq_any hp]
                exact hpprev
              · rw [getD_set_ne_any _ hqp, getD_set_eq_any hp]
                rfl
          · rw [hlastl1]
            refine chainSeg_cons.mpr ⟨?_, ?_, ?_, ?_⟩
            · rw [List.length_set, List.length_set]
              exact hq
            · rw [getD_set_eq_any hq1]
            · rw [getD_set_eq_any hq1]
              exact hqnext
            · refine chainSeg_frame (by simp) ?_ hcl2'
              intro b hb
              have h1 : q ≠ b := by
                intro hcon
                subst hcon
                exact hqnotl2' hb
              have h2 : p ≠ b := by
                intro hcon
                subst hcon
                exact hpl2 (List.mem_cons_of_mem _ hb)
              rw [getD_set_ne_any _ h1, getD_set_ne_any _ h2]

theorem find?_middle {m1 m2 : List (K × Option D)} {k : K} {v : Option D}
    (h : ∀ p ∈ m1, ¬ p.1 = k) :
    (m1 ++ (k, v) :: m2).find? (fun p => decide (p.1 = k)) = some (k, v) := by
  induction m1 with
  | nil => exact List.find?_cons_of_pos _ (by simp)
  | cons x m1' ih =>
      rw [List.cons_append,
        List.find?_cons_of_neg _ (by simpa using h x (List.mem_cons_self _ _))]
      exact ih (fun p hp => h p (List.mem_cons_of_mem _ hp))

theorem filter_no_key {m : List (K × Option D)} {k : K}
    (h : k ∉ m.map Prod.fst) :
    m.filter (fun p => decide (¬ p.1 = k)) = m := by
  apply List.filter_eq_self.mpr
  intro p hp
  simp only [decide_eq_true_eq]
  intro hcon
  apply h
  rw [← hcon]
  exact List.mem_map_of_mem Prod.fst hp

theorem keys_middle_nodup {m1 m2 : List (K × Option D)} {k : K} {v : Option D}
    (h : ((m1 ++ (k, v) :: m2).map Prod.fst).Nodup) :
    k ∉ m1.map Prod.fst ∧ k ∉ m2.map Prod.fst ∧
    ((m1 ++ m2).map Prod.fst).Nodup := by
  rw [List.map_append, List.map_cons] at h
  obtain ⟨h1, h2, h3⟩ := List.nodup_append.mp h
  obtain ⟨hk2, h4⟩ := List.nodup_cons.mp h2
  refine ⟨fun hc => h3 hc (List.mem_cons_self _ _), hk2, ?_⟩
  rw [List.map_append]
  exact List.Nodup.append h1 h4
    (fun x hx1 hx2 => h3 hx1 (List.mem_cons_of_mem _ hx2))

theorem dl_items_rem_middle {m1 m2 : List (K × Option D)} {k : K}
    {v : Option D} (h1 : k ∉ m1.map Prod.fst) (h2 : k ∉ m2.map Prod.fst) :
    dl_items (m1 ++ (k, v) :: m2) (dl_op.rem k) = m1 ++ m2 := by
  show (m1 ++ (k, v) :: m2).filter (fun p => decide (¬ p.1 = k)) = m1 ++ m2
  rw [List.filter_append, List.filter_cons]
  have hfalse : (decide (¬ (k, v).1 = k)) = false := by
    simp
  rw [hfalse]
  simp only [Bool.false_eq_true, if_false]
  rw [filter_no_key h1, filter_no_key h2]

theorem dl_spec_perm :
    ∀ (ops : List (dl_op K D)) (items : List (K × Option D)),
      (items.map Prod.fst).Nodup → dl_ok items ops = true →
      (items.map Prod.snd ++ dl_inserted items ops).Perm
        (dl_removed items ops ++ (ops.foldl dl_items items).map Prod.snd) := by
  intro ops
  induction ops with
  | nil =>
      intro items _ _
      simp [dl_inserted, dl_removed]
  | cons op rest ih =>
      intro items hnd hok
      cases op with
      | ins k d =>
          have hok' : dl_ok (dl_items items (dl_op.ins k d)) rest = true := hok
          by_cases hmem : k ∈ items.map Prod.fst
          · have hitems : dl_items items (dl_op.ins k d) = items := by
              show (if k ∈ items.map Prod.fst then items else _) = items
              rw [if_pos hmem]
            simp only [dl_inserted, dl_removed, List.foldl_cons]
            rw [if_pos hmem, hitems, List.nil_append]
            exact ih items hnd (by rw [← hitems]; exact hok')
          · have hitems : dl_items items (dl_op.ins k d) = items ++ [(k, d)] := by
              show (if k ∈ items.map Prod.fst then _ else _) = _
              rw [if_neg hmem]
            simp only [dl_inserted, dl_removed, List.foldl_cons]
            rw [if_neg hmem, hitems]
            have hnd' : ((items ++ [(k, d)]).map Prod.fst).Nodup := by
              rw [List.map_append]
              refine List.Nodup.append hnd (List.nodup_singleton _) ?_
              intro x hx1 hx2
              rw [List.map_singleton, List.mem_singleton] at hx2
              subst hx2
              exact hmem hx1
            have hperm := ih (items ++ [(k, d)]) hnd'
              (by rw [← hitems]; exact hok')
            rw [List.map_append] at hperm
            rw [← List.append_assoc]
            exact hperm
      | rem k =>
          have hsplit : (decide (k ∈ items.map Prod.fst) &&
              dl_ok (dl_items items (dl_op.rem k)) rest) = true := hok
          obtain ⟨hm, hok'⟩ := Bool.and_eq_true_iff.mp hsplit
          have hmem : k ∈ items.map Prod.fst := of_decide_eq_true hm
          obtain ⟨p, hpmem, hpk⟩ := List.mem_map.mp hmem
          obtain ⟨m1, m2, rfl⟩ := List.append_of_mem hpmem
          obtain ⟨k', v⟩ := p
          dsimp only at hpk
          subst hpk
          obtain ⟨hk1, hk2, hnd'⟩ := keys_middle_nodup hnd
          have hitems : dl_items (m1 ++ (k', v) :: m2) (dl_op.rem k') = m1 ++ m2 :=
            dl_items_rem_middle hk1 hk2
          have hlook : dl_lookup (m1 ++ (k', v) :: m2) k' = v := by
            unfold dl_lookup
            rw [find?_middle (fun p hp hc => hk1 (by
              rw [← hc]
              exact List.mem_map_of_mem _ hp))]
          simp only [dl_inserted, dl_removed, List.foldl_cons]
          rw [hitems, hlook]
          have hperm := ih (m1 ++ m2) hnd' (by rw [← hitems]; exact hok')
          rw [List.map_append, List.map_cons]
          have hmd : (m1.map Prod.snd ++ v :: m2.map Prod.snd).Perm
              (v :: (m1.map Prod.snd ++ m2.map Prod.snd)) := List.perm_middle
          refine List.Perm.trans
            (List.Perm.append_right (dl_inserted (m1 ++ m2) rest) hmd) ?_
          have hmid : v :: (m1.map Prod.snd ++ m2.map Prod.snd) ++
              dl_inserted (m1 ++ m2) rest =
              v :: ((m1 ++ m2).map Prod.snd ++ dl_inserted (m1 ++ m2) rest) := by
            rw [List.map_append]
            rfl
          rw [hmid]
          exact List.Perm.cons v hperm

theorem ht_clean_key_events_eq (ht : hashtable_t K V) :
    ht_clean_key_events ht = ht.table.flatten.map (fun n => n.key) := by
  suffices h : ∀ (t : List (List (ht_node_t K V))) (acc : List (Option K)),
      t.foldl (fun acc chain => acc ++ chain.map (fun n => n.key)) acc =
        acc ++ t.flatten.map (fun n => n.key) by
    have h2 := h ht.table []
    rw [List.nil_append] at h2
    exact h2
  intro t
  induction t with
  | nil => intro acc; simp
  | cons c t' ih =>
      intro acc
      rw [List.foldl_cons, ih, List.flatten_cons, List.map_append,
        List.append_assoc]

theorem clean_key_count_eq_countP (ht : hashtable_t K V) (k : K) :
    (ht_clean_key_events ht).count (some k) =
      ht.table.flatten.countP (fun n => decide (n.key = some k)) := by
  rw [ht_clean_key_events_eq, List.count_eq_countP, List.countP_map]
  apply List.countP_congr
  intro x _
  constructor
  · intro h
    simp only [Function.comp] at h
    simp only [decide_eq_true_eq]
    exact beq_iff_eq.mp h
  · intro h
    simp only [decide_eq_true_eq] at h
    simp only [Function.comp]
    exact beq_iff_eq.mpr h

theorem clean_key_count_of_HasKey {ht : hashtable_t K V} (hwf : WF ht) {k : K}
    (h : HasKey ht k) : (ht_clean_key_events ht).count (some k) = 1 := by
  rw [clean_key_count_eq_countP]
  obtain ⟨n, hmem, hkey⟩ := h
  have hge : 0 < ht.table.flatten.countP (fun n => decide (n.key = some k)) :=
    List.countP_pos.mpr ⟨n, hmem, by simp [hkey]⟩
  have hle := hwf.uniq k
  omega

theorem clean_key_count_of_not_HasKey {ht : hashtable_t K V} {k : K}
    (h : ¬HasKey ht k) : (ht_clean_key_events ht).count (some k) = 0 := by
  rw [clean_key_count_eq_countP]
  apply List.countP_eq_zero.mpr
  intro n hn
  simp only [decide_eq_true_eq]
  intro hc
  exact h ⟨n, hn, hc⟩

theorem HasKey_remove {ht : hashtable_t K V} (hwf : WF ht) (k j : K) :
    HasKey (ht_remove ht k) j ↔ (j ≠ k ∧ HasKey ht j) := by
  constructor
  · rintro ⟨n, hm, hk⟩
    obtain ⟨hne, hp'⟩ := (HasPair_remove hwf k j n.value).mp ⟨n, hm, hk, rfl⟩
    exact ⟨hne, HasKey_of_HasPair hp'⟩
  · rintro ⟨hne, n, hm, hk⟩
    exact HasKey_of_HasPair
      ((HasPair_remove hwf k j n.value).mpr ⟨hne, n, hm, hk, rfl⟩)

theorem forall2_imp_mem {R S : Nat → (K × Option D) → Prop} :
    ∀ {l : List Nat} {m : List (K × Option D)}, List.Forall₂ R l m →
      (∀ a p, p ∈ m → R a p → S a p) → List.Forall₂ S l m := by
  intro l m h
  induction h with
  | nil => intro _; exact List.Forall₂.nil
  | cons hR hrest ih =>
      intro himp
      exact List.Forall₂.cons (himp _ _ (List.mem_cons_self _ _) hR)
        (ih (fun a p hp hr => himp a p (List.mem_cons_of_mem _ hp) hr))

theorem forall2_map_eq {f : Nat → Option D} :
    ∀ {l : List Nat} {m : List (K × Option D)},
      List.Forall₂ (fun a p => f a = p.2) l m →
      l.map f = m.map Prod.snd := by
  intro l m h
  induction h with
  | nil => rfl
  | cons hR hrest ih =>
      rw [List.map_cons, List.map_cons, hR, ih]

theorem forall2_decomp_right {R : Nat → (K × Option D) → Prop} :
    ∀ {m1 : List (K × Option D)} {l : List Nat} {m2 : List (K × Option D)}
      {p : K × Option D},
      List.Forall₂ R l (m1 ++ p :: m2) →
      ∃ l1 a l2, l = l1 ++ a :: l2 ∧ List.Forall₂ R l1 m1 ∧ R a p ∧
        List.Forall₂ R l2 m2 := by
  intro m1
  induction m1 with
  | nil =>
      intro l m2 p h
      cases h with
      | cons hR hrest => exact ⟨[], _, _, rfl, List.Forall₂.nil, hR, hrest⟩
  | cons x m1' ih =>
      intro l m2 p h
      cases h with
      | cons hR hrest =>
          obtain ⟨l1, a, l2, rfl, hf1, hp, hf2⟩ := ih hrest
          exact ⟨_ :: l1, a, l2, rfl, List.Forall₂.cons hR hf1, hp, hf2⟩

theorem getLast?_append_cons {α : Type _} (l : List α) (b : α) (t : List α) :
    (l ++ b :: t).getLast? = (b :: t).getLast? := by
  cases hL : (b :: t).getLast? with
  | none => exact absurd (getLast?_eq_none_iff_nil.mp hL) (by simp)
  | some x => exact getLast?_append_right hL

theorem forall2_app {R : Nat → (K × Option D) → Prop} :
    ∀ {l1 : List Nat} {m1 : List (K × Option D)} {l2 : List Nat}
      {m2 : List (K × Option D)}, List.Forall₂ R l1 m1 →
      List.Forall₂ R l2 m2 → List.Forall₂ R (l1 ++ l2) (m1 ++ m2) := by
  intro l1 m1 l2 m2 h1 h2
  induction h1 with
  | nil => exact h2
  | cons hR hrest ih => exact List.Forall₂.cons hR ih

theorem DHinv_apply {s : DLL_HT_t K D} {items : List (K × Option D)}
    (hinv : DHinv s items) :
    ∀ op : dl_op K D,
      (match op with
       | dl_op.rem k => k ∈ items.map Prod.fst
       | dl_op.ins _ _ => True) →
      DHinv (DLL_HT_apply s op).1 (dl_items items op) ∧
      (DLL_HT_apply s op).2 =
        (match op with
         | dl_op.rem k => [FreeEv.val (dl_lookup items k)]
         | dl_op.ins _ _ => []) := by
  obtain ⟨live, hrep, hfa, hwf, hndk, hiff⟩ := hinv
  intro op hok
  cases op with
  | ins k d =>
      by_cases hc : ht_contains s.ht k
      · have hky : k ∈ items.map Prod.fst :=
          (hiff k).mp ((ht_contains_iff hwf k).mp hc)
        have happ : DLL_HT_apply s (dl_op.ins k d) = (s, []) := by
          show (DLL_HT_insert s k d, []) = (s, [])
          unfold DLL_HT_insert
          rw [if_pos hc]
        have hitems : dl_items items (dl_op.ins k d) = items := by
          show (if k ∈ items.map Prod.fst then items else _) = items
          rw [if_pos hky]
        rw [happ, hitems]
        exact ⟨⟨live, hrep, hfa, hwf, hndk, hiff⟩, rfl⟩
      · have hnk : k ∉ items.map Prod.fst := fun hmem =>
          hc ((ht_contains_iff hwf k).mpr ((hiff k).mpr hmem))
        have hcfalse : ht_contains s.ht k = false := by
          cases hb : ht_contains s.ht k
          · rfl
          · exact absurd hb hc
        obtain ⟨hrep', hlen', htail', hdataold, hdatanew⟩ :=
          DLL_insert_tail_spec hrep d
        have huniq : (ht_unique_insert s.ht k (some s.list.heap.length)).1 =
            ht_insert s.ht k (some s.list.heap.length) := by
          rw [ht_unique_insert_not_contained hcfalse]
        have happ : DLL_HT_apply s (dl_op.ins k d) =
            (DLL_HT_t.mk (DLL_insert_tail s.list d)
              (ht_insert s.ht k (some s.list.heap.length)), []) := by
          show (DLL_HT_insert s k d, []) = _
          unfold DLL_HT_insert
          rw [if_neg hc]
          dsimp only
          rw [htail']
          simp only [Option.getD_some]
          rw [huniq]
        have hitems : dl_items items (dl_op.ins k d) = items ++ [(k, d)] := by
          show (if k ∈ items.map Prod.fst then _ else _) = _
          rw [if_neg hnk]
        rw [happ, hitems]
        refine ⟨⟨live ++ [s.list.heap.length], hrep', ?_,
          WF_insert hwf k (some s.list.heap.length), ?_, ?_⟩, rfl⟩
        · refine forall2_app ?_
            (List.Forall₂.cons ⟨?_, hdatanew, ?_⟩ List.Forall₂.nil)
          · refine forall2_imp_mem hfa ?_
            intro b p hp hr
            have hpk : p.1 ≠ k := by
              intro hcon
              exact hnk (hcon ▸ List.mem_map_of_mem Prod.fst hp)
            refine ⟨?_, ?_, ?_⟩
            · rw [hlen']
              exact Nat.lt_succ_of_lt hr.1
            · rw [hdataold b (Nat.ne_of_lt hr.1)]
              exact hr.2.1
            · rw [HasPair_insert hwf k (some s.list.heap.length) p.1 (some b),
                if_neg hpk]
              exact hr.2.2
          · rw [hlen']
            omega
          · rw [HasPair_insert hwf k (some s.list.heap.length) k
              (some s.list.heap.length), if_pos rfl]
        · rw [List.map_append]
          refine List.Nodup.append hndk (List.nodup_singleton _) ?_
          intro x hx1 hx2
          rw [List.map_singleton, List.mem_singleton] at hx2
          subst hx2
          exact hnk hx1
        · intro j
          rw [HasKey_insert hwf k (some s.list.heap.length) j, hiff j,
            List.map_append]
          simp only [List.map_singleton, List.mem_append, List.mem_singleton]
          tauto
  | rem k =>
      obtain ⟨p, hpmem, hpk⟩ := List.mem_map.mp hok
      obtain ⟨m1, m2, rfl⟩ := List.append_of_mem hpmem
      obtain ⟨k', v⟩ := p
      dsimp only at hpk
      subst hpk
      obtain ⟨hk1, hk2, hnd'⟩ := keys_middle_nodup hndk
      obtain ⟨l1, a, l2, rfl, hf1, hR, hf2⟩ := forall2_decomp_right hfa
      obtain ⟨haB, hdata, hpairA⟩ := hR
      dsimp only at hdata
      have hsearch : ht_search s.ht k' = some a := ht_search_of_HasPair hwf hpairA
      have happ : DLL_HT_apply s (dl_op.rem k') =
          (DLL_HT_t.mk
            (DLL_t.mk (DLL_unlink_heap s.list.heap a)
              (match (s.list.heap.getD a default).prev with
                | some _ => s.list.head
                | none => (s.list.heap.getD a default).next)
              (match (s.list.heap.getD a default).next with
                | some _ => s.list.tail
                | none => (s.list.heap.getD a default).prev))
            (ht_remove s.ht k'),
           [FreeEv.val (s.list.heap.getD a default).data]) := by
        show DLL_HT_remove s k' true = _
        simp only [DLL_HT_remove, hsearch, Option.getD_some]
        rfl
      obtain ⟨hchain', hulen, hudata, hpv, hnx⟩ :=
        DLL_unlink_spec hrep.2.2.1 hrep.2.2.2
      have hhead' : (match (s.list.heap.getD a default).prev with
          | some _ => s.list.head
          | none => (s.list.heap.getD a default).next) = (l1 ++ l2).head? := by
        cases hL : l1.getLast? with
        | none =>
            have hnil : l1 = [] := getLast?_eq_none_iff_nil.mp hL
            subst hnil
            have hpv' : (s.list.heap.getD a default).prev = none := by
              rw [hpv]
              rfl
            rw [hpv', hnx]
            rfl
        | some x =>
            obtain ⟨l1', rfl⟩ := getLast?_eq_some_concat hL
            have hpv' : (s.list.heap.getD a default).prev = some x := by
              rw [hpv]
              exact hL
            rw [hpv', hrep.1]
            cases l1' <;> rfl
      have htail2 : (match (s.list.heap.getD a default).next with
          | some _ => s.list.tail
          | none => (s.list.heap.getD a default).prev) =
          (l1 ++ l2).getLast? := by
        cases l2 with
        | nil =>
            have hnx' : (s.list.heap.getD a default).next = none := by
              rw [hnx]
              rfl
            rw [hnx', hpv, List.append_nil]
        | cons q l2' =>
            have hnx' : (s.list.heap.getD a default).next = some q := by
              rw [hnx]
              rfl
            rw [hnx', hrep.2.1, getLast?_append_cons,
              List.getLast?_cons_cons, getLast?_append_cons]
      have hndnew : (l1 ++ l2).Nodup :=
        hrep.2.2.2.sublist
          (List.Sublist.append_left (List.sublist_cons_self a l2) l1)
      have hitems : dl_items (m1 ++ (k', v) :: m2) (dl_op.rem k') = m1 ++ m2 :=
        dl_items_rem_middle hk1 hk2
      have hlook : dl_lookup (m1 ++ (k', v) :: m2) k' = v := by
        unfold dl_lookup
        rw [find?_middle (fun p hp hcon => hk1 (by
          rw [← hcon]
          exact List.mem_map_of_mem _ hp))]
      rw [happ, hitems]
      have htrans : ∀ (mside : List (K × Option D)) (lside : List Nat),
          (k' ∉ mside.map Prod.fst) →
          List.Forall₂ (fun (b : Nat) (p : K × Option D) =>
            b < s.list.heap.length ∧
            (s.list.heap.getD b default).data = p.2 ∧
            HasPair s.ht p.1 (some b)) lside mside →
          List.Forall₂ (fun (b : Nat) (p : K × Option D) =>
            b < (DLL_unlink_heap s.list.heap a).length ∧
            ((DLL_unlink_heap s.list.heap a).getD b default).data = p.2 ∧
            HasPair (ht_remove s.ht k') p.1 (some b)) lside mside := by
        intro mside lside hnotin hfside
        refine forall2_imp_mem hfside ?_
        intro b p hp hr
        have hpk2 : p.1 ≠ k' := by
          intro hcon
          exact hnotin (hcon ▸ List.mem_map_of_mem Prod.fst hp)
        refine ⟨?_, ?_, ?_⟩
        · rw [hulen]
          exact hr.1
        · rw [hudata b]
          exact hr.2.1
        · rw [HasPair_remove hwf k' p.1 (some b)]
          exact ⟨hpk2, hr.2.2⟩
      refine ⟨⟨l1 ++ l2, ⟨hhead', htail2, hchain', hndnew⟩,
        forall2_app (htrans m1 l1 hk1 hf1) (htrans m2 l2 hk2 hf2),
        WF_remove hwf k', hnd', ?_⟩, ?_⟩
      · intro j
        rw [HasKey_remove hwf k' j, hiff j, List.map_append, List.map_cons,
          List.map_append]
        simp only [List.mem_append, List.mem_cons]
        constructor
        · rintro ⟨hne, h1 | (h2 | h3)⟩
          · exact Or.inl h1
          · exact absurd h2 hne
          · exact Or.inr h3
        · rintro (h1 | h2)
          · exact ⟨fun hcon => hk1 (hcon ▸ h1), Or.inl h1⟩
          · exact ⟨fun hcon => hk2 (hcon ▸ h2), Or.inr (Or.inr h2)⟩
      · show [FreeEv.val (s.list.heap.getD a default).data] =
            [FreeEv.val (dl_lookup (m1 ++ (k', v) :: m2) k')]
        rw [hdata, hlook]

theorem dl_run_from_acc :
    ∀ (ops : List (dl_op K D)) (s : DLL_HT_t K D) (evs : List (FreeEv K D)),
      ops.foldl (fun acc op =>
        ((DLL_HT_apply acc.1 op).1, acc.2 ++ (DLL_HT_apply acc.1 op).2))
        (s, evs) =
      ((DLL_HT_run_from s ops).1, evs ++ (DLL_HT_run_from s ops).2) := by
  intro ops
  induction ops with
  | nil =>
      intro s evs
      show (s, evs) = (s, evs ++ [])
      rw [List.append_nil]
  | cons op rest ih =>
      intro s evs
      rw [List.foldl_cons, ih]
      have hunf : DLL_HT_run_from s (op :: rest) =
          ((DLL_HT_run_from (DLL_HT_apply s op).1 rest).1,
            (DLL_HT_apply s op).2 ++
              (DLL_HT_run_from (DLL_HT_apply s op).1 rest).2) := by
        show rest.foldl _ ((DLL_HT_apply s op).1, [] ++ (DLL_HT_apply s op).2) = _
        rw [List.nil_append]
        exact ih (DLL_HT_apply s op).1 (DLL_HT_apply s op).2
      rw [hunf, List.append_assoc]

theorem dl_run_from_cons (s : DLL_HT_t K D) (op : dl_op K D)
    (rest : List (dl_op K D)) :
    DLL_HT_run_from s (op :: rest) =
      ((DLL_HT_run_from (DLL_HT_apply s op).1 rest).1,
        (DLL_HT_apply s op).2 ++
          (DLL_HT_run_from (DLL_HT_apply s op).1 rest).2) := by
  show rest.foldl _ ((DLL_HT_apply s op).1, [] ++ (DLL_HT_apply s op).2) = _
  rw [List.nil_append]
  exact dl_run_from_acc rest (DLL_HT_apply s op).1 (DLL_HT_apply s op).2

theorem dl_run_from_inv :
    ∀ (ops : List (dl_op K D)) (s : DLL_HT_t K D)
      (items : List (K × Option D)),
      DHinv s items → dl_ok items ops = true →
      DHinv (DLL_HT_run_from s ops).1 (ops.foldl dl_items items) ∧
      (DLL_HT_run_from s ops).2 = (dl_removed items ops).map FreeEv.val := by
  intro ops
  induction ops with
  | nil =>
      intro s items hinv _
      exact ⟨hinv, rfl⟩
  | cons op rest ih =>
      intro s items hinv hok
      cases op with
      | ins k d =>
          have hok' : dl_ok (dl_items items (dl_op.ins k d)) rest = true := hok
          obtain ⟨hinv', hev⟩ := DHinv_apply hinv (dl_op.ins k d) trivial
          rw [dl_run_from_cons]
          obtain ⟨hrec1, hrec2⟩ := ih (DLL_HT_apply s (dl_op.ins k d)).1
            (dl_items items (dl_op.ins k d)) hinv' hok'
          refine ⟨?_, ?_⟩
          · rw [List.foldl_cons]
            exact hrec1
          · rw [hev, hrec2, List.nil_append]
            rfl
      | rem k =>
          have hsplit := Bool.and_eq_true_iff.mp hok
          have hmem : k ∈ items.map Prod.fst := of_decide_eq_true hsplit.1
          have hok' : dl_ok (dl_items items (dl_op.rem k)) rest = true :=
            hsplit.2
          obtain ⟨hinv', hev⟩ := DHinv_apply hinv (dl_op.rem k) hmem
          rw [dl_run_from_cons]
          obtain ⟨hrec1, hrec2⟩ := ih (DLL_HT_apply s (dl_op.rem k)).1
            (dl_items items (dl_op.rem k)) hinv' hok'
          refine ⟨?_, ?_⟩
          · rw [List.foldl_cons]
            exact hrec1
          · rw [hev, hrec2]
            rfl

theorem DHinv_create (cmp : Option K → Option K → Int) (hash : Option K → Nat)
    (hcmp : cmpOk cmp) :
    DHinv (DLL_HT_create cmp hash (K := K) (D := D)) [] := by
  refine ⟨[], ⟨rfl, rfl, trivial, List.nodup_nil⟩, List.Forall₂.nil,
    WF_create INITIAL_TABLE_SIZE cmp hash hcmp (by decide), List.nodup_nil, ?_⟩
  intro j
  constructor
  · rintro ⟨n, hmem, _⟩
    rw [show (DLL_HT_create cmp hash (K := K) (D := D)).ht.table =
      List.replicate INITIAL_TABLE_SIZE [] from rfl,
      flatten_replicate_nil] at hmem
    cases hmem
  · intro h
    cases h

theorem count_val_map_zero (l : List (Option D)) (j : K) :
    (l.map FreeEv.val).count (FreeEv.key (some j) : FreeEv K D) = 0 := by
  apply List.count_eq_zero.mpr
  intro hmem
  obtain ⟨x, _, hx⟩ := List.mem_map.mp hmem
  cases hx

theorem count_key_map (l : List (Option K)) (j : K) :
    (l.map FreeEv.key).count (FreeEv.key (some j) : FreeEv K D) =
      l.count (some j) := by
  rw [List.count_eq_countP, List.count_eq_countP, List.countP_map]
  apply List.countP_congr
  intro x _
  constructor
  · intro h
    simp only [Function.comp] at h
    have h2 : FreeEv.key (D := D) x = FreeEv.key (some j) := beq_iff_eq.mp h
    injection h2 with h3
    exact beq_iff_eq.mpr h3
  · intro h
    have h2 : x = some j := beq_iff_eq.mp h
    simp only [Function.comp]
    exact beq_iff_eq.mpr (by rw [h2])

/-- **C8** (corrected): free discipline of the keyed list.  For every run of
inserts and removals of present keys (each removal with `free_data` supplied)
ended by `DLL_HT_clean` with both callables: the free-event trace is exactly
the removed values in removal order, then the remaining values in list order
(from the list drain), then one `free_key` call per index chain slot; the
multiset of values handed to `free_data` is exactly the multiset of stored
values, i.e. every stored value is released exactly once; and `free_key` is
invoked exactly once on every key still present at clean time and NEVER on a
key that was removed earlier — removed keys are not released by `DLL_HT_remove`
(which calls `ht_remove(ht, key, NULL, NULL)`) nor by the clean, contrary to
the original claim that every key is freed exactly once. -/
theorem claim8_free_discipline (cmp : Option K → Option K → Int)
    (hash : Option K → Nat) (hcmp : cmpOk cmp) (ops : List (dl_op K D))
    (hok : dl_ok [] ops = true) :
    DLL_HT_trace cmp hash ops =
      (dl_removed [] ops).map FreeEv.val ++
        ((ops.foldl dl_items []).map Prod.snd).map FreeEv.val ++
        (ht_clean_key_events (DLL_HT_run cmp hash ops).1.ht).map FreeEv.key ∧
    (dl_inserted [] ops).Perm
      (dl_removed [] ops ++ (ops.foldl dl_items []).map Prod.snd) ∧
    (∀ j : K, (DLL_HT_trace cmp hash ops).count (FreeEv.key (some j)) =
      if j ∈ (ops.foldl dl_items []).map Prod.fst then 1 else 0) := by
  obtain ⟨hinv, hev⟩ := dl_run_from_inv ops (DLL_HT_create cmp hash) []
    (DHinv_create cmp hash hcmp) hok
  obtain ⟨live, hrep, hfa, hwf, hndk, hiff⟩ := hinv
  have hdrain : DLL_clean (DLL_HT_run_from (DLL_HT_create cmp hash) ops).1.list
      true = live.map (fun a =>
        ((DLL_HT_run_from (DLL_HT_create cmp hash)
          ops).1.list.heap.getD a default).data) :=
    DLL_clean_drain hrep
  have hmapsnd : live.map (fun a =>
      ((DLL_HT_run_from (DLL_HT_create cmp hash)
        ops).1.list.heap.getD a default).data) =
      (ops.foldl dl_items []).map Prod.snd :=
    forall2_map_eq (List.Forall₂.imp (fun a p h => h.2.1) hfa)
  have hclean : DLL_HT_clean
      (DLL_HT_run_from (DLL_HT_create cmp hash) ops).1 true true =
      (DLL_clean (DLL_HT_run_from (DLL_HT_create cmp hash) ops).1.list
        true).map FreeEv.val ++
      (ht_clean_key_events
        (DLL_HT_run_from (DLL_HT_create cmp hash) ops).1.ht).map FreeEv.key := by
    unfold DLL_HT_clean
    rfl
  have htrace : DLL_HT_trace cmp hash ops =
      (dl_removed [] ops).map FreeEv.val ++
        (((ops.foldl dl_items []).map Prod.snd).map FreeEv.val ++
          (ht_clean_key_events
            (DLL_HT_run_from (DLL_HT_create cmp hash)
              ops).1.ht).map FreeEv.key) := by
    show (DLL_HT_run_from (DLL_HT_create cmp hash) ops).2 ++
      DLL_HT_clean (DLL_HT_run_from (DLL_HT_create cmp hash) ops).1 true true = _
    rw [hev, hclean, hdrain, hmapsnd]
  refine ⟨?_, ?_, ?_⟩
  · rw [htrace, List.append_assoc]
    rfl
  · have hperm := dl_spec_perm ops [] List.nodup_nil hok
    rw [List.map_nil, List.nil_append] at hperm
    exact hperm
  · intro j
    have hkey : (DLL_HT_trace cmp hash ops).count (FreeEv.key (some j)) =
        (ht_clean_key_events
          (DLL_HT_run_from (DLL_HT_create cmp hash) ops).1.ht).count (some j) := by
      rw [htrace, List.count_append, List.count_append, count_val_map_zero,
        count_val_map_zero, count_key_map]
      omega
    rw [hkey]
    by_cases hj : j ∈ (ops.foldl dl_items []).map Prod.fst
    · rw [if_pos hj]
      exact clean_key_count_of_HasKey hwf ((hiff j).mpr hj)
    · rw [if_neg hj]
      exact clean_key_count_of_not_HasKey (fun hk => hj ((hiff j).mp hk))

/-- Counterexample to the claimed key free discipline: insert key 1 with
value 7, remove it (with `free_data`), then clean with both callables.  The
whole lifetime's free-event trace is `[free_value 7, free_key NULL]`:
`free_key` is never invoked on key 1 (the removal deletes the index entry via
`ht_remove(ht, key, NULL, NULL)` and the clean only sees the cleared slot),
so the removed key leaks, and the clean instead passes the cleared slot's
NULL key to `free_key`. -/
theorem claim8_counterexample :
    DLL_HT_trace eqCmp (fun _ => 0)
        [dl_op.ins (1 : Nat) (some (7 : Nat)), dl_op.rem 1] =
      [FreeEv.val (some 7), FreeEv.key none] ∧
    (DLL_HT_trace eqCmp (fun _ => 0)
        [dl_op.ins (1 : Nat) (some (7 : Nat)), dl_op.rem 1]).count
      (FreeEv.key (some 1)) = 0 ∧
    (DLL_HT_trace eqCmp (fun _ => 0)
        [dl_op.ins (1 : Nat) (some (7 : Nat)), dl_op.rem 1]).count
      (FreeEv.key none) = 1 := by
  decide

/-- Concrete run of the amended C8: insert keys 1 and 2, remove 1, clean.
The still-present key 2 is freed exactly once, the removed key 1 never, and
the two stored values are freed exactly once each (7 by the removal, 8 by
the drain). -/
theorem claim8_witness :
    (DLL_HT_trace eqCmp (fun _ => 0)
      [dl_op.ins (1 : Nat) (some (7 : Nat)), dl_op.ins 2 (some 8),
        dl_op.rem 1]).count (FreeEv.key (some 2)) = 1 ∧
    (DLL_HT_trace eqCmp (fun _ => 0)
      [dl_op.ins (1 : Nat) (some (7 : Nat)), dl_op.ins 2 (some 8),
        dl_op.rem 1]).count (FreeEv.key (some 1)) = 0 ∧
    (dl_inserted ([] : List (Nat × Option Nat))
      [dl_op.ins (1 : Nat) (some (7 : Nat)), dl_op.ins 2 (some 8),
        dl_op.rem 1]).Perm
      (dl_removed []
        [dl_op.ins (1 : Nat) (some (7 : Nat)), dl_op.ins 2 (some 8),
          dl_op.rem 1] ++
        (([dl_op.ins (1 : Nat) (some (7 : Nat)), dl_op.ins 2 (some 8),
          dl_op.rem 1].foldl dl_items []).map Prod.snd)) := by
  have h := claim8_free_discipline eqCmp (fun _ => 0) cmpOk_eqCmp
    [dl_op.ins (1 : Nat) (some (7 : Nat)), dl_op.ins 2 (some 8), dl_op.rem 1]
    (by decide)
  refine ⟨?_, ?_, h.2.1⟩
  · rw [h.2.2 2]
    decide
  · rw [h.2.2 1]
    decide

end DSLib

